import Mathlib

/-!
Verification of the transition-AMR-parser core (`transition_amr_parser/amr_machine.py`)
against its natural-language specification.

The Python source is shallowly embedded: Python dicts become association
lists with insertion-order semantics (overwriting keeps the key position,
a fresh key is appended at the end), `defaultdict(list)` lookups default
to `[]`, fallible operations (KeyError, IndexError, failed `assert`,
ValueError from `list.remove`, `NotImplementedError`) are modelled with
`Except PyErr`.  Machine actions, which the Python code represents as
strings parsed by regexes, are modelled by the sum type `Action`; the
constructors correspond one-to-one to the string shapes the regexes
distinguish (`SHIFT`, `COPY`, `ROOT`, `CLOSE`, `>LA(pos,label)`,
`>RA(pos,label)`, `REDUCE`/`REDUCE2`/`REDUCE3`, and any other string as a
literal node label).  Pointer values in arc actions are modelled as `Nat`
(the machine and the oracle only ever emit non-negative pointers).
-/

namespace AmrMachine

/-- Python exception kinds that the embedded code can raise. -/
inductive PyErr where
  | assertError
  | indexError
  | keyError
  | valueError
  | typeError
  | notImplementedError
  | fuelError
deriving Repr, DecidableEq

/-- Python list indexing `xs[i]` with negative-index wrap-around;
`none` models an IndexError. -/
def pyIdx (xs : List α) (i : Int) : Option α :=
  if i ≥ 0 then xs[i.toNat]?
  else if (-i) ≤ (xs.length : Int) then xs[(xs.length - (-i).toNat)]?
  else none

/-- Python `xs[-1]` (IndexError on the empty list). -/
def pyLast (xs : List α) : Except PyErr α :=
  match xs.getLast? with
  | some a => .ok a
  | none => .error .indexError

/-- Python `max(xs)` on a list of naturals (`ValueError` on the empty list). -/
def pyMax (xs : List Nat) : Except PyErr Nat :=
  match xs with
  | [] => .error .valueError
  | x :: rest => .ok (rest.foldl Nat.max x)

/-- Python `min(xs)` on a list of naturals (`ValueError` on the empty list). -/
def pyMin (xs : List Nat) : Except PyErr Nat :=
  match xs with
  | [] => .error .valueError
  | x :: rest => .ok (rest.foldl Nat.min x)

/-- Python dict assignment `d[k] = v`: overwriting keeps the key at its
original position, a fresh key is appended at the end. -/
def dinsert [BEq α] (k : α) (v : β) : List (α × β) → List (α × β)
  | [] => [(k, v)]
  | (k', v') :: rest =>
      if k' == k then (k, v) :: rest else (k', v') :: dinsert k v rest

/-- Python `defaultdict(list)` operation `d[k].append(v)`. -/
def dappend [BEq α] (k : α) (v : β) : List (α × List β) → List (α × List β)
  | [] => [(k, [v])]
  | (k', vs) :: rest =>
      if k' == k then (k', vs ++ [v]) :: rest else (k', vs) :: dappend k v rest

/-- Lookup in an association list, raising KeyError when absent
(Python `d[k]` on a plain dict). -/
def dlookupE [BEq α] (m : List (α × β)) (k : α) : Except PyErr β :=
  match m.lookup k with
  | some v => .ok v
  | none => .error .keyError

/-- Stable insertion into a list sorted by the (total) boolean relation
`le`; an element already in the list stays before a newly inserted one
that is `le`-tied with it.  Together with `pysort` this models Python's
stable `list.sort`. -/
def sortInsert (le : α → α → Bool) (a : α) : List α → List α
  | [] => [a]
  | b :: bs => if le b a then b :: sortInsert le a bs else a :: b :: bs

/-- Stable sort by the boolean relation `le` (model of Python `list.sort`). -/
def pysort (le : α → α → Bool) : List α → List α
  | [] => []
  | a :: as => sortInsert le a (pysort le as)

/-- `normalize` from `amr_machine.py`: remove quote characters from a
token or node name, except for the bare quote token itself.  (Python
`token.replace('"', '')` on a one-character pattern removes every
occurrence, modelled by filtering the character list.) -/
def normalize (token : String) : String :=
  if token = "\"" then token else ⟨token.data.filter (· ≠ '"')⟩

/-- Gold AMR graph as consumed by the oracle: tokens, node-id→label map,
edge list, node-id→optional-token-positions alignment map, root id.
Maps are association lists in Python-dict insertion order; a node id
absent from `alignments` models a node with no alignment entry at all,
while `(nid, none)` models an entry explicitly set to `None`. -/
structure AMR where
  tokens : List String
  nodes : List (String × String)
  edges : List (String × String × String)
  alignments : List (String × Option (List Nat))
  root : String
deriving Repr, DecidableEq

/-- `graph_alignments(unaligned_nodes, amr)` from `amr_machine.py`:
one sweep over the edge list proposing alignments for unaligned nodes.
For an edge `(src, _, tgt)`: if `src` is unaligned and the child `tgt`
is aligned with `max(alignments[tgt])` greater than the current proposal
(default 0), propose that maximum for `src`; otherwise if `tgt` is
unaligned and the parent `src` is aligned with `min(alignments[src])`
below the current proposal (default 1e6), propose `max(alignments[src])`
for `tgt`.  Dict lookups of endpoints absent from the alignment map
raise KeyError, exactly as in Python. -/
def graph_alignments (unaligned_nodes : List String) (amr : AMR) :
    Except PyErr (List (String × Nat)) :=
  amr.edges.foldlM
    (fun fix (e : String × String × String) => do
    let (src, _, tgt) := e
    if src ∈ unaligned_nodes then do
      let atgt ← dlookupE amr.alignments tgt
      match atgt with
      | some l => do
          let m ← pyMax l
          if m > ((fix.lookup src).getD 0) then
            pure (dinsert src m fix)
          else do
            -- first condition false: fall through to the elif
            if tgt ∈ unaligned_nodes then do
              let asrc ← dlookupE amr.alignments src
              match asrc with
              | some l2 => do
                  let mn ← pyMin l2
                  if mn < ((fix.lookup tgt).getD 1000000) then
                    pure (dinsert tgt (← pyMax l2) fix)
                  else pure fix
              | none => pure fix
            else pure fix
      | none => do
          if tgt ∈ unaligned_nodes then do
            let asrc ← dlookupE amr.alignments src
            match asrc with
            | some l2 => do
                let mn ← pyMin l2
                if mn < ((fix.lookup tgt).getD 1000000) then
                  pure (dinsert tgt (← pyMax l2) fix)
                else pure fix
            | none => pure fix
          else pure fix
    else do
      if tgt ∈ unaligned_nodes then do
        let asrc ← dlookupE amr.alignments src
        match asrc with
        | some l2 => do
            let mn ← pyMin l2
            if mn < ((fix.lookup tgt).getD 1000000) then
              pure (dinsert tgt (← pyMax l2) fix)
            else pure fix
        | none => pure fix
      else pure fix)
    []

/-- One pass of the Python loop
`for nid in unaligned_nodes: if nid in fix_alignments: ... unaligned_nodes.remove(nid)`.
The list is mutated while being iterated: removing the element at the
iterator position makes the next iteration skip the element that slides
into that position.  This CPython behaviour is reproduced with an
accumulator of the elements already kept: on a hit the visited element
is dropped and the following element is kept unvisited.  (The list this
is applied to is duplicate-free by construction, so the removed first
occurrence is always the visited element.) -/
def sweepGo (fix : List (String × Nat)) :
    List String → List String → List (String × Option (List Nat)) →
    (List String × List (String × Option (List Nat)))
  | done, [], align => (done, align)
  | done, x :: rest, align =>
    match fix.lookup x with
    | some v =>
        match rest with
        | [] => (done, dinsert x (some [v]) align)
        | y :: rest2 => sweepGo fix (done ++ [y]) rest2 (dinsert x (some [v]) align)
    | none => sweepGo fix (done ++ [x]) rest align

/-- The sweep/repeat loop of `fix_alignments`, with explicit fuel.  Each
non-breaking iteration removes at least one element from the unaligned
list, so fuel `length + 1` (supplied by `fix_alignments`) can never run
out; `fuelError` is unreachable for the calls made in this file. -/
def fixLoop : Nat → List String → List (String × Option (List Nat)) →
    AMR → Except PyErr (List (String × Option (List Nat)))
  | 0, _, _, _ => .error .fuelError
  | _ + 1, [], align, _ => .ok align
  | fuel + 1, cur@(_ :: _), align, amr => do
      let fix ← graph_alignments cur { amr with alignments := align }
      let (cur', align') := sweepGo fix [] cur align
      if fix.isEmpty then
        -- hard fix on 0th token: only entries explicitly set to None
        .ok (align'.map fun (k, v) => (k, if v = none then some [0] else v))
      else
        fixLoop fuel cur' align' amr

/-- `fix_alignments(gold_amr)` from `amr_machine.py`: compute the
(sorted, duplicate-free) list of unaligned nodes, handle the degenerate
single-token case, then repeatedly sweep `graph_alignments` until no
unaligned nodes remain or no sweep makes progress (in which case only
alignment entries explicitly set to `None` are hard-fixed to token 0).
Returns the repaired AMR and the original list of unaligned nodes. -/
def fix_alignments (gold_amr : AMR) : Except PyErr (AMR × List String) := do
  let missing := (gold_amr.nodes.map Prod.fst).filter
    (fun nid => (gold_amr.alignments.lookup nid).isNone)
  let noneValued := (gold_amr.alignments.filterMap
    (fun (k, v) => if v = none then some k else none))
  let unaligned := pysort (fun a b => !(decide (b < a)))
    ((missing ++ noneValued).dedup)
  if unaligned.isEmpty then
    return (gold_amr, [])
  if unaligned.length = 1 ∧ gold_amr.tokens.length = 1 then
    let nid := unaligned.headI
    return ({ gold_amr with alignments := dinsert nid (some [0]) gold_amr.alignments },
            [])
  let align' ← fixLoop (unaligned.length + 1) unaligned gold_amr.alignments gold_amr
  return ({ gold_amr with alignments := align' }, unaligned)

/-- Machine actions.  The Python code passes actions as strings and
dispatches on regexes (`>LA(pos,label)`, `>RA(pos,label)`) and string
prefixes (`CLOSE`, `ROOT`); the sum type below mirrors that alphabet,
with `node label` covering every string that matches none of the control
shapes and is therefore interpreted as a literal node name. -/
inductive Action where
  | shift
  | copy
  | root
  | close
  | node (label : String)
  | la (pos : Nat) (label : String)
  | ra (pos : Nat) (label : String)
  | reduce
  | reduce2
  | reduce3
deriving Repr, DecidableEq

/-- `get_base_action` from `amr_machine.py`: the canonical base form of
an action (arc actions collapse to `>LA`/`>RA`, node-name actions to
`NODE`).  The result depends on `base_action_vocabulary`: with
`use_copy=False` the constructor removes `'COPY'` from the vocabulary,
so `get_base_action('COPY')` falls through the arc regexes to the
`NODE` fallback; hence the `use_copy` parameter.  Note also that
`REDUCE`/`REDUCE2`/`REDUCE3` are never members of the vocabulary (the
constructor appends them as one nested list), so their base form is
`NODE` via the same fallback. -/
def Action.base (use_copy : Bool) : Action → String
  | .shift => "SHIFT"
  | .copy => if use_copy then "COPY" else "NODE"
  | .root => "ROOT"
  | .close => "CLOSE"
  | .node _ => "NODE"
  | .la _ _ => ">LA"
  | .ra _ _ => ">RA"
  | .reduce => "NODE"
  | .reduce2 => "NODE"
  | .reduce3 => "NODE"

/-- Python truthiness of an action string (`assert self.action_history[-1]`):
every control action renders as a non-empty string; a literal node-name
action is falsy exactly when its label is the empty string. -/
def Action.truthy : Action → Bool
  | .node l => l ≠ ""
  | _ => true

/-- The configuration (non-state) part of `AMRStateMachine.__init__` /
`AMROracle.__init__`: `reduce_nodes`, `absolute_stack_pos`, `use_copy`. -/
structure MachineConfig where
  reduce_nodes : Option String := none
  absolute_stack_pos : Bool := false
  use_copy : Bool := true
deriving Repr, DecidableEq

/-- Python truthiness of the `reduce_nodes` configuration value
(`None` and the empty string are falsy). -/
def MachineConfig.reduceTruthy (cfg : MachineConfig) : Bool :=
  match cfg.reduce_nodes with
  | none => false
  | some s => s ≠ ""

/-- The per-sentence state set up by `AMRStateMachine.reset` (align mode,
i.e. a non-`None` `gold_amr`, is not modelled: the oracle and replay
pipelines under verification always reset with `gold_amr=None`). -/
structure AMRStateMachine where
  tokens : List String
  tok_cursor : Nat
  node_stack : List Nat
  action_history : List Action
  actions_tokcursor : List Nat
  nodes : List (Nat × String)
  edges : List (Nat × String × Nat)
  root : Option Nat
  alignments : List (Nat × List Nat)
  is_closed : Bool
deriving Repr, DecidableEq

/-- `AMRStateMachine.reset(tokens)`: fresh per-sentence state. -/
def AMRStateMachine.reset (tokens : List String) : AMRStateMachine :=
  { tokens := tokens
    tok_cursor := 0
    node_stack := []
    action_history := []
    actions_tokcursor := []
    nodes := []
    edges := []
    root := none
    alignments := []
    is_closed := false }

/-- The `gen_node_actions` list of `get_valid_actions`. -/
def genNodeActions (cfg : MachineConfig) : List String :=
  if cfg.use_copy then ["COPY", "NODE"] else ["NODE"]

/-- The pure part of `AMRStateMachine.get_valid_actions(max_1root=True)`
in non-align mode (the `valid_base_actions` list before the end-of-
sentence handling): `SHIFT` and the node-generating actions while
tokens remain, then `>LA`/`>RA` when the last action's base form is
node-generating, `ROOT`, `>LA` or `>RA`, then `ROOT` when the last
action is node-generating and (with `max_1root`) `not self.root` holds:
Python falsiness, true when the root is unset but also when the root is
the node with id 0. -/
def validBase (cfg : MachineConfig) (st : AMRStateMachine)
    (max_1root : Bool) : List String :=
  (if st.tok_cursor < st.tokens.length
     then ["SHIFT"] ++ genNodeActions cfg else []) ++
  (match st.action_history.getLast? with
   | some a =>
      if a.base cfg.use_copy ∈ genNodeActions cfg ++ ["ROOT", ">LA", ">RA"]
      then [">LA", ">RA"] else []
   | none => []) ++
  (match st.action_history.getLast? with
   | some a =>
      if a.base cfg.use_copy ∈ genNodeActions cfg then
        if max_1root then
          if st.root = none ∨ st.root = some 0 then ["ROOT"] else []
        else ["ROOT"]
      else []
   | none => [])

/-- `AMRStateMachine.get_valid_actions(max_1root=True)` in non-align
mode: when the cursor sits exactly at `len(tokens)` the code asserts
that nothing else is valid and that the last action was `SHIFT` (an
empty history raises IndexError there, since `not valid_base_actions`
is evaluated first), then offers `CLOSE`; finally a truthy
`reduce_nodes` raises NotImplementedError. -/
def AMRStateMachine.get_valid_actions (cfg : MachineConfig)
    (st : AMRStateMachine) (max_1root : Bool := true) :
    Except PyErr (List String) := do
  let v3 := validBase cfg st max_1root
  let v4 ←
    if st.tok_cursor = st.tokens.length then do
      if v3 ≠ [] then throw .assertError
      else
        match st.action_history.getLast? with
        | none => throw .indexError
        | some a =>
          if a = .shift then pure (v3 ++ ["CLOSE"]) else throw .assertError
    else pure v3
  if cfg.reduceTruthy then throw .notImplementedError
  else return v4

/-- `AMRStateMachine.update(action)` in non-align mode, as a pure
function returning the next state or the raised exception.  The closed
check is the first statement of the Python method, so a closed machine
raises before any mutation.  (For later-raising branches, e.g. an
out-of-range arc pointer, the Python object keeps the mutations done
before the raise; the `Except` model discards the partial state, which
is faithful for every property proved below because an errored step is
never continued.) -/
def AMRStateMachine.update (cfg : MachineConfig) (a : Action)
    (st : AMRStateMachine) : Except PyErr AMRStateMachine := do
  if st.is_closed then throw .assertError
  let st := { st with actions_tokcursor := st.actions_tokcursor ++ [st.tok_cursor] }
  let st' ←
    match a with
    | .close => pure { st with is_closed := true }
    | .root => do
        let top ← pyLast st.node_stack
        pure { st with root := some top }
    | .shift => pure { st with tok_cursor := st.tok_cursor + 1 }
    | .reduce => do
        if !cfg.reduceTruthy then throw .assertError
        let last ← pyLast st.action_history
        if !last.truthy then throw .assertError
        match st.node_stack.dropLast, st.node_stack with
        | _, [] => throw .indexError
        | rest, _ => pure { st with node_stack := rest }
    | .reduce2 => do
        if !cfg.reduceTruthy then throw .assertError
        let last ← pyLast st.action_history
        if !last.truthy then throw .assertError
        match last with
        | .la pos _ | .ra pos _ =>
            if cfg.absolute_stack_pos then
              if pos ∈ st.node_stack then
                pure { st with node_stack := st.node_stack.erase pos }
              else throw .valueError
            else
              let i : Int := (st.node_stack.length : Int) - (pos : Int) - 2
              match pyIdx st.node_stack i with
              | some x =>
                  let j := if i ≥ 0 then i.toNat else st.node_stack.length - (-i).toNat
                  pure { st with node_stack := st.node_stack.eraseIdx j }
              | none => throw .indexError
        | _ => throw .assertError
    | .reduce3 => do
        if !cfg.reduceTruthy then throw .assertError
        let last ← pyLast st.action_history
        if !last.truthy then throw .assertError
        match last with
        | .la pos _ | .ra pos _ => do
            let st1 ←
              if cfg.absolute_stack_pos then
                if pos ∈ st.node_stack then
                  pure { st with node_stack := st.node_stack.erase pos }
                else throw .valueError
              else
                let i : Int := (st.node_stack.length : Int) - (pos : Int) - 2
                match pyIdx st.node_stack i with
                | some _ =>
                    let j := if i ≥ 0 then i.toNat else st.node_stack.length - (-i).toNat
                    pure { st with node_stack := st.node_stack.eraseIdx j }
                | none => throw .indexError
            match st1.node_stack.dropLast, st1.node_stack with
            | _, [] => throw .indexError
            | rest, _ => pure { st1 with node_stack := rest }
        | _ => throw .assertError
    | .la pos label => do
        let tgt ←
          if cfg.absolute_stack_pos then pure pos
          else
            match pyIdx st.node_stack ((st.node_stack.length : Int) - (pos : Int) - 2) with
            | some x => pure x
            | none => throw .indexError
        let src ← pyLast st.node_stack
        pure { st with edges := st.edges ++ [(src, label, tgt)] }
    | .ra pos label => do
        let src ←
          if cfg.absolute_stack_pos then pure pos
          else
            match pyIdx st.node_stack ((st.node_stack.length : Int) - (pos : Int) - 2) with
            | some x => pure x
            | none => throw .indexError
        let tgt ← pyLast st.node_stack
        pure { st with edges := st.edges ++ [(src, label, tgt)] }
    | .copy => do
        match st.tokens[st.tok_cursor]? with
        | none => throw .indexError
        | some tok =>
            let node_id := st.action_history.length
            pure { st with
              nodes := dinsert node_id (normalize tok) st.nodes
              node_stack := st.node_stack ++ [node_id]
              alignments := dappend node_id st.tok_cursor st.alignments }
    | .node label =>
        let node_id := st.action_history.length
        pure { st with
          nodes := dinsert node_id label st.nodes
          node_stack := st.node_stack ++ [node_id]
          alignments := dappend node_id st.tok_cursor st.alignments }
  return { st' with action_history := st'.action_history ++ [a] }

/-- Apply a list of actions to a machine state in sequence, stopping at
the first raised exception (the replay loop body of `play`). -/
def applyActions (cfg : MachineConfig) :
    AMRStateMachine → List Action → Except PyErr AMRStateMachine
  | st, [] => .ok st
  | st, a :: as =>
    match st.update cfg a with
    | .ok st' => applyActions cfg st' as
    | .error e => .error e

/-- Replay an action sequence on a freshly reset machine. -/
def replay (cfg : MachineConfig) (tokens : List String) (as : List Action) :
    Except PyErr AMRStateMachine :=
  applyActions cfg (AMRStateMachine.reset tokens) as

/-- A run is gated when, before each step, the machine's
`get_valid_actions` succeeds and contains the base form of the action
about to be applied, and the update itself succeeds (the protocol the
oracle/decoder loop is supposed to follow). -/
def gatedRun (cfg : MachineConfig) : AMRStateMachine → List Action → Bool
  | _, [] => true
  | st, a :: as =>
    match st.get_valid_actions cfg with
    | .ok valid =>
      if a.base cfg.use_copy ∈ valid then
        match st.update cfg a with
        | .ok st' => gatedRun cfg st' as
        | .error _ => false
      else false
    | .error _ => false

/-- The per-gold-graph state built by `AMROracle.reset` and mutated by
`get_arc_action` while actions are produced. -/
structure AMROracle where
  gold : AMR
  unaligned_nodes : List String
  align_by_token_pos : List (Nat × List String)
  node_id_2_node_number : List (String × Nat)
  pend_edges_by_node : List (String × List (String × String × String))
  node_map : List (String × Nat)
  node_reverse_map : List (Nat × String)
deriving Repr, DecidableEq

/-- The `align_by_token_pos` construction of `AMROracle.reset`: for each
alignment entry (in dict order), append the node to the bucket of every
aligned position whose surface token equals the normalized node label;
if no position matches, append it to the bucket of the first aligned
position.  Iterating a `None` entry raises TypeError, an out-of-range
position raises IndexError, a node id absent from the node map raises
KeyError, exactly as the Python would. -/
def buildBuckets (g : AMR) :
    List (String × Option (List Nat)) → List (Nat × List String) →
    Except PyErr (List (Nat × List String))
  | [], abt => .ok abt
  | (nid, tpo) :: rest, abt => do
      let tp ← match tpo with
        | none => throw .typeError
        | some l => pure l
      let nlabel ← dlookupE g.nodes nid
      let node := normalize nlabel
      let (abt1, matched) ← tp.foldlM
        (fun (acc : List (Nat × List String) × Bool) pos => do
          match g.tokens[pos]? with
          | none => throw .indexError
          | some tok =>
              if node == tok then pure (dappend pos nid acc.1, true)
              else pure acc)
        (abt, false)
      let abt2 ←
        if matched then pure abt1
        else
          match tp.head? with
          | none => throw .indexError
          | some p0 => pure (dappend p0 nid abt1)
      buildBuckets g rest abt2

/-- The `node_id_2_node_number` construction of `AMROracle.reset`:
iterate the buckets in ascending key order and assign each node the
current map size.  (As in the source, a node sitting in several buckets
is re-assigned `len(map)` on later encounters without growing the map.) -/
def buildNodeNumbers (abt : List (Nat × List String)) : List (String × Nat) :=
  let keys := pysort (fun a b => decide (a ≤ b)) (abt.map Prod.fst)
  keys.foldl
    (fun m pos => ((abt.lookup pos).getD []).foldl
      (fun m nid => dinsert nid m.length m) m)
    []

/-- The initial `pend_edges_by_node`: every edge appended to the lists of
its source and then of its target, in edge-list order. -/
def initPend (edges : List (String × String × String)) :
    List (String × List (String × String × String)) :=
  edges.foldl (fun p e => dappend e.2.2 e (dappend e.1 e p)) []

/-- Descending-lexicographic boolean order on `(node_number, index)`
pairs: the comparison done by `edges.sort(reverse=True)` in
`AMROracle.reset`. -/
def keyGe (x y : Nat × Nat) : Bool :=
  decide (y.1 < x.1) || (x.1 == y.1 && decide (y.2 ≤ x.2))

/-- The per-node sorting pass of `AMROracle.reset`: pair each pending
edge with `(node_number of the other endpoint, position in the list)`,
sort those pairs in descending order, and rebuild the list. -/
def sortPendList (nums : List (String × Nat)) (nid : String)
    (lst : List (String × String × String)) :
    Except PyErr (List (String × String × String)) := do
  let keys ← lst.enum.mapM (fun (p : Nat × (String × String × String)) => do
      let other := if p.2.1 == nid then p.2.2.2 else p.2.1
      let num ← dlookupE nums other
      pure (num, p.1))
  let sorted := pysort keyGe keys
  pure (sorted.map fun p => lst.getD p.2 ("", "", ""))

/-- `AMROracle.reset(gold_amr)`: run `fix_alignments`, build the
alignment buckets, the node numbering, and the pending-edge index
sorted farthest-last in node-number order, with empty decoded↔gold
maps. -/
def AMROracle.reset (gold0 : AMR) : Except PyErr AMROracle := do
  let (g, unal) ← fix_alignments gold0
  let abt ← buildBuckets g g.alignments []
  let nums := buildNodeNumbers abt
  let pend ← (initPend g.edges).mapM
    (fun (p : String × List (String × String × String)) => do
      pure (p.1, ← sortPendList nums p.1 p.2))
  return ⟨g, unal, abt, nums, pend, [], []⟩

/-- `self.pend_edges_by_node[nid]` (defaultdict: `[]` when absent). -/
def pendOf (os : AMROracle) (nid : String) :
    List (String × String × String) :=
  (os.pend_edges_by_node.lookup nid).getD []

/-- `self.align_by_token_pos[pos]` (defaultdict: `[]` when absent). -/
def bucketOf (os : AMROracle) (pos : Nat) : List String :=
  (os.align_by_token_pos.lookup pos).getD []

/-- `self.pend_edges_by_node[nid].remove(e)`: remove the first occurrence
of `e`, raising ValueError when absent. -/
def pendRemove (os : AMROracle) (nid : String)
    (e : String × String × String) : Except PyErr AMROracle :=
  let l := pendOf os nid
  if e ∈ l then
    .ok { os with pend_edges_by_node :=
            dinsert nid (l.erase e) os.pend_edges_by_node }
  else .error .valueError

/-- The scanning loop of `AMROracle.get_arc_action`: walk the pending
edges of the gold node under the stack top; skip edges with an endpoint
not yet generated; on the first edge whose mapped source is the stack
top and whose mapped target sits elsewhere on the stack (or vice versa),
compute the pointer (absolute: the decoded id; relative: distance from
the stack top minus one), remove the edge from both endpoints' pending
lists, assert the relation label starts with the marker `:` and emit the
arc action. -/
def arcScan (cfg : MachineConfig) (ms : AMRStateMachine) (os : AMROracle)
    (top : Nat) (current : String) :
    List (String × String × String) →
    Except PyErr (Option (AMROracle × Action))
  | [] => .ok none
  | e :: rest => do
      match os.node_map.lookup e.1, os.node_map.lookup e.2.2 with
      | some dsrc, some dtgt =>
          if dsrc == top && dtgt ∈ ms.node_stack.dropLast then do
            let index ←
              if cfg.absolute_stack_pos then pure dtgt
              else
                pure (ms.node_stack.length - ms.node_stack.indexOf dtgt - 2)
            let os1 ← pendRemove os e.2.2 e
            let os2 ← pendRemove os1 current e
            match e.2.1.data.head? with
            | none => throw .indexError
            | some c =>
                if c = ':' then pure (some (os2, .la index e.2.1))
                else throw .assertError
          else if dtgt == top && dsrc ∈ ms.node_stack.dropLast then do
            let index ←
              if cfg.absolute_stack_pos then pure dsrc
              else
                pure (ms.node_stack.length - ms.node_stack.indexOf dsrc - 2)
            let os1 ← pendRemove os e.1 e
            let os2 ← pendRemove os1 current e
            match e.2.1.data.head? with
            | none => throw .indexError
            | some c =>
                if c = ':' then pure (some (os2, .ra index e.2.1))
                else throw .assertError
          else arcScan cfg ms os top current rest
      | _, _ => arcScan cfg ms os top current rest

/-- `AMROracle.get_arc_action(machine)`. -/
def AMROracle.get_arc_action (os : AMROracle) (cfg : MachineConfig)
    (ms : AMRStateMachine) : Except PyErr (Option (AMROracle × Action)) := do
  let top ← pyLast ms.node_stack
  let current ← dlookupE os.node_reverse_map top
  arcScan cfg ms os top current (pendOf os current)

/-- `AMROracle.get_reduce_action(machine, top)`. -/
def AMROracle.get_reduce_action (os : AMROracle) (cfg : MachineConfig)
    (ms : AMRStateMachine) (top : Bool) : Except PyErr Bool := do
  match ms.action_history.getLast? with
  | none => return false
  | some last =>
    match last with
    | .la pos _ | .ra pos _ => do
        let node_id ←
          if top then pyLast ms.node_stack
          else if cfg.absolute_stack_pos then pure pos
          else
            match pyIdx ms.node_stack
                ((ms.node_stack.length : Int) - (pos : Int) - 2) with
            | some x => pure x
            | none => throw .indexError
        let gid ← dlookupE os.node_reverse_map node_id
        return (pendOf os gid).isEmpty
    | _ => return false

/-- An action as produced by `AMROracle.get_actions`: either a plain
action string or a `(action, gold_node_id)` tuple for node generation. -/
inductive OAction where
  | plain (a : Action)
  | tagged (a : Action) (gold_id : String)
deriving Repr, DecidableEq

/-- The node-generation loop of `AMROracle.get_actions`: first node in
the cursor's bucket that is not yet generated, emitted as `COPY` when
copying is enabled and the normalized surface token equals the
normalized gold label, else as a literal node-name action; tagged with
the gold node id. -/
def nodeScan (os : AMROracle) (cfg : MachineConfig) (ms : AMRStateMachine) :
    List String → Except PyErr (Option OAction)
  | [] => .ok none
  | nid :: rest =>
      if (os.node_map.lookup nid).isSome then nodeScan os cfg ms rest
      else do
        let lbl ← dlookupE os.gold.nodes nid
        let target := normalize lbl
        if cfg.use_copy then
          match ms.tokens[ms.tok_cursor]? with
          | none => throw .indexError
          | some tok =>
              if normalize tok == target then pure (some (.tagged .copy nid))
              else pure (some (.tagged (.node target) nid))
        else pure (some (.tagged (.node target) nid))

/-- `AMROracle.get_actions(machine)`: priority order ROOT, REDUCE*
(only with `reduce_nodes == 'all'`), arc creation, node creation,
SHIFT, CLOSE. -/
def AMROracle.get_actions (os : AMROracle) (cfg : MachineConfig)
    (ms : AMRStateMachine) : Except PyErr (AMROracle × OAction) := do
  let rootGuard ←
    if ms.root = none then
      match ms.node_stack.getLast? with
      | some top => do
          let gid ← dlookupE os.node_reverse_map top
          pure (gid == os.gold.root)
      | none => pure false
    else pure false
  if rootGuard then return (os, .plain .root)
  if cfg.reduce_nodes = some "all" then do
    let arc_reduce_no_top ← os.get_reduce_action cfg ms false
    let arc_reduce_top ← os.get_reduce_action cfg ms true
    if arc_reduce_no_top && arc_reduce_top then
      return (os, .plain .reduce3)
    else if arc_reduce_top then
      return (os, .plain .reduce)
    else if arc_reduce_no_top then
      return (os, .plain .reduce2)
  let arcRes ←
    if ms.node_stack.length > 1 then os.get_arc_action cfg ms
    else pure none
  match arcRes with
  | some (os', a) => return (os', .plain a)
  | none => do
    let nodeRes ← nodeScan os cfg ms (bucketOf os ms.tok_cursor)
    match nodeRes with
    | some oact => return (os, oact)
    | none =>
        if ms.tok_cursor < ms.tokens.length then return (os, .plain .shift)
        else return (os, .plain .close)

/-- One iteration of the driving loop in `oracle(args)`: call the
machine's `get_valid_actions` (result unused but exceptions propagate),
ask the oracle for the canonical action, record the decoded↔gold id pair
for tagged node-generating actions (the decoded id is the current action
history length), and update the machine. -/
def driverStep (cfg : MachineConfig) (ms : AMRStateMachine)
    (os : AMROracle) :
    Except PyErr (AMRStateMachine × AMROracle × Action) := do
  let _ ← ms.get_valid_actions cfg
  let (os1, oact) ← os.get_actions cfg ms
  let (a, os2) :=
    match oact with
    | .plain a => (a, os1)
    | .tagged a gid =>
        let node_id := ms.action_history.length
        (a, { os1 with
                node_map := dinsert gid node_id os1.node_map
                node_reverse_map := dinsert node_id gid os1.node_reverse_map })
  let ms' ← ms.update cfg a
  return (ms', os2, a)

/-- The `while not machine.is_closed` loop of `oracle(args)`, with fuel;
`none` reports fuel exhaustion, otherwise the final machine and oracle
states and the emitted action sequence are returned. -/
def runLoop (cfg : MachineConfig) :
    Nat → AMRStateMachine → AMROracle → List Action →
    Except PyErr (Option (AMRStateMachine × AMROracle × List Action))
  | 0, _, _, _ => .ok none
  | fuel + 1, ms, os, acc =>
      if ms.is_closed then .ok (some (ms, os, acc.reverse))
      else do
        let (ms', os', a) ← driverStep cfg ms os
        runLoop cfg fuel ms' os' (a :: acc)

/-- Oracle derivation for one sentence: reset the oracle on the gold
graph, reset the machine on the gold tokens, and run the driving loop. -/
def runOracle (cfg : MachineConfig) (gold : AMR) (fuel : Nat) :
    Except PyErr (Option (AMRStateMachine × AMROracle × List Action)) := do
  let os ← AMROracle.reset gold
  let ms := AMRStateMachine.reset gold.tokens
  runLoop cfg fuel ms os []

/-- No coverage gap: every pending-edge list of the (final) oracle state
is empty, i.e. the oracle materialized every gold edge. -/
def pendAllEmpty (os : AMROracle) : Bool :=
  os.pend_edges_by_node.all fun p => p.2.isEmpty

/-- The node number the oracle assigned to a gold node (0 default). -/
def alignNumber (os : AMROracle) (nid : String) : Nat :=
  (os.node_id_2_node_number.lookup nid).getD 0

/-- The other endpoint of an edge as seen from `nid` (source if `nid` is
the target, else target), as computed in `AMROracle.reset`. -/
def otherEndpoint (nid : String) (e : String × String × String) : String :=
  if e.1 == nid then e.2.2 else e.1

/-- Claim-side notion for C3: the alignment-order distance between a node
and the other endpoint of one of its edges. -/
def alignDistance (os : AMROracle) (nid : String)
    (e : String × String × String) : Nat :=
  let a := alignNumber os nid
  let b := alignNumber os (otherEndpoint nid e)
  max a b - min a b

/-- Claim-side notion for C3: a pending-edge list is ordered
farthest-first when the alignment-order distances are non-increasing
along the list. -/
def farthestFirst (os : AMROracle) (nid : String) : Prop :=
  (pendOf os nid).Pairwise
    (fun e1 e2 => alignDistance os nid e2 ≤ alignDistance os nid e1)

instance (os : AMROracle) (nid : String) : Decidable (farthestFirst os nid) := by
  unfold farthestFirst; infer_instance

/-- Decoded image of a gold edge under the oracle's `node_map`
(0 default; the round-trip theorem separately proves the map is total). -/
def mapEdge (os : AMROracle) (e : String × String × String) :
    Nat × String × Nat :=
  ((os.node_map.lookup e.1).getD 0, e.2.1, (os.node_map.lookup e.2.2).getD 0)

/-- Touching edges of a node, in edge-list order, a self-loop counted
twice: the multiset content of the node's initial pending-edge list. -/
def touchingEdges (edges : List (String × String × String)) (nid : String) :
    List (String × String × String) :=
  edges.flatMap fun e =>
    (if e.1 == nid then [e] else []) ++ (if e.2.2 == nid then [e] else [])

/-- The default machine configuration of the described deployment:
`reduce_nodes=None`, relative stack positions, copy enabled. -/
def cfgDefault : MachineConfig := {}

/-- Configuration with absolute stack positions. -/
def cfgAbsolute : MachineConfig := { absolute_stack_pos := true }

/-- Concrete gold graph for C2: node `n` unaligned, parent `p` aligned
to token positions 0 and 2, single edge from `p` to `n`. -/
def amrParentC2 : AMR :=
  ⟨["a", "b", "c"], [("p", "pl"), ("n", "nl")], [("p", ":r", "n")],
   [("p", some [0, 2]), ("n", none)], "p"⟩

/-- Concrete gold graph for C4: node `n1` entirely absent from the
alignment map, node `n2` aligned, no edges, two tokens. -/
def amrMissingC4 : AMR :=
  ⟨["a", "b"], [("n1", "x"), ("n2", "y")], [],
   [("n2", some [0])], "n2"⟩

/-- Concrete gold graph for C3: nodes A,Y,X,B aligned to tokens 0..3
(so alignment-order numbers 0..3), X linked to A (number 0, distance 2)
and to B (number 3, distance 1). -/
def amrOrderC3 : AMR :=
  ⟨["t0", "t1", "t2", "t3"],
   [("A", "a"), ("Y", "y"), ("X", "x"), ("B", "b")],
   [("X", ":a", "A"), ("X", ":b", "B")],
   [("A", some [0]), ("Y", some [1]), ("X", some [2]), ("B", some [3])],
   "X"⟩

/-- The concrete gold graph of the spec's test scenario: tokens
`["the","dog","bites"]`, root `bite-01` aligned to token 2 with an
`:ARG0` edge to `dog` aligned to token 1. -/
def amrDogBites : AMR :=
  ⟨["the", "dog", "bites"], [("d", "dog"), ("b", "bite-01")],
   [("b", ":ARG0", "d")], [("d", some [1]), ("b", some [2])], "b"⟩

/-- A machine state that is closed (used to instantiate C7). -/
def closedMachine : AMRStateMachine :=
  { AMRStateMachine.reset ["a"] with is_closed := true }

/-- Node-generating actions: `COPY` and literal node labels. -/
def isGenAction : Action → Bool
  | .copy => true
  | .node _ => true
  | _ => false

/-- Positions of node-generating actions: `genIndices as k` lists, in
order, the indices (offset by `k`) of the actions in `as` that create a
node. -/
def genIndices : List Action → Nat → List Nat
  | [], _ => []
  | a :: rest, k =>
      (if isGenAction a then [k] else []) ++ genIndices rest (k + 1)

/-- The empty AMR (used as an impossible-fallback default). -/
def emptyAMR : AMR := ⟨[], [], [], [], ""⟩

/-- Concrete machine state after the gated run `[SHIFT, CLOSE]` on one
token (instantiates C5). -/
def stC5w : AMRStateMachine :=
  (replay cfgDefault ["a"] [.shift, .close]).toOption.getD
    (AMRStateMachine.reset [])

/-- Concrete machine state after `[SHIFT, <node x>, COPY]` on two tokens
(instantiates C6). -/
def stC6w : AMRStateMachine :=
  (replay cfgDefault ["a", "b"] [.shift, .node "x", .copy]).toOption.getD
    (AMRStateMachine.reset [])

/-- Concrete machine state after `[<node x>]` (instantiates C8). -/
def stC8w : AMRStateMachine :=
  (replay cfgDefault ["a", "b"] [.node "x"]).toOption.getD
    (AMRStateMachine.reset [])

/-- Its valid-action list. -/
def lC8w : List String :=
  (stC8w.get_valid_actions cfgDefault).toOption.getD []

/-- Concrete machine state before the unmarked arc of C9. -/
def stC9pre : AMRStateMachine :=
  (replay cfgAbsolute ["a", "b"] [.node "x", .node "y"]).toOption.getD
    (AMRStateMachine.reset [])

/-- Concrete machine state after applying `>LA(0,foo)` to `stC9pre`. -/
def stC9post : AMRStateMachine :=
  (stC9pre.update cfgAbsolute (.la 0 "foo")).toOption.getD stC9pre

/-- Concrete oracle state mid-derivation on `amrDogBites`, with both
gold nodes generated (decoded ids 1 and 3), for instantiating the
oracle half of C9. -/
def osArcC9 : AMROracle :=
  match AMROracle.reset amrDogBites with
  | .ok os => { os with node_map := [("d", 1), ("b", 3)],
                        node_reverse_map := [(1, "d"), (3, "b")] }
  | .error _ => ⟨emptyAMR, [], [], [], [], [], []⟩

/-- The matching concrete machine state (stack `[1, 3]`). -/
def msArcC9 : AMRStateMachine :=
  { AMRStateMachine.reset ["the", "dog", "bites"] with
      tok_cursor := 2, node_stack := [1, 3],
      action_history := [.shift, .copy, .shift, .node "bite-01"] }

/-- The arc action the oracle emits at `osArcC9`/`msArcC9`. -/
def arcC9out : AMROracle × Action :=
  ((osArcC9.get_arc_action cfgDefault msArcC9).toOption.getD none).getD
    (osArcC9, .shift)

/-- Concrete machine state after `[SHIFT]` on one token: the cursor sits
at `len(tokens)` with last action SHIFT (instantiates C10). -/
def stC10w : AMRStateMachine :=
  (replay cfgDefault ["a"] [.shift]).toOption.getD (AMRStateMachine.reset [])

/-- The oracle state after reset on `amrOrderC3` (instantiates the
amended C3). -/
def osC3w : AMROracle :=
  (AMROracle.reset amrOrderC3).toOption.getD ⟨emptyAMR, [], [], [], [], [], []⟩

/-- Arc actions. -/
def isArcAction : Action → Bool
  | .la _ _ => true
  | .ra _ _ => true
  | _ => false

/-- Reduce actions. -/
def isReduceAction : Action → Bool
  | .reduce => true
  | .reduce2 => true
  | .reduce3 => true
  | _ => false

/-- The stack pointer carried by an arc action as computed in
`get_arc_action`: the decoded node id itself in absolute mode, else the
distance from the stack top minus one. -/
def arcIndex (cfg : MachineConfig) (ms : AMRStateMachine) (d : Nat) : Nat :=
  if cfg.absolute_stack_pos then d
  else ms.node_stack.length - ms.node_stack.indexOf d - 2

/-- The loop invariant of the oracle driving loop, relating the machine
state, the oracle state and the list `produced` of gold edges already
materialized as machine edges.  `g` is the repaired gold graph and `os₀`
the oracle state straight out of `AMROracle.reset`. -/
structure OracleInv (cfg : MachineConfig) (g : AMR) (os₀ : AMROracle)
    (ms : AMRStateMachine) (os : AMROracle)
    (produced : List (String × String × String)) : Prop where
  hgold : os.gold = g
  habt : os.align_by_token_pos = os₀.align_by_token_pos
  htoks : ms.tokens = g.tokens
  hcur : ms.tok_cursor ≤ g.tokens.length
  hclosed : ms.is_closed = false
  hbij : ∀ gid did, os.node_map.lookup gid = some did ↔
    os.node_reverse_map.lookup did = some gid
  hlabels : ∀ gid did, os.node_map.lookup gid = some did →
    ∃ lbl, g.nodes.lookup gid = some lbl ∧
      ms.nodes.lookup did = some (normalize lbl)
  hmapbound : ∀ gid did, os.node_map.lookup gid = some did →
    did < ms.action_history.length
  hnodesbound : ∀ p ∈ ms.nodes, p.1 < ms.action_history.length
  hstackinc : ms.node_stack.Pairwise (· < ·)
  hstackbound : ∀ d ∈ ms.node_stack, d < ms.action_history.length
  hbuckets : ∀ pos, pos < ms.tok_cursor → ∀ gid ∈ bucketOf os₀ pos,
    (os.node_map.lookup gid).isSome = true
  hedges : ms.edges = produced.map (mapEdge os)
  hprodmap : ∀ e ∈ produced, (os.node_map.lookup e.1).isSome = true ∧
    (os.node_map.lookup e.2.2).isSome = true
  hpendacc : ∀ n, Multiset.ofList (pendOf os₀ n) =
    Multiset.ofList (pendOf os n) + Multiset.ofList (touchingEdges produced n)
  hroot : (ms.root = none ∧ (os.node_map.lookup g.root = none ∨
      (∃ top, ms.node_stack.getLast? = some top ∧
        os.node_reverse_map.lookup top = some g.root))) ∨
    (∃ did, ms.root = some did ∧ os.node_map.lookup g.root = some did)

/-- What holds of the machine/oracle pair right after the `CLOSE` step of
the oracle driving loop. -/
structure ClosedFacts (g : AMR) (os₀ : AMROracle)
    (ms : AMRStateMachine) (os : AMROracle) : Prop where
  hgold : os.gold = g
  hclosed : ms.is_closed = true
  hlabels : ∀ gid did, os.node_map.lookup gid = some did →
    ∃ lbl, g.nodes.lookup gid = some lbl ∧
      ms.nodes.lookup did = some (normalize lbl)
  hedges : ∃ P, ms.edges = P.map (mapEdge os) ∧
    ∀ n, Multiset.ofList (pendOf os₀ n) =
      Multiset.ofList (pendOf os n) + Multiset.ofList (touchingEdges P n)
  hcover : ∀ pos, pos < g.tokens.length → ∀ gid ∈ bucketOf os₀ pos,
    (os.node_map.lookup gid).isSome = true
  hroot : (ms.root = none ∧ os.node_map.lookup g.root = none) ∨
    (∃ did, ms.root = some did ∧ os.node_map.lookup g.root = some did)

/-- Decidable well-formedness of a gold graph for the round-trip law:
the oracle reset succeeds, node ids are distinct, the root is a node,
and every node lands in an alignment bucket of a real token position. -/
def wfGoldB (gold : AMR) : Bool :=
  match AMROracle.reset gold with
  | .error _ => false
  | .ok os₀ =>
    decide (gold.nodes.map Prod.fst).Nodup &&
    (gold.nodes.map Prod.fst).contains gold.root &&
    gold.nodes.all fun p =>
      (List.range gold.tokens.length).any fun pos =>
        (bucketOf os₀ pos).contains p.1

/-- The tail of `AMROracle.get_actions` after the ROOT guard: the
REDUCE block, arc creation, node creation, SHIFT and CLOSE, verbatim. -/
def gaTail (cfg : MachineConfig) (os : AMROracle) (ms : AMRStateMachine) :
    Except PyErr (AMROracle × OAction) := do
  if cfg.reduce_nodes = some "all" then do
    let arc_reduce_no_top ← os.get_reduce_action cfg ms false
    let arc_reduce_top ← os.get_reduce_action cfg ms true
    if arc_reduce_no_top && arc_reduce_top then
      return (os, .plain .reduce3)
    else if arc_reduce_top then
      return (os, .plain .reduce)
    else if arc_reduce_no_top then
      return (os, .plain .reduce2)
  let arcRes ←
    if ms.node_stack.length > 1 then os.get_arc_action cfg ms
    else pure none
  match arcRes with
  | some (os', a) => return (os', .plain a)
  | none => do
    let nodeRes ← nodeScan os cfg ms (bucketOf os ms.tok_cursor)
    match nodeRes with
    | some oact => return (os, oact)
    | none =>
        if ms.tok_cursor < ms.tokens.length then return (os, .plain .shift)
        else return (os, .plain .close)

/-- The oracle run of the `amrDogBites` scenario with fuel 20 (enough:
the run closes after 8 actions), with a vacuous fallback for the
impossible error/fuel cases. -/
def c1res : AMRStateMachine × AMROracle × List Action :=
  match runOracle cfgDefault amrDogBites 20 with
  | .ok (some r) => r
  | _ => (AMRStateMachine.reset [], ⟨emptyAMR, [], [], [], [], [], []⟩, [])

/-- Final machine state of the `amrDogBites` oracle run. -/
def msC1w : AMRStateMachine := c1res.1

/-- Final oracle state of the `amrDogBites` oracle run. -/
def osC1w : AMROracle := c1res.2.1

/-- Action sequence derived by the oracle on `amrDogBites`. -/
def aC1w : List Action := c1res.2.2

/-- The guard of the scanning loop of `get_arc_action` on one pending
edge: both endpoints already generated, and one endpoint's decoded id is
the stack top while the other's sits elsewhere on the stack. -/
def producibleB (os : AMROracle) (ms : AMRStateMachine) (top : Nat)
    (e : String × String × String) : Bool :=
  match os.node_map.lookup e.1, os.node_map.lookup e.2.2 with
  | some dsrc, some dtgt =>
      (dsrc == top && decide (dtgt ∈ ms.node_stack.dropLast)) ||
      (dtgt == top && decide (dsrc ∈ ms.node_stack.dropLast))
  | _, _ => false

-- ## Theorems

theorem bind_ok {α β : Type} {x : Except PyErr α} {f : α → Except PyErr β}
    {b : β} (h : (x >>= f) = .ok b) : ∃ a, x = .ok a ∧ f a = .ok b := by
  cases x with
  | ok a => exact ⟨a, rfl, h⟩
  | error e => exact Except.noConfusion h

theorem arcTail_inv {os0 os2 : AMROracle} {k1 k2 : String}
    {e : String × String × String} {act a : Action}
    (h : (do
        let os1 ← pendRemove os0 k1 e
        let osB ← pendRemove os1 k2 e
        match e.2.1.data.head? with
        | none => throw PyErr.indexError
        | some c =>
          if c = ':' then pure (some (osB, act)) else throw PyErr.assertError
        : Except PyErr (Option (AMROracle × Action))) = .ok (some (os2, a))) :
    a = act ∧ e.2.1.data.head? = some ':' := by
  obtain ⟨os1, hr1, h⟩ := bind_ok h
  obtain ⟨osB, hr2, h⟩ := bind_ok h
  cases hh : e.2.1.data.head? <;> rw [hh] at h <;> dsimp only at h
  · exact Except.noConfusion h
  case some c =>
    by_cases hc : c = ':'
    · rw [if_pos hc] at h
      injection h with h
      obtain ⟨hos, ha⟩ := Prod.mk.injEq .. ▸ (Option.some.injEq .. ▸ h)
      exact ⟨ha.symm, congrArg some hc⟩
    · rw [if_neg hc] at h; exact Except.noConfusion h

theorem arcScan_label (cfg : MachineConfig) (ms : AMRStateMachine)
    (top : Nat) (current : String) :
    ∀ (l : List (String × String × String)) (os os2 : AMROracle) (a : Action),
    arcScan cfg ms os top current l = .ok (some (os2, a)) →
    ∃ pos label, (a = .la pos label ∨ a = .ra pos label) ∧
      label.data.head? = some ':' := by
  intro l
  induction l with
  | nil => intro os os2 a h; simp [arcScan] at h
  | cons e rest ih =>
    intro os os2 a h
    unfold arcScan at h
    cases h1 : os.node_map.lookup e.1 <;> rw [h1] at h
    case none => exact ih os os2 a h
    case some dsrc =>
    cases h2 : os.node_map.lookup e.2.2 <;> rw [h2] at h
    case none => exact ih os os2 a h
    case some dtgt =>
    dsimp only at h
    by_cases hla : (dsrc == top && decide (dtgt ∈ ms.node_stack.dropLast)) = true
    · rw [if_pos hla] at h
      dsimp only [Bind.bind, Except.bind, pure, Except.pure] at h
      split at h
      · obtain ⟨ha, hh⟩ := arcTail_inv h
        exact ⟨_, _, Or.inl ha, hh⟩
      · obtain ⟨ha, hh⟩ := arcTail_inv h
        exact ⟨_, _, Or.inl ha, hh⟩
    · rw [if_neg hla] at h
      by_cases hra : (dtgt == top && decide (dsrc ∈ ms.node_stack.dropLast)) = true
      · rw [if_pos hra] at h
        dsimp only [Bind.bind, Except.bind, pure, Except.pure] at h
        split at h
        · obtain ⟨ha, hh⟩ := arcTail_inv h
          exact ⟨_, _, Or.inr ha, hh⟩
        · obtain ⟨ha, hh⟩ := arcTail_inv h
          exact ⟨_, _, Or.inr ha, hh⟩
      · rw [if_neg hra] at h
        exact ih os os2 a h

theorem update_la_edges (cfg : MachineConfig) (st st' : AMRStateMachine)
    (pos : Nat) (label : String)
    (h : st.update cfg (.la pos label) = .ok st') :
    ∃ src tgt, st'.edges = st.edges ++ [(src, label, tgt)] := by
  unfold AMRStateMachine.update at h
  by_cases hc : st.is_closed
  · simp [hc, throw, throwThe, MonadExceptOf.throw, Bind.bind, Except.bind] at h
  · simp only [hc, Bool.false_eq_true, if_false] at h
    simp only [Bind.bind, Except.bind, pure, Except.pure] at h
    split at h
    all_goals repeat split at h
    all_goals first
      | exact Except.noConfusion h
      | (cases h; exact ⟨_, _, rfl⟩)

theorem update_ra_edges (cfg : MachineConfig) (st st' : AMRStateMachine)
    (pos : Nat) (label : String)
    (h : st.update cfg (.ra pos label) = .ok st') :
    ∃ src tgt, st'.edges = st.edges ++ [(src, label, tgt)] := by
  unfold AMRStateMachine.update at h
  by_cases hc : st.is_closed
  · simp [hc, throw, throwThe, MonadExceptOf.throw, Bind.bind, Except.bind] at h
  · simp only [hc, Bool.false_eq_true, if_false] at h
    simp only [Bind.bind, Except.bind, pure, Except.pure] at h
    split at h
    all_goals repeat split at h
    all_goals first
      | exact Except.noConfusion h
      | (cases h; exact ⟨_, _, rfl⟩)

theorem gva_ok_shape (cfg : MachineConfig) (st : AMRStateMachine)
    (l : List String) (h : st.get_valid_actions cfg = .ok l) :
    cfg.reduceTruthy = false ∧
    ((st.tok_cursor = st.tokens.length ∧ l = ["CLOSE"] ∧
        validBase cfg st true = [] ∧
        st.action_history.getLast? = some .shift) ∨
     (st.tok_cursor ≠ st.tokens.length ∧ l = validBase cfg st true)) := by
  unfold AMRStateMachine.get_valid_actions at h
  dsimp only [Bind.bind, Except.bind, pure, Except.pure] at h
  by_cases hend : st.tok_cursor = st.tokens.length
  · rw [if_pos hend] at h
    by_cases hv3 : validBase cfg st true = []
    · rw [if_neg (by simpa using hv3)] at h
      cases hlast : st.action_history.getLast? <;> rw [hlast] at h <;>
        try dsimp only at h
      · exact Except.noConfusion h
      · rename_i a
        by_cases hsh : a = Action.shift
        · rw [if_pos hsh] at h
          rcases hrt : cfg.reduceTruthy with _|_ <;> rw [hrt] at h <;>
            try dsimp only at h
          · injection h with h
            exact ⟨rfl, Or.inl ⟨hend, by rw [← h, hv3]; rfl, hv3, by rw [hsh]⟩⟩
          · exact Except.noConfusion h
        · rw [if_neg hsh] at h; exact Except.noConfusion h
    · rw [if_pos (by simpa using hv3)] at h
      exact Except.noConfusion h
  · rw [if_neg hend] at h
    rcases hrt : cfg.reduceTruthy with _|_ <;> rw [hrt] at h <;>
      try dsimp only at h
    · injection h with h
      exact ⟨rfl, Or.inr ⟨hend, h.symm⟩⟩
    · exact Except.noConfusion h

theorem la_notin_gen (cfg : MachineConfig) : ">LA" ∉ genNodeActions cfg := by
  unfold genNodeActions; split <;> decide

theorem ra_notin_gen (cfg : MachineConfig) : ">RA" ∉ genNodeActions cfg := by
  unfold genNodeActions; split <;> decide

theorem mem_validBase_arc (cfg : MachineConfig) (st : AMRStateMachine)
    (m : Bool) :
    ((">LA" ∈ validBase cfg st m ∨ ">RA" ∈ validBase cfg st m) ↔
      (∃ a, st.action_history.getLast? = some a ∧
        a.base cfg.use_copy ∈ genNodeActions cfg ++ ["ROOT", ">LA", ">RA"])) := by
  have hA : ∀ s : String, (s = ">LA" ∨ s = ">RA") →
      s ∉ (if st.tok_cursor < st.tokens.length
            then ["SHIFT"] ++ genNodeActions cfg else []) := by
    intro s hs
    split
    · intro hmem
      rcases List.mem_cons.1 hmem with h | h
      · rcases hs with rfl | rfl <;> simp at h
      · rcases hs with rfl | rfl
        · exact la_notin_gen cfg h
        · exact ra_notin_gen cfg h
    · exact List.not_mem_nil s
  have hC : ∀ s : String, (s = ">LA" ∨ s = ">RA") →
      s ∉ (match st.action_history.getLast? with
           | some a =>
              if a.base cfg.use_copy ∈ genNodeActions cfg then
                if m then
                  if st.root = none ∨ st.root = some 0 then ["ROOT"] else []
                else ["ROOT"]
              else []
           | none => ([] : List String)) := by
    intro s hs
    rcases st.action_history.getLast? with _ | a
    · exact List.not_mem_nil s
    · dsimp only
      split
      · split
        · split
          · rcases hs with rfl | rfl <;> decide
          · exact List.not_mem_nil s
        · rcases hs with rfl | rfl <;> decide
      · exact List.not_mem_nil s
  unfold validBase
  constructor
  · intro h
    have hB : ">LA" ∈ (match st.action_history.getLast? with
        | some a =>
            if a.base cfg.use_copy ∈ genNodeActions cfg ++ ["ROOT", ">LA", ">RA"]
            then [">LA", ">RA"] else []
        | none => ([] : List String)) ∨
        ">RA" ∈ (match st.action_history.getLast? with
        | some a =>
            if a.base cfg.use_copy ∈ genNodeActions cfg ++ ["ROOT", ">LA", ">RA"]
            then [">LA", ">RA"] else []
        | none => ([] : List String)) := by
      rcases h with h | h
      · rcases List.mem_append.1 h with h2 | h2
        · rcases List.mem_append.1 h2 with h3 | h3
          · exact absurd h3 (hA _ (Or.inl rfl))
          · exact Or.inl h3
        · exact absurd h2 (hC _ (Or.inl rfl))
      · rcases List.mem_append.1 h with h2 | h2
        · rcases List.mem_append.1 h2 with h3 | h3
          · exact absurd h3 (hA _ (Or.inr rfl))
          · exact Or.inr h3
        · exact absurd h2 (hC _ (Or.inr rfl))
    rcases hlast : st.action_history.getLast? with _ | a <;> rw [hlast] at hB
    · rcases hB with h3 | h3 <;> exact absurd h3 (List.not_mem_nil _)
    · dsimp only at hB
      by_cases htrig : a.base cfg.use_copy ∈ genNodeActions cfg ++ ["ROOT", ">LA", ">RA"]
      · exact ⟨a, rfl, htrig⟩
      · rw [if_neg htrig] at hB
        rcases hB with h3 | h3 <;> exact absurd h3 (List.not_mem_nil _)
  · rintro ⟨a, ha, htrig⟩
    left
    rw [ha]
    refine List.mem_append.2 (Or.inl (List.mem_append.2 (Or.inr ?_)))
    dsimp only
    rw [if_pos htrig]
    simp


theorem pyLast_ok {α : Type} {l : List α} {v : α} (h : pyLast l = .ok v) :
    l.getLast? = some v := by
  unfold pyLast at h
  rcases hl : l.getLast? with _ | w <;> rw [hl] at h
  · exact Except.noConfusion h
  · injection h with h; rw [h]

theorem update_fields (cfg : MachineConfig) (a : Action)
    (st st' : AMRStateMachine) (h : st.update cfg a = .ok st') :
    st'.tokens = st.tokens ∧
    st'.action_history = st.action_history ++ [a] ∧
    st'.tok_cursor = (if a = .shift then st.tok_cursor + 1 else st.tok_cursor) ∧
    st'.is_closed = decide (a = .close) ∧
    ((isGenAction a = true ∧ ∃ lbl,
        st'.nodes = dinsert st.action_history.length lbl st.nodes ∧
        st'.node_stack = st.node_stack ++ [st.action_history.length]) ∨
     (isGenAction a = false ∧ st'.nodes = st.nodes)) ∧
    (isArcAction a = false → st'.edges = st.edges) ∧
    st'.root = (if a = .root then st.node_stack.getLast? else st.root) ∧
    ((isGenAction a = false ∧ isReduceAction a = false) →
      st'.node_stack = st.node_stack) := by
  unfold AMRStateMachine.update at h
  by_cases hc : st.is_closed
  · simp [hc, throw, throwThe, MonadExceptOf.throw, Bind.bind, Except.bind] at h
  · simp only [hc, Bool.false_eq_true, if_false] at h
    simp only [Bind.bind, Except.bind, pure, Except.pure, throw, throwThe,
      MonadExceptOf.throw] at h
    cases a with
    | close =>
      cases h; exact ⟨rfl, rfl, rfl, rfl, Or.inr ⟨rfl, rfl⟩, fun _ => rfl, rfl, fun _ => rfl⟩
    | root =>
      rcases hl : pyLast st.node_stack with _ | top <;> rw [hl] at h
      · exact Except.noConfusion h
      · cases h; refine ⟨rfl, rfl, rfl, rfl, Or.inr ⟨rfl, rfl⟩, fun _ => rfl, ?_, fun _ => rfl⟩
        rw [if_pos rfl]
        exact (pyLast_ok hl).symm
    | shift =>
      cases h; exact ⟨rfl, rfl, rfl, rfl, Or.inr ⟨rfl, rfl⟩, fun _ => rfl, rfl, fun _ => rfl⟩
    | copy =>
      rcases ht : st.tokens[st.tok_cursor]? with _ | tok <;> rw [ht] at h <;>
        dsimp only at h
      · exact Except.noConfusion h
      · cases h
        exact ⟨rfl, rfl, rfl, rfl, Or.inl ⟨rfl, normalize tok, rfl, rfl⟩,
          fun _ => rfl, rfl, fun hx => Bool.noConfusion hx.1⟩
    | node lbl =>
      cases h; exact ⟨rfl, rfl, rfl, rfl, Or.inl ⟨rfl, lbl, rfl, rfl⟩,
        fun _ => rfl, rfl, fun hx => Bool.noConfusion hx.1⟩
    | la pos label =>
      dsimp only at h
      split at h
      all_goals repeat split at h
      all_goals first
        | exact Except.noConfusion h
        | (cases h; exact ⟨rfl, rfl, rfl, rfl, Or.inr ⟨rfl, rfl⟩,
           fun hx => Bool.noConfusion hx, rfl, fun _ => rfl⟩)
    | ra pos label =>
      dsimp only at h
      split at h
      all_goals repeat split at h
      all_goals first
        | exact Except.noConfusion h
        | (cases h; exact ⟨rfl, rfl, rfl, rfl, Or.inr ⟨rfl, rfl⟩,
           fun hx => Bool.noConfusion hx, rfl, fun _ => rfl⟩)
    | reduce =>
      dsimp only at h
      by_cases hrt : (!cfg.reduceTruthy) = true <;>
        [rw [if_pos hrt] at h; rw [if_neg hrt] at h]
      · exact Except.noConfusion h
      · rcases hl : pyLast st.action_history with _ | lastA <;> rw [hl] at h <;>
          dsimp only at h
        · exact Except.noConfusion h
        · by_cases htr : (!lastA.truthy) = true <;>
            [rw [if_pos htr] at h; rw [if_neg htr] at h]
          · exact Except.noConfusion h
          · rcases hs : st.node_stack with _ | ⟨y, ys⟩ <;> rw [hs] at h <;>
              dsimp only at h
            · exact Except.noConfusion h
            · cases h; exact ⟨rfl, rfl, rfl, rfl, Or.inr ⟨rfl, rfl⟩,
              fun _ => rfl, rfl, fun hx => Bool.noConfusion hx.2⟩
    | reduce2 =>
      dsimp only at h
      by_cases hrt : (!cfg.reduceTruthy) = true <;>
        [rw [if_pos hrt] at h; rw [if_neg hrt] at h]
      · exact Except.noConfusion h
      · rcases hl : pyLast st.action_history with _ | lastA <;> rw [hl] at h <;>
          dsimp only at h
        · exact Except.noConfusion h
        · by_cases htr : (!lastA.truthy) = true <;>
            [rw [if_pos htr] at h; rw [if_neg htr] at h]
          · exact Except.noConfusion h
          · cases lastA <;> dsimp only at h <;>
              try exact Except.noConfusion h
            all_goals (
              by_cases habs : cfg.absolute_stack_pos = true <;>
                [rw [if_pos habs] at h; rw [if_neg habs] at h])
            all_goals (
              first
              | (rename_i pos lbl
                 by_cases hmem : pos ∈ st.node_stack <;>
                   [rw [if_pos hmem] at h; rw [if_neg hmem] at h] <;>
                 first
                   | exact Except.noConfusion h
                   | (cases h; exact ⟨rfl, rfl, rfl, rfl, Or.inr ⟨rfl, rfl⟩,
              fun _ => rfl, rfl, fun hx => Bool.noConfusion hx.2⟩))
              | (rcases hidx : pyIdx st.node_stack
                    ((st.node_stack.length : Int) - _ - 2) with _ | x <;>
                 rw [hidx] at h <;> dsimp only at h <;>
                 first
                   | exact Except.noConfusion h
                   | (cases h; exact ⟨rfl, rfl, rfl, rfl, Or.inr ⟨rfl, rfl⟩,
              fun _ => rfl, rfl, fun hx => Bool.noConfusion hx.2⟩)))
    | reduce3 =>
      dsimp only at h
      by_cases hrt : (!cfg.reduceTruthy) = true <;>
        [rw [if_pos hrt] at h; rw [if_neg hrt] at h]
      · exact Except.noConfusion h
      · rcases hl : pyLast st.action_history with _ | lastA <;> rw [hl] at h <;>
          dsimp only at h
        · exact Except.noConfusion h
        · by_cases htr : (!lastA.truthy) = true <;>
            [rw [if_pos htr] at h; rw [if_neg htr] at h]
          · exact Except.noConfusion h
          · cases lastA <;> dsimp only at h <;>
              try exact Except.noConfusion h
            all_goals (
              rename_i pos lbl
              by_cases habs : cfg.absolute_stack_pos = true <;>
                [rw [if_pos habs] at h; rw [if_neg habs] at h])
            all_goals (try (
              by_cases hmem : pos ∈ st.node_stack <;>
                [rw [if_pos hmem] at h; rw [if_neg hmem] at h] <;>
              (try dsimp only at h)))
            all_goals try exact Except.noConfusion h
            all_goals (try (
              rcases hs : st.node_stack.erase pos with _ | ⟨y, ys⟩ <;>
                rw [hs] at h <;> (try dsimp only at h) <;>
              first
                | exact Except.noConfusion h
                | (cases h; exact ⟨rfl, rfl, rfl, rfl, Or.inr ⟨rfl, rfl⟩,
              fun _ => rfl, rfl, fun hx => Bool.noConfusion hx.2⟩)))
            all_goals (
              generalize hi : ((st.node_stack.length : Int) - (pos : Int) - 2) = i at h
              generalize hj :
                (if i ≥ 0 then i.toNat
                 else st.node_stack.length - (-i).toNat) = j at h
              rcases hpy : pyIdx st.node_stack i with _ | x <;>
                rw [hpy] at h <;> dsimp only at h
              · exact Except.noConfusion h
              · rcases hz : st.node_stack.eraseIdx j with _ | ⟨y, ys⟩ <;>
                  rw [hz] at h <;> dsimp only at h
                · exact Except.noConfusion h
                · cases h; exact ⟨rfl, rfl, rfl, rfl, Or.inr ⟨rfl, rfl⟩,
              fun _ => rfl, rfl, fun hx => Bool.noConfusion hx.2⟩)

/-- Claim C7: once `CLOSE` has been applied (`is_closed` true), every
subsequent `AMRStateMachine.update` call, with any action and any
configuration, fails with the fatal precondition `assert not
self.is_closed` — modelled as `Except.error .assertError`, raised before
any state field is touched, so no successor state exists and the machine
state is unchanged. -/
theorem claim_C7_closed_rejects (cfg : MachineConfig)
    (st : AMRStateMachine) (a : Action) (h : st.is_closed = true) :
    st.update cfg a = .error .assertError := by
  simp [AMRStateMachine.update, h, throw, throwThe, MonadExceptOf.throw,
    Bind.bind, Except.bind]

/-- Witness for C7 at a concrete closed machine and the SHIFT action. -/
theorem claim_C7_closed_rejects_witness :
    closedMachine.update cfgDefault .shift = .error .assertError :=
  claim_C7_closed_rejects cfgDefault closedMachine .shift rfl

/-- Claim C2 (code evaluation at the failing input): for the gold graph
`amrParentC2` — node `n` unaligned with a parent `p` aligned to token
positions 0 and 2 — one `graph_alignments` sweep assigns `n` position 2,
the parent's maximum aligned position, although the claim (and the
function's own docstring, "first parent") require the minimum, 0. -/
theorem claim_C2_code_eval :
    graph_alignments ["n"] amrParentC2 = .ok [("n", 2)] ∧
    pyMin [0, 2] = .ok 0 :=
  ⟨rfl, rfl⟩

/-- Claim C4 (code evaluation at the failing input): for the gold graph
`amrMissingC4` — node `n1` absent from the alignment map and
unreachable by the sweeps (no edges) — `fix_alignments` returns with
`n1` still reported unaligned and still absent from the alignment map:
the break-time hard fix only rewrites entries explicitly set to `None`,
so `n1` is not force-aligned to token 0 as the claim requires. -/
theorem claim_C4_code_eval :
    fix_alignments amrMissingC4 = .ok (amrMissingC4, ["n1"]) ∧
    amrMissingC4.alignments.lookup "n1" = none ∧
    "n1" ∈ amrMissingC4.nodes.map Prod.fst :=
  ⟨rfl, rfl, by decide⟩

/-- Counterexample to C3 as stated: in the gold graph `amrOrderC3` the
node `X` (alignment-order number 2) has edges to `A` (number 0,
distance 2) and `B` (number 3, distance 1); after `AMROracle.reset` its
pending-edge list puts the `B` edge first, i.e. the *nearest* other
endpoint comes first, so the list is not ordered farthest-first by
alignment-order distance. -/
theorem claim_C3_counterexample :
    (AMROracle.reset amrOrderC3).map
      (fun os => (pendOf os "X", decide (farthestFirst os "X"))) =
      .ok ([("X", ":b", "B"), ("X", ":a", "A")], false) :=
  rfl

/-- Counterexample to C5 as stated: `update` itself never checks the
cursor bound, so the sequence `[SHIFT, SHIFT, CLOSE]` on the one-token
sentence `["a"]` is accepted step by step by `update`, drives
`tok_cursor` to 2 > 1 = `len(tokens)` (violating the claimed bound) and
closes validly with the final cursor different from `len(tokens)`
(violating the claimed equivalence). -/
theorem claim_C5_counterexample :
    (replay cfgDefault ["a"] [.shift, .shift, .close]).map
      (fun st => (st.tok_cursor, st.is_closed)) = .ok (2, true) ∧
    ¬ (2 ≤ (["a"] : List String).length) :=
  ⟨rfl, by decide⟩

/-- Counterexample to C8 as stated: after the sequence
`[<node x>, ROOT]` the last action is `ROOT` — neither node-generating
nor an arc action (its base form under the default vocabulary is
`ROOT`) — yet `get_valid_actions` offers `>LA` and `>RA`. -/
theorem claim_C8_counterexample :
    (replay cfgDefault ["a", "b"] [.node "x", .root]).map
      (fun st => (st.get_valid_actions cfgDefault,
                  st.action_history.getLast?)) =
      .ok (.ok ["SHIFT", "COPY", "NODE", ">LA", ">RA"], some .root) ∧
    Action.base true Action.root ∉ ["COPY", "NODE", ">LA", ">RA"] :=
  ⟨rfl, by decide⟩

/-- Counterexample to C9 as stated: `AMRStateMachine.update` applies the
arc action `>LA(0,foo)`, whose label `"foo"` lacks the leading relation
marker, without any failure: the edge `(1, "foo", 0)` is silently
appended and the machine continues. -/
theorem claim_C9_counterexample :
    (replay cfgAbsolute ["a", "b"] [.node "x", .node "y", .la 0 "foo"]).map
      (fun st => (st.edges, st.is_closed)) = .ok ([(1, "foo", 0)], false) ∧
    "foo".data.head? ≠ some ':' :=
  ⟨rfl, by decide⟩

/-- Counterexample to C10 as stated: on the (reachable) reset state with
an empty token sequence the cursor already equals `len(tokens)` and the
action history is empty, and `get_valid_actions` raises IndexError
(from `self.action_history[-1]`), not the claimed AssertionError. -/
theorem claim_C10_counterexample :
    (AMRStateMachine.reset []).get_valid_actions cfgDefault =
      .error .indexError ∧
    (AMRStateMachine.reset []).tok_cursor =
      (AMRStateMachine.reset []).tokens.length ∧
    PyErr.indexError ≠ PyErr.assertError :=
  ⟨rfl, rfl, by decide⟩

theorem close_notin_validBase (cfg : MachineConfig) (st : AMRStateMachine)
    (m : Bool) : "CLOSE" ∉ validBase cfg st m := by
  unfold validBase
  intro h
  rcases List.mem_append.1 h with h2 | h2
  · rcases List.mem_append.1 h2 with h3 | h3
    · revert h3; split
      · intro h3
        rcases List.mem_cons.1 h3 with h4 | h4
        · simp at h4
        · revert h4; unfold genNodeActions; split <;> decide
      · exact List.not_mem_nil _
    · revert h3
      rcases st.action_history.getLast? with _ | a
      · exact List.not_mem_nil _
      · dsimp only; split
        · decide
        · exact List.not_mem_nil _
  · revert h2
    rcases st.action_history.getLast? with _ | a
    · exact List.not_mem_nil _
    · dsimp only
      split
      · split
        · split
          · decide
          · exact List.not_mem_nil _
        · decide
      · exact List.not_mem_nil _

theorem validBase_end_empty (cfg : MachineConfig) (st : AMRStateMachine)
    (m : Bool) (hend : st.tok_cursor = st.tokens.length)
    (hlast : st.action_history.getLast? = some .shift) :
    validBase cfg st m = [] := by
  unfold validBase
  rw [hlast]
  have hnl : ¬ (st.tok_cursor < st.tokens.length) := by omega
  rw [if_neg hnl]
  dsimp only
  rw [if_neg (by unfold genNodeActions Action.base; split <;> decide),
      if_neg (by unfold genNodeActions Action.base; split <;> decide)]
  rfl

theorem gva_end_shift (cfg : MachineConfig) (st : AMRStateMachine)
    (hrt : cfg.reduceTruthy = false)
    (hend : st.tok_cursor = st.tokens.length)
    (hlast : st.action_history.getLast? = some .shift) :
    st.get_valid_actions cfg = .ok ["CLOSE"] := by
  unfold AMRStateMachine.get_valid_actions
  dsimp only [Bind.bind, Except.bind, pure, Except.pure]
  rw [if_pos hend, validBase_end_empty cfg st true hend hlast, hlast]
  simp [hrt]

theorem gva_end_nonshift (cfg : MachineConfig) (st : AMRStateMachine)
    (a : Action) (hend : st.tok_cursor = st.tokens.length)
    (hlast : st.action_history.getLast? = some a) (hne : a ≠ .shift) :
    st.get_valid_actions cfg = .error .assertError := by
  unfold AMRStateMachine.get_valid_actions
  dsimp only [Bind.bind, Except.bind, pure, Except.pure]
  rw [if_pos hend]
  by_cases hv3 : validBase cfg st true = []
  · rw [if_neg (by simpa using hv3), hlast]
    dsimp only
    rw [if_neg hne]
  · rw [if_pos (by simpa using hv3)]

theorem gva_end_nohistory (cfg : MachineConfig) (st : AMRStateMachine)
    (hend : st.tok_cursor = st.tokens.length)
    (hlast : st.action_history.getLast? = none) :
    st.get_valid_actions cfg = .error .indexError := by
  have hv3 : validBase cfg st true = [] := by
    unfold validBase
    rw [hlast, if_neg (show ¬ (st.tok_cursor < st.tokens.length) by omega)]
    rfl
  unfold AMRStateMachine.get_valid_actions
  dsimp only [Bind.bind, Except.bind, pure, Except.pure]
  rw [if_pos hend, if_neg (by simpa using hv3), hlast]

/-- Claim C10 (amended): with `reduce_nodes` unset and the cursor at
`len(tokens)`, `get_valid_actions` returns exactly `['CLOSE']` when the
last action is SHIFT, raises AssertionError when a last action exists
and is not SHIFT, and raises IndexError when the history is empty; and
CLOSE is offered only at cursor = `len(tokens)`. -/
theorem claim_C10_close_gate :
    (∀ (cfg : MachineConfig) (st : AMRStateMachine),
      cfg.reduceTruthy = false →
      st.tok_cursor = st.tokens.length →
      st.action_history.getLast? = some .shift →
      st.get_valid_actions cfg = .ok ["CLOSE"]) ∧
    (∀ (cfg : MachineConfig) (st : AMRStateMachine) (a : Action),
      st.tok_cursor = st.tokens.length →
      st.action_history.getLast? = some a → a ≠ .shift →
      st.get_valid_actions cfg = .error .assertError) ∧
    (∀ (cfg : MachineConfig) (st : AMRStateMachine),
      st.tok_cursor = st.tokens.length →
      st.action_history.getLast? = none →
      st.get_valid_actions cfg = .error .indexError) ∧
    (∀ (cfg : MachineConfig) (st : AMRStateMachine) (l : List String),
      st.get_valid_actions cfg = .ok l → "CLOSE" ∈ l →
      st.tok_cursor = st.tokens.length) := by
  refine ⟨fun cfg st hrt hend hlast => gva_end_shift cfg st hrt hend hlast,
          fun cfg st a hend hlast hne => gva_end_nonshift cfg st a hend hlast hne,
          fun cfg st hend hlast => gva_end_nohistory cfg st hend hlast,
          fun cfg st l h hmem => ?_⟩
  obtain ⟨-, hcase⟩ := gva_ok_shape cfg st l h
  rcases hcase with ⟨hend, -⟩ | ⟨-, hl⟩
  · exact hend
  · subst hl
    exact absurd hmem (close_notin_validBase cfg st true)

theorem shift_mem_validBase (cfg : MachineConfig) (st : AMRStateMachine)
    (m : Bool) (h : "SHIFT" ∈ validBase cfg st m) :
    st.tok_cursor < st.tokens.length := by
  by_contra hnl
  unfold validBase at h
  rw [if_neg hnl] at h
  rcases List.mem_append.1 h with h2 | h2
  · rcases List.mem_append.1 h2 with h3 | h3
    · exact List.not_mem_nil _ h3
    · revert h3
      rcases st.action_history.getLast? with _ | a
      · exact List.not_mem_nil _
      · dsimp only; split
        · decide
        · exact List.not_mem_nil _
  · revert h2
    rcases st.action_history.getLast? with _ | a
    · exact List.not_mem_nil _
    · dsimp only
      split
      · split
        · split
          · decide
          · exact List.not_mem_nil _
        · decide
      · exact List.not_mem_nil _

theorem applyActions_cursor_mono (cfg : MachineConfig) :
    ∀ (as : List Action) (st st' : AMRStateMachine),
    applyActions cfg st as = .ok st' → st.tok_cursor ≤ st'.tok_cursor := by
  intro as
  induction as with
  | nil => intro st st' h; cases h; exact le_refl _
  | cons a rest ih =>
    intro st st' h
    unfold applyActions at h
    rcases hu : st.update cfg a with _ | st1 <;> rw [hu] at h
    · exact Except.noConfusion h
    · have h1 := (update_fields cfg a st st1 hu).2.2.1
      have h2 := ih st1 st' h
      by_cases hsh : a = .shift
      · rw [if_pos hsh] at h1; omega
      · rw [if_neg hsh] at h1; omega

/-- Gated runs keep the cursor within bounds and equal to the token
count after a final CLOSE. -/
theorem gated_cursor (cfg : MachineConfig) :
    ∀ (as : List Action) (st st' : AMRStateMachine),
    gatedRun cfg st as = true → applyActions cfg st as = .ok st' →
    st.tok_cursor ≤ st.tokens.length →
    st'.tokens = st.tokens ∧ st'.tok_cursor ≤ st'.tokens.length ∧
      (as.getLast? = some .close → st'.tok_cursor = st'.tokens.length) := by
  intro as
  induction as with
  | nil =>
    intro st st' hg h hb
    cases h
    exact ⟨rfl, hb, fun hx => Option.noConfusion hx⟩
  | cons a rest ih =>
    intro st st' hg h hb
    unfold gatedRun at hg
    unfold applyActions at h
    rcases hv : st.get_valid_actions cfg with _ | l <;> rw [hv] at hg
    · exact Bool.noConfusion hg
    · dsimp only at hg
      by_cases hbase : a.base cfg.use_copy ∈ l
      · rw [if_pos hbase] at hg
        rcases hu : st.update cfg a with _ | st1 <;> rw [hu] at hg h
        · exact Except.noConfusion h
        · have hf := update_fields cfg a st st1 hu
          have htoks : st1.tokens = st.tokens := hf.1
          have hcur := hf.2.2.1
          have hlen : st1.tokens.length = st.tokens.length := by rw [htoks]
          have hb1 : st1.tok_cursor ≤ st1.tokens.length := by
            by_cases hsh : a = .shift
            · subst hsh
              rw [if_pos rfl] at hcur
              obtain ⟨-, hcase⟩ := gva_ok_shape cfg st l hv
              rcases hcase with ⟨-, hl, -, -⟩ | ⟨-, hl⟩
              · subst hl; simp [Action.base] at hbase
              · subst hl
                have hlt := shift_mem_validBase cfg st true hbase
                omega
            · rw [if_neg hsh] at hcur
              omega
          obtain ⟨ht2, hb2, hc2⟩ := ih st1 st' hg h hb1
          refine ⟨ht2.trans htoks, hb2, fun hcl => ?_⟩
          rcases rest with _ | ⟨b, rest2⟩
          · -- a :: [] : last action is a = close
            simp only [List.getLast?_singleton] at hcl
            injection hcl with hcl
            subst hcl
            cases h
            obtain ⟨-, hcase⟩ := gva_ok_shape cfg st l hv
            have hcend : st.tok_cursor = st.tokens.length := by
              rcases hcase with ⟨hend, -⟩ | ⟨-, hl⟩
              · exact hend
              · subst hl
                exact absurd hbase (close_notin_validBase cfg st true)
            rw [if_neg (by decide : ¬ (Action.close = Action.shift))] at hcur
            rw [htoks, hcur, hcend]
          · have : (a :: b :: rest2).getLast? = (b :: rest2).getLast? := by
              simp [List.getLast?_cons_cons]
            rw [this] at hcl
            exact hc2 hcl
      · rw [if_neg hbase] at hg
        exact Bool.noConfusion hg

theorem genIndices_cons (a : Action) (rest : List Action) (k : Nat) :
    genIndices (a :: rest) k =
      (if isGenAction a then [k] else []) ++ genIndices rest (k + 1) := rfl

theorem dinsert_map_fst_fresh {β : Type} (k : Nat) (v : β)
    (m : List (Nat × β)) (hk : k ∉ m.map Prod.fst) :
    (dinsert k v m).map Prod.fst = m.map Prod.fst ++ [k] := by
  induction m with
  | nil => rfl
  | cons p rest ih =>
    unfold dinsert
    have hne : p.1 ≠ k := by
      intro he; exact hk (by simp [he])
    rw [if_neg (by simpa using hne)]
    simp only [List.map_cons, List.cons_append, List.cons.injEq, true_and]
    exact ih (fun hmem => hk (by simp [hmem]))

theorem genIndices_lb : ∀ (as : List Action) (k : Nat) (i : Nat),
    i ∈ genIndices as k → k ≤ i := by
  intro as
  induction as with
  | nil => intro k i h; exact absurd h (List.not_mem_nil i)
  | cons a rest ih =>
    intro k i h
    unfold genIndices at h
    rcases List.mem_append.1 h with h2 | h2
    · revert h2; split
      · intro h2
        rcases List.mem_singleton.1 h2 with rfl
        exact le_refl i
      · exact fun h2 => absurd h2 (List.not_mem_nil i)
    · exact le_of_lt (lt_of_lt_of_le (Nat.lt_succ_self k) (ih (k+1) i h2))

theorem genIndices_chain : ∀ (as : List Action) (k : Nat),
    List.Chain' (· < ·) (genIndices as k) := by
  intro as
  induction as with
  | nil => intro k; exact List.chain'_nil
  | cons a rest ih =>
    intro k
    unfold genIndices
    split
    · refine List.chain'_cons'.2 ⟨fun j hj => ?_, ih (k + 1)⟩
      have := genIndices_lb rest (k + 1) j (List.mem_of_mem_head? hj)
      omega
    · simpa using ih (k + 1)

theorem genIndices_mem : ∀ (as : List Action) (k i : Nat),
    i ∈ genIndices as k ↔
      ∃ j, ∃ hj : j < as.length, i = k + j ∧
        isGenAction (as.get ⟨j, hj⟩) = true := by
  intro as
  induction as with
  | nil =>
    intro k i
    constructor
    · intro h; exact absurd h (List.not_mem_nil i)
    · rintro ⟨j, hj, -⟩; exact absurd hj (by simp)
  | cons a rest ih =>
    intro k i
    unfold genIndices
    constructor
    · intro h
      rcases List.mem_append.1 h with h2 | h2
      · revert h2; split
        · intro h2
          rcases List.mem_singleton.1 h2 with rfl
          rename_i hga
          exact ⟨0, by simp, by omega, by simpa using hga⟩
        · exact fun h2 => absurd h2 (List.not_mem_nil i)
      · obtain ⟨j, hj, hik, hg⟩ := (ih (k + 1) i).1 h2
        exact ⟨j + 1, by simpa using Nat.succ_lt_succ hj, by omega, by simpa using hg⟩
    · rintro ⟨j, hj, rfl, hg⟩
      rcases j with _ | j2
      · refine List.mem_append.2 (Or.inl ?_)
        simp only [List.get] at hg
        rw [if_pos hg]
        simp
      · refine List.mem_append.2 (Or.inr ?_)
        refine (ih (k + 1) (k + (j2 + 1))).2 ⟨j2, by simpa using Nat.lt_of_succ_lt_succ hj, by omega, ?_⟩
        simpa using hg

theorem applyActions_node_ids (cfg : MachineConfig) :
    ∀ (as : List Action) (st st' : AMRStateMachine),
    applyActions cfg st as = .ok st' →
    (∀ d ∈ st.nodes.map Prod.fst, d < st.action_history.length) →
    st'.nodes.map Prod.fst =
      st.nodes.map Prod.fst ++ genIndices as st.action_history.length ∧
    (∀ d ∈ st'.nodes.map Prod.fst, d < st'.action_history.length) := by
  intro as
  induction as with
  | nil =>
    intro st st' h hinv
    cases h
    exact ⟨by simp [genIndices], hinv⟩
  | cons a rest ih =>
    intro st st' h hinv
    unfold applyActions at h
    rcases hu : st.update cfg a with _ | st1 <;> rw [hu] at h
    · exact Except.noConfusion h
    · have hf := update_fields cfg a st st1 hu
      have hh : st1.action_history = st.action_history ++ [a] := hf.2.1
      have hlen : st1.action_history.length = st.action_history.length + 1 := by
        rw [hh]; simp
      rcases hf.2.2.2.2.1 with ⟨hga, lbl, hnodes, -⟩ | ⟨hga, hnodes⟩
      · -- node created with id = history length
        have hfresh : st.action_history.length ∉ st.nodes.map Prod.fst :=
          fun hmem => absurd (hinv _ hmem) (by omega)
        have hkeys : st1.nodes.map Prod.fst =
            st.nodes.map Prod.fst ++ [st.action_history.length] := by
          rw [hnodes]; exact dinsert_map_fst_fresh _ lbl st.nodes hfresh
        have hinv1 : ∀ d ∈ st1.nodes.map Prod.fst, d < st1.action_history.length := by
          intro d hd
          rw [hkeys] at hd
          rcases List.mem_append.1 hd with h2 | h2
          · have := hinv d h2; omega
          · rcases List.mem_singleton.1 h2 with rfl; omega
        obtain ⟨hk2, hi2⟩ := ih st1 st' h hinv1
        refine ⟨?_, hi2⟩
        rw [hk2, hkeys, hlen, genIndices_cons, if_pos hga]
        simp
      · have hinv1 : ∀ d ∈ st1.nodes.map Prod.fst, d < st1.action_history.length := by
          intro d hd
          rw [hnodes] at hd
          have := hinv d hd; omega
        obtain ⟨hk2, hi2⟩ := ih st1 st' h hinv1
        refine ⟨?_, hi2⟩
        rw [hk2, hnodes, hlen, genIndices_cons, if_neg (by simp [hga])]
        simp

theorem base_trigger_iff (cfg : MachineConfig) (a : Action) :
    (a.base cfg.use_copy ∈ genNodeActions cfg ++ ["ROOT", ">LA", ">RA"]) ↔
    (a ≠ .shift ∧ a ≠ .close) := by
  rcases hu : cfg.use_copy with _ | _ <;>
    cases a <;>
      simp [genNodeActions, Action.base, hu]

/-- Claim C8 (amended): in non-align mode `get_valid_actions` offers the
arc actions `>LA`/`>RA` exactly when the action history is non-empty and
its last action is neither `SHIFT` nor `CLOSE`: the base form of every
other action — `COPY` (which collapses to `NODE` when `use_copy` is
off), a literal node name, `ROOT`, an arc action, or a `REDUCE` variant
(whose base form is also `NODE`, as it is never in the base
vocabulary) — is in the source's trigger list
`gen_node_actions + ['ROOT', '>LA', '>RA']`. -/
theorem claim_C8_arc_gate (cfg : MachineConfig) (st : AMRStateMachine)
    (l : List String) (h : st.get_valid_actions cfg = .ok l) :
    ((">LA" ∈ l ∨ ">RA" ∈ l) ↔
      (∃ a, st.action_history.getLast? = some a ∧
        a ≠ .shift ∧ a ≠ .close)) := by
  obtain ⟨-, hcase⟩ := gva_ok_shape cfg st l h
  rcases hcase with ⟨-, hl, hv3, hlast⟩ | ⟨-, hl⟩
  · subst hl
    constructor
    · rintro (hm | hm) <;> simp at hm
    · rintro ⟨a, ha, hne, -⟩
      rw [hlast] at ha
      injection ha with ha
      exact absurd ha.symm hne
  · subst hl
    rw [mem_validBase_arc cfg st true]
    constructor
    · rintro ⟨a, ha, htrig⟩
      exact ⟨a, ha, (base_trigger_iff cfg a).1 htrig⟩
    · rintro ⟨a, ha, hne⟩
      exact ⟨a, ha, (base_trigger_iff cfg a).2 hne⟩

/-- Witness for C8 at the machine state reached by `[<node x>]`. -/
theorem claim_C8_arc_gate_witness :
    ((">LA" ∈ lC8w ∨ ">RA" ∈ lC8w) ↔
      (∃ a, stC8w.action_history.getLast? = some a ∧
        a ≠ .shift ∧ a ≠ .close)) :=
  claim_C8_arc_gate cfgDefault stC8w lC8w rfl

/-- Claim C9 (amended): `AMRStateMachine.update` performs no validation
of arc labels — it appends the edge with the label verbatim, marker or
not — while `AMROracle.get_arc_action` asserts the leading `:` marker,
so every arc action the oracle emits carries a marked label. -/
theorem claim_C9_labels :
    (∀ (cfg : MachineConfig) (st st' : AMRStateMachine) (pos : Nat)
       (label : String),
      st.update cfg (.la pos label) = .ok st' →
      ∃ src tgt, st'.edges = st.edges ++ [(src, label, tgt)]) ∧
    (∀ (cfg : MachineConfig) (st st' : AMRStateMachine) (pos : Nat)
       (label : String),
      st.update cfg (.ra pos label) = .ok st' →
      ∃ src tgt, st'.edges = st.edges ++ [(src, label, tgt)]) ∧
    (∀ (os os2 : AMROracle) (cfg : MachineConfig) (ms : AMRStateMachine)
       (a : Action),
      os.get_arc_action cfg ms = .ok (some (os2, a)) →
      ∃ pos label, (a = .la pos label ∨ a = .ra pos label) ∧
        label.data.head? = some ':') := by
  refine ⟨update_la_edges, update_ra_edges, fun os os2 cfg ms a h => ?_⟩
  unfold AMROracle.get_arc_action at h
  obtain ⟨top, htop, h⟩ := bind_ok h
  obtain ⟨cur, hcur, h⟩ := bind_ok h
  exact arcScan_label cfg ms top cur _ os os2 a h

/-- Witness for C9: the unmarked arc appended verbatim at `stC9pre`, and
the marked label of the arc the oracle emits at `osArcC9`. -/
theorem claim_C9_labels_witness :
    (∃ src tgt, stC9post.edges = stC9pre.edges ++ [(src, "foo", tgt)]) ∧
    (∃ pos label,
      (arcC9out.2 = .la pos label ∨ arcC9out.2 = .ra pos label) ∧
      label.data.head? = some ':') :=
  ⟨claim_C9_labels.1 cfgAbsolute stC9pre stC9post 0 "foo" rfl,
   claim_C9_labels.2.2 osArcC9 arcC9out.1 cfgDefault msArcC9 arcC9out.2 rfl⟩

/-- Witness for C10 at the state reached by `[SHIFT]` on one token. -/
theorem claim_C10_close_gate_witness :
    stC10w.get_valid_actions cfgDefault = .ok ["CLOSE"] ∧
    stC10w.tok_cursor = stC10w.tokens.length :=
  ⟨claim_C10_close_gate.1 cfgDefault stC10w rfl rfl rfl,
   claim_C10_close_gate.2.2.2 cfgDefault stC10w ["CLOSE"]
     (claim_C10_close_gate.1 cfgDefault stC10w rfl rfl rfl)
     (List.mem_singleton.2 rfl)⟩

/-- Claim C5 (amended): for every action sequence accepted step by step
by `update` the cursor is non-decreasing; for gated runs (each action's
base form offered by `get_valid_actions` at its step) the cursor stays
within `[0, len(tokens)]` and a run ending with CLOSE ends with the
cursor at `len(tokens)`; and the converse fails even for gated runs:
the gated run `[SHIFT]` on one token ends with the cursor at
`len(tokens)` without the machine being closed. -/
theorem claim_C5_cursor :
    (∀ (cfg : MachineConfig) (as : List Action) (st st' : AMRStateMachine),
        applyActions cfg st as = .ok st' → st.tok_cursor ≤ st'.tok_cursor) ∧
    (∀ (cfg : MachineConfig) (toks : List String) (as : List Action)
        (st' : AMRStateMachine),
        gatedRun cfg (AMRStateMachine.reset toks) as = true →
        replay cfg toks as = .ok st' →
        st'.tok_cursor ≤ toks.length ∧
        (as.getLast? = some .close → st'.tok_cursor = toks.length)) ∧
    (gatedRun cfgDefault (AMRStateMachine.reset ["a"]) [.shift] = true ∧
     ∃ st', replay cfgDefault ["a"] [.shift] = .ok st' ∧
       st'.tok_cursor = (["a"] : List String).length ∧
       st'.is_closed = false) := by
  refine ⟨fun cfg as st st' h => applyActions_cursor_mono cfg as st st' h,
          fun cfg toks as st' hg h => ?_,
          rfl, ⟨_, rfl, rfl, rfl⟩⟩
  obtain ⟨ht, hb, hc⟩ := gated_cursor cfg as (AMRStateMachine.reset toks) st'
    hg h (by simp [AMRStateMachine.reset])
  have hlen : st'.tokens.length = toks.length := by
    rw [ht]; rfl
  exact ⟨hlen ▸ hb, fun hcl => hlen ▸ hc hcl⟩

/-- Witness for C5 with the gated run `[SHIFT, CLOSE]` on one token. -/
theorem claim_C5_cursor_witness :
    (AMRStateMachine.reset ["a"]).tok_cursor ≤ stC5w.tok_cursor ∧
    (stC5w.tok_cursor ≤ (["a"] : List String).length ∧
      (([Action.shift, Action.close].getLast? = some Action.close) →
        stC5w.tok_cursor = (["a"] : List String).length)) :=
  ⟨claim_C5_cursor.1 cfgDefault [.shift, .close]
      (AMRStateMachine.reset ["a"]) stC5w rfl,
   claim_C5_cursor.2.1 cfgDefault ["a"] [.shift, .close] stC5w rfl rfl⟩

/-- Claim C6 (confirmed): for every action sequence accepted by
`update` from a fresh reset, the generated node ids are exactly the
0-based positions in the action history of the node-creating actions
(COPY or a literal node label), in strictly increasing order, never
reused. -/
theorem claim_C6_node_ids (cfg : MachineConfig) (toks : List String)
    (as : List Action) (st' : AMRStateMachine)
    (h : replay cfg toks as = .ok st') :
    st'.nodes.map Prod.fst = genIndices as 0 ∧
    List.Chain' (· < ·) (st'.nodes.map Prod.fst) ∧
    (∀ i, i ∈ st'.nodes.map Prod.fst ↔
      ∃ hi : i < as.length, isGenAction (as.get ⟨i, hi⟩) = true) := by
  obtain ⟨hk, -⟩ := applyActions_node_ids cfg as (AMRStateMachine.reset toks) st' h
    (by intro d hd; exact absurd hd (List.not_mem_nil d))
  have hk0 : st'.nodes.map Prod.fst = genIndices as 0 := by simpa using hk
  refine ⟨hk0, hk0 ▸ genIndices_chain as 0, fun i => ?_⟩
  rw [hk0]
  rw [genIndices_mem as 0 i]
  constructor
  · rintro ⟨j, hj, rfl, hg⟩
    exact ⟨by simpa using hj, by simpa using hg⟩
  · rintro ⟨hi, hg⟩
    exact ⟨i, hi, by omega, hg⟩

/-- Witness for C6 with the run `[SHIFT, <node x>, COPY]` on two
tokens. -/
theorem claim_C6_node_ids_witness :
    stC6w.nodes.map Prod.fst = genIndices [.shift, .node "x", .copy] 0 ∧
    List.Chain' (· < ·) (stC6w.nodes.map Prod.fst) ∧
    (∀ i, i ∈ stC6w.nodes.map Prod.fst ↔
      ∃ hi : i < ([Action.shift, .node "x", .copy] : List Action).length,
        isGenAction (([Action.shift, .node "x", .copy] : List Action).get
          ⟨i, hi⟩) = true) :=
  claim_C6_node_ids cfgDefault ["a", "b"] [.shift, .node "x", .copy] stC6w rfl

theorem sortInsert_perm (le : α → α → Bool) (a : α) :
    ∀ l : List α, (sortInsert le a l).Perm (a :: l) := by
  intro l
  induction l with
  | nil => exact List.Perm.refl _
  | cons b bs ih =>
    unfold sortInsert
    split
    · exact ((ih.cons b).trans (List.Perm.swap a b bs)).symm.symm
    · exact List.Perm.refl _

theorem pysort_perm (le : α → α → Bool) :
    ∀ l : List α, (pysort le l).Perm l := by
  intro l
  induction l with
  | nil => exact List.Perm.refl _
  | cons a as ih =>
    unfold pysort
    exact (sortInsert_perm le a (pysort le as)).trans (ih.cons a)

theorem sortInsert_pairwise (le : α → α → Bool)
    (htot : ∀ x y, le x y || le y x)
    (htrans : ∀ x y z, le x y = true → le y z = true → le x z = true)
    (a : α) :
    ∀ l : List α, l.Pairwise (fun x y => le x y = true) →
    (sortInsert le a l).Pairwise (fun x y => le x y = true) := by
  intro l
  induction l with
  | nil => intro _; exact List.pairwise_singleton _ a
  | cons b bs ih =>
    intro hp
    rcases List.pairwise_cons.1 hp with ⟨hb, hbs⟩
    unfold sortInsert
    split
    · rename_i hba
      refine List.pairwise_cons.2 ⟨?_, ih hbs⟩
      intro x hx
      have hx2 : x ∈ a :: bs := (sortInsert_perm le a bs).mem_iff.mp hx
      rcases List.mem_cons.1 hx2 with h | h
      · rw [h]; exact hba
      · exact hb x h
    · rename_i hba
      have hab : le a b = true := by
        rcases Bool.or_eq_true_iff.1 (htot b a) with h | h
        · exact absurd h hba
        · rcases Bool.or_eq_true_iff.1 (htot a b) with h2 | h2
          · exact h2
          · exact h
      refine List.pairwise_cons.2 ⟨?_, hp⟩
      intro x hx
      rcases List.mem_cons.1 hx with rfl | hx2
      · exact hab
      · exact htrans a b x hab (hb x hx2)

theorem pysort_pairwise (le : α → α → Bool)
    (htot : ∀ x y, le x y || le y x)
    (htrans : ∀ x y z, le x y = true → le y z = true → le x z = true) :
    ∀ l : List α, (pysort le l).Pairwise (fun x y => le x y = true) := by
  intro l
  induction l with
  | nil => exact List.Pairwise.nil
  | cons a as ih =>
    unfold pysort
    exact sortInsert_pairwise le htot htrans a (pysort le as) ih

theorem keyGe_total : ∀ x y : Nat × Nat, keyGe x y || keyGe y x := by
  intro x y
  unfold keyGe
  rcases Nat.lt_trichotomy x.1 y.1 with h | h | h
  · simp [h, Nat.not_lt.2 (le_of_lt h)]
  · by_cases h2 : y.2 ≤ x.2 <;> simp [h, h2] <;> omega
  · simp [h]

theorem keyGe_trans : ∀ x y z : Nat × Nat,
    keyGe x y = true → keyGe y z = true → keyGe x z = true := by
  intro x y z hxy hyz
  unfold keyGe at *
  simp only [Bool.or_eq_true, Bool.and_eq_true, decide_eq_true_eq, beq_iff_eq] at *
  omega

theorem keyGe_fst : ∀ x y : Nat × Nat, keyGe x y = true → y.1 ≤ x.1 := by
  intro x y h
  unfold keyGe at h
  simp only [Bool.or_eq_true, Bool.and_eq_true, decide_eq_true_eq, beq_iff_eq] at h
  omega

theorem mapM_ok_forall₂ {α β : Type} (f : α → Except PyErr β) :
    ∀ (l : List α) (l' : List β), l.mapM f = .ok l' →
    List.Forall₂ (fun a b => f a = .ok b) l l' := by
  intro l
  induction l with
  | nil =>
    intro l' h
    simp only [List.mapM_nil, pure, Except.pure] at h
    injection h with h
    rw [← h]
    exact List.Forall₂.nil
  | cons a as ih =>
    intro l' h
    rw [List.mapM_cons] at h
    obtain ⟨b, hb, h⟩ := bind_ok h
    obtain ⟨bs, hbs, h⟩ := bind_ok h
    simp only [pure, Except.pure] at h
    injection h with h
    rw [← h]
    exact List.Forall₂.cons hb (ih bs hbs)

theorem forall₂_mem_right {α β : Type} {R : α → β → Prop} :
    ∀ {l1 : List α} {l2 : List β}, List.Forall₂ R l1 l2 →
    ∀ b ∈ l2, ∃ a ∈ l1, R a b := by
  intro l1 l2 h
  induction h with
  | nil => intro b hb; exact absurd hb (List.not_mem_nil b)
  | cons hab _ ih =>
    intro b hb
    rcases List.mem_cons.1 hb with rfl | hb2
    · exact ⟨_, List.mem_cons_self _ _, hab⟩
    · obtain ⟨a, ha, hr⟩ := ih b hb2
      exact ⟨a, List.mem_cons_of_mem _ ha, hr⟩

theorem getD_range_map {α : Type} (d : α) :
    ∀ lst : List α, (List.range lst.length).map (fun i => lst.getD i d) = lst := by
  intro lst
  induction lst with
  | nil => rfl
  | cons a rest ih =>
    have : List.range (a :: rest).length = 0 :: (List.range rest.length).map (· + 1) := by
      simp [List.range_succ_eq_map]
    rw [this]
    simp only [List.map_cons, List.map_map]
    refine congrArg (a :: ·) ?_
    rw [show ((fun i => (a :: rest).getD i d) ∘ (· + 1)) = (fun i => rest.getD i d) from rfl]
    exact ih



theorem getD_of_mem_enum {α : Type} {l : List α} {p : Nat × α} (d : α)
    (h : p ∈ l.enum) : l.getD p.1 d = p.2 := by
  have h2 := List.mem_enum_iff_get?.1 h
  rw [List.get?_eq_getElem?] at h2
  simp [List.getD, h2]

theorem forall₂_snd_fst {α : Type} {R : (Nat × α) → (Nat × Nat) → Prop}
    (hR : ∀ p q, R p q → q.2 = p.1) :
    ∀ {l1 : List (Nat × α)} {l2 : List (Nat × Nat)}, List.Forall₂ R l1 l2 →
    l2.map Prod.snd = l1.map Prod.fst := by
  intro l1 l2 h
  induction h with
  | nil => rfl
  | cons hab hrest ih =>
    simp only [List.map_cons, ih, List.cons.injEq, and_true]
    exact hR _ _ hab

theorem sortPendList_spec (nums : List (String × Nat)) (nid : String)
    (lst out : List (String × String × String))
    (h : sortPendList nums nid lst = .ok out) :
    out.Perm lst ∧
    out.Pairwise (fun e1 e2 =>
      ((nums.lookup (otherEndpoint nid e2)).getD 0 : Nat) ≤
      (nums.lookup (otherEndpoint nid e1)).getD 0) := by
  unfold sortPendList at h
  obtain ⟨keys, hkeys, h⟩ := bind_ok h
  simp only [pure, Except.pure] at h
  injection h with h
  have hf2 := mapM_ok_forall₂ _ lst.enum keys hkeys
  have hrel : List.Forall₂ (fun (p : Nat × (String × String × String))
      (q : Nat × Nat) => q.2 = p.1 ∧
        nums.lookup (otherEndpoint nid p.2) = some q.1) lst.enum keys := by
    refine List.Forall₂.imp ?_ hf2
    intro p q hpq
    obtain ⟨num, hnum, hpq⟩ := bind_ok hpq
    simp only [pure, Except.pure] at hpq
    injection hpq with hpq
    unfold dlookupE at hnum
    rcases hlk : nums.lookup (if p.2.1 == nid then p.2.2.2 else p.2.1) with _ | v <;>
      rw [hlk] at hnum
    · exact Except.noConfusion hnum
    · injection hnum with hnum
      subst hnum
      constructor
      · rw [← hpq]
      · rw [show otherEndpoint nid p.2 = (if p.2.1 == nid then p.2.2.2 else p.2.1) from rfl,
          hlk, ← hpq]
  -- out is a permutation of lst
  have hsndfst : keys.map Prod.snd = lst.enum.map Prod.fst :=
    forall₂_snd_fst (fun p q hq => hq.1) hrel
  have hperm : out.Perm lst := by
    rw [← h]
    have h1 : ((pysort keyGe keys).map
        (fun p => lst.getD p.2 ("", "", ""))).Perm
        (keys.map (fun p => lst.getD p.2 ("", "", ""))) :=
      (pysort_perm keyGe keys).map _
    refine h1.trans ?_
    have h2 : keys.map (fun p => lst.getD p.2 ("", "", "")) =
        (keys.map Prod.snd).map (fun i => lst.getD i ("", "", "")) := by
      rw [List.map_map]; rfl
    rw [h2, hsndfst, List.enum_map_fst, getD_range_map]
  refine ⟨hperm, ?_⟩
  -- pairwise
  have hsorted : (pysort keyGe keys).Pairwise (fun x y => keyGe x y = true) :=
    pysort_pairwise keyGe keyGe_total keyGe_trans keys
  have hkeyinv : ∀ q ∈ pysort keyGe keys,
      nums.lookup (otherEndpoint nid (lst.getD q.2 ("", "", ""))) = some q.1 := by
    intro q hq
    have hq2 : q ∈ keys := (pysort_perm keyGe keys).mem_iff.mp hq
    obtain ⟨p, hp, hq3⟩ := forall₂_mem_right hrel q hq2
    obtain ⟨hq4, hq5⟩ := hq3
    rw [hq4, getD_of_mem_enum _ hp]
    exact hq5
  rw [← h]
  rw [List.pairwise_map]
  refine hsorted.imp_of_mem ?_
  intro x y hx hy hxy
  have h1 := hkeyinv x hx
  have h2 := hkeyinv y hy
  rw [h1, h2]
  simp only [Option.getD_some]
  exact keyGe_fst x y hxy

theorem dappend_getD {β : Type} (k : String) (v : β)
    (m : List (String × List β)) (k' : String) :
    (((dappend k v m).lookup k').getD []) =
      ((m.lookup k').getD []) ++ (if k' == k then [v] else []) := by
  induction m with
  | nil =>
    by_cases hk : k' = k
    · simp [dappend, List.lookup, hk]
    · simp [dappend, List.lookup, (by simpa using hk : (k' == k) = false)]
  | cons p rest ih =>
    rcases p with ⟨k2, vs⟩
    by_cases hpk : k2 = k
    · by_cases hk : k' = k2
      · simp [dappend, List.lookup, hpk, hk]
      · simp [dappend, List.lookup, hpk, hk,
          (by simpa using hk : (k' == k2) = false),
          (show (k' == k) = false by simpa using (hpk ▸ hk))]
    · by_cases hk : k' = k2
      · have hkk : (k' == k) = false := by
          simpa using (hk ▸ hpk)
        simp [dappend, List.lookup,
          (by simpa using hpk : (k2 == k) = false), hk, hkk]
      · simp only [dappend, (by simpa using hpk : (k2 == k) = false),
          Bool.false_eq_true, if_false, List.lookup,
          (by simpa using hk : (k' == k2) = false)]
        exact ih

theorem touchingEdges_cons (e : String × String × String)
    (rest : List (String × String × String)) (nid : String) :
    touchingEdges (e :: rest) nid =
      ((if e.1 == nid then [e] else []) ++
       (if e.2.2 == nid then [e] else [])) ++ touchingEdges rest nid := by
  unfold touchingEdges
  rw [List.flatMap_cons, List.append_assoc]

theorem initPend_fold_getD :
    ∀ (edges : List (String × String × String))
      (acc : List (String × List (String × String × String))) (nid : String),
    (((edges.foldl (fun p e => dappend e.2.2 e (dappend e.1 e p)) acc).lookup
        nid).getD []) =
      ((acc.lookup nid).getD []) ++ touchingEdges edges nid := by
  intro edges
  induction edges with
  | nil => intro acc nid; simp [touchingEdges]
  | cons e rest ih =>
    intro acc nid
    rw [List.foldl_cons, ih, touchingEdges_cons]
    rw [dappend_getD, dappend_getD]
    have hsw : ∀ a b : String, (a == b) = (b == a) := by
      intro a b
      by_cases hab : a = b
      · subst hab; rfl
      · rw [(by simpa using hab : (a == b) = false),
            (by simpa using (Ne.symm hab) : (b == a) = false)]
    rw [hsw nid e.1, hsw nid e.2.2]
    simp [List.append_assoc]

theorem initPend_getD (edges : List (String × String × String))
    (nid : String) :
    (((initPend edges).lookup nid).getD []) = touchingEdges edges nid := by
  unfold initPend
  rw [initPend_fold_getD]
  simp [List.lookup]

theorem forall₂_lookup {β γ : Type} {S : String → β → γ → Prop} :
    ∀ {l1 : List (String × β)} {l2 : List (String × γ)},
    List.Forall₂ (fun p q => q.1 = p.1 ∧ S p.1 p.2 q.2) l1 l2 →
    ∀ k, (l1.lookup k = none → l2.lookup k = none) ∧
      (∀ v, l1.lookup k = some v →
        ∃ v', l2.lookup k = some v' ∧ S k v v') := by
  intro l1 l2 h
  induction h with
  | nil => intro k; exact ⟨fun _ => rfl, fun v hv => Option.noConfusion hv⟩
  | cons hpq hrest ih =>
    rename_i p q l1' l2'
    rcases p with ⟨p1, p2⟩
    rcases q with ⟨q1, q2⟩
    obtain ⟨hq1, hS⟩ := hpq
    dsimp only at hq1 hS
    subst hq1
    intro k
    by_cases hk : k = q1
    · subst hk
      constructor
      · intro hv
        simp [List.lookup] at hv
      · intro v hv
        have hv2 : v = p2 := by
          have := by simpa [List.lookup] using hv
          exact this.symm
        exact ⟨q2, by simp [List.lookup], hv2 ▸ hS⟩
    · have hk1 : (k == q1) = false := by simpa using hk
      constructor
      · intro hv
        simp only [List.lookup, hk1] at hv
        simp only [List.lookup, hk1]
        exact (ih k).1 hv
      · intro v hv
        simp only [List.lookup, hk1] at hv
        obtain ⟨v', hv', hS'⟩ := (ih k).2 v hv
        exact ⟨v', by simp only [List.lookup, hk1]; exact hv', hS'⟩

theorem reset_pend_forall₂ (gold : AMR) (os : AMROracle)
    (h : AMROracle.reset gold = .ok os) :
    List.Forall₂ (fun p q => q.1 = p.1 ∧
        sortPendList os.node_id_2_node_number p.1 p.2 = .ok q.2)
      (initPend os.gold.edges) os.pend_edges_by_node := by
  unfold AMROracle.reset at h
  obtain ⟨⟨g, unal⟩, hfix, h⟩ := bind_ok h
  obtain ⟨abt, habt, h⟩ := bind_ok h
  obtain ⟨pend, hpend, h⟩ := bind_ok h
  simp only [pure, Except.pure] at h
  injection h with h
  subst h
  dsimp only
  have hf2 := mapM_ok_forall₂ _ (initPend g.edges) pend hpend
  refine List.Forall₂.imp ?_ hf2
  intro p q hpq
  obtain ⟨v, hv, hpq⟩ := bind_ok hpq
  simp only [pure, Except.pure] at hpq
  injection hpq with hpq
  subst hpq
  exact ⟨rfl, hv⟩

theorem dlookupE_ok {α β : Type} [BEq α] {m : List (α × β)} {k : α} {v : β}
    (h : dlookupE m k = .ok v) : m.lookup k = some v := by
  unfold dlookupE at h
  rcases hl : m.lookup k with _ | w <;> rw [hl] at h
  · exact Except.noConfusion h
  · injection h with h; rw [h]

theorem arcScan_first (cfg : MachineConfig) (ms : AMRStateMachine)
    (top : Nat) (current : String) :
    ∀ (l : List (String × String × String)) (os os2 : AMROracle) (a : Action),
    arcScan cfg ms os top current l = .ok (some (os2, a)) →
    ∃ pre e post, l = pre ++ e :: post ∧
      (∀ e2 ∈ pre, producibleB os ms top e2 = false) ∧
      producibleB os ms top e = true ∧
      (∃ pos, a = .la pos e.2.1 ∨ a = .ra pos e.2.1) := by
  intro l
  induction l with
  | nil => intro os os2 a h; simp [arcScan] at h
  | cons e rest ih =>
    intro os os2 a h
    unfold arcScan at h
    cases h1 : os.node_map.lookup e.1 <;> rw [h1] at h
    case none =>
      obtain ⟨pre, e3, post, hsplit, hpre, hprod, hshape⟩ := ih os os2 a h
      refine ⟨e :: pre, e3, post, by rw [hsplit]; rfl, ?_, hprod, hshape⟩
      intro e2 he2
      rcases List.mem_cons.1 he2 with he2 | he2
      · subst he2
        simp [producibleB, h1]
      · exact hpre e2 he2
    case some dsrc =>
    cases h2 : os.node_map.lookup e.2.2 <;> rw [h2] at h
    case none =>
      obtain ⟨pre, e3, post, hsplit, hpre, hprod, hshape⟩ := ih os os2 a h
      refine ⟨e :: pre, e3, post, by rw [hsplit]; rfl, ?_, hprod, hshape⟩
      intro e2 he2
      rcases List.mem_cons.1 he2 with he2 | he2
      · subst he2
        simp [producibleB, h1, h2]
      · exact hpre e2 he2
    case some dtgt =>
    dsimp only at h
    by_cases hla : (dsrc == top && decide (dtgt ∈ ms.node_stack.dropLast)) = true
    · rw [if_pos hla] at h
      dsimp only [Bind.bind, Except.bind, pure, Except.pure] at h
      split at h
      · obtain ⟨ha, -⟩ := arcTail_inv h
        exact ⟨[], e, rest, rfl, fun e2 he2 => absurd he2 (List.not_mem_nil e2),
          by simp [producibleB, h1, h2, hla], _, Or.inl ha⟩
      · obtain ⟨ha, -⟩ := arcTail_inv h
        exact ⟨[], e, rest, rfl, fun e2 he2 => absurd he2 (List.not_mem_nil e2),
          by simp [producibleB, h1, h2, hla], _, Or.inl ha⟩
    · rw [if_neg hla] at h
      by_cases hra : (dtgt == top && decide (dsrc ∈ ms.node_stack.dropLast)) = true
      · rw [if_pos hra] at h
        dsimp only [Bind.bind, Except.bind, pure, Except.pure] at h
        split at h
        · obtain ⟨ha, -⟩ := arcTail_inv h
          exact ⟨[], e, rest, rfl,
            fun e2 he2 => absurd he2 (List.not_mem_nil e2),
            by simp [producibleB, h1, h2, hra], _, Or.inr ha⟩
        · obtain ⟨ha, -⟩ := arcTail_inv h
          exact ⟨[], e, rest, rfl,
            fun e2 he2 => absurd he2 (List.not_mem_nil e2),
            by simp [producibleB, h1, h2, hra], _, Or.inr ha⟩
      · rw [if_neg hra] at h
        obtain ⟨pre, e3, post, hsplit, hpre, hprod, hshape⟩ := ih os os2 a h
        refine ⟨e :: pre, e3, post, by rw [hsplit]; rfl, ?_, hprod, hshape⟩
        intro e2 he2
        rcases List.mem_cons.1 he2 with he2 | he2
        · subst he2
          simp only [producibleB, h1, h2]
          rw [Bool.or_eq_false_iff]
          exact ⟨by simpa using hla, by simpa using hra⟩
        · exact hpre e2 he2

theorem get_arc_action_first {cfg : MachineConfig} {ms : AMRStateMachine}
    {os1 os2 : AMROracle} {a : Action}
    (h : os1.get_arc_action cfg ms = .ok (some (os2, a))) :
    ∃ top current pre e post,
      pyLast ms.node_stack = .ok top ∧
      os1.node_reverse_map.lookup top = some current ∧
      pendOf os1 current = pre ++ e :: post ∧
      (∀ e2 ∈ pre, producibleB os1 ms top e2 = false) ∧
      producibleB os1 ms top e = true ∧
      (∃ pos, a = .la pos e.2.1 ∨ a = .ra pos e.2.1) := by
  unfold AMROracle.get_arc_action at h
  obtain ⟨top, hpl, h⟩ := bind_ok h
  try dsimp only at h
  obtain ⟨current, hcur, h⟩ := bind_ok h
  try dsimp only at h
  obtain ⟨pre, e, post, hsplit, hpre, hprod, hshape⟩ :=
    arcScan_first cfg ms top current _ os1 os2 a h
  exact ⟨top, current, pre, e, post, hpl, dlookupE_ok hcur, hsplit, hpre,
    hprod, hshape⟩

/-- Claim C3 (amended): after reset, each pending-edge list is a
permutation of the edges touching the node and is ordered by the other
endpoint's alignment-order number, largest first; and `get_arc_action`
scans a pending list front to back, so the arc it emits always comes
from the first edge of the list that passes the producibility guard
(both endpoints generated, one on top of the stack, the other below). -/
theorem claim_C3_order (gold : AMR) (os : AMROracle)
    (h : AMROracle.reset gold = .ok os) (nid : String) :
    ((pendOf os nid).Perm (touchingEdges os.gold.edges nid) ∧
    (pendOf os nid).Pairwise (fun e1 e2 =>
      alignNumber os (otherEndpoint nid e2) ≤
      alignNumber os (otherEndpoint nid e1))) ∧
    (∀ (cfg : MachineConfig) (ms : AMRStateMachine) (os1 os2 : AMROracle)
       (a : Action),
      os1.get_arc_action cfg ms = .ok (some (os2, a)) →
      ∃ top current pre e post,
        pyLast ms.node_stack = .ok top ∧
        os1.node_reverse_map.lookup top = some current ∧
        pendOf os1 current = pre ++ e :: post ∧
        (∀ e2 ∈ pre, producibleB os1 ms top e2 = false) ∧
        producibleB os1 ms top e = true ∧
        (∃ pos, a = .la pos e.2.1 ∨ a = .ra pos e.2.1)) := by
  refine ⟨?_, fun cfg ms os1 os2 a harc => get_arc_action_first harc⟩
  have hf := reset_pend_forall₂ gold os h
  have hlk := @forall₂_lookup _ _
    (fun k v v' => sortPendList os.node_id_2_node_number k v = .ok v')
    _ _ hf nid
  unfold pendOf
  rcases hinit : (initPend os.gold.edges).lookup nid with _ | v
  · rw [hlk.1 hinit]
    have hnil : (none : Option (List (String × String × String))).getD [] = [] := rfl
    rw [hnil]
    have htch : touchingEdges os.gold.edges nid = [] := by
      rw [← initPend_getD os.gold.edges nid, hinit]
      rfl
    rw [htch]
    exact ⟨List.Perm.refl _, List.Pairwise.nil⟩
  · obtain ⟨v', hv', hsort⟩ := hlk.2 v hinit
    rw [hv']
    have htch : touchingEdges os.gold.edges nid = v := by
      rw [← initPend_getD os.gold.edges nid, hinit]
      rfl
    rw [htch]
    obtain ⟨hperm, hpair⟩ := sortPendList_spec os.node_id_2_node_number nid v v' hsort
    exact ⟨by simpa using hperm, by simpa [alignNumber] using hpair⟩

/-- Witness for the amended C3 at `amrOrderC3`, node `X`. -/
theorem claim_C3_order_witness :
    ((pendOf osC3w "X").Perm (touchingEdges osC3w.gold.edges "X") ∧
    (pendOf osC3w "X").Pairwise (fun e1 e2 =>
      alignNumber osC3w (otherEndpoint "X" e2) ≤
      alignNumber osC3w (otherEndpoint "X" e1))) ∧
    (∀ (cfg : MachineConfig) (ms : AMRStateMachine) (os1 os2 : AMROracle)
       (a : Action),
      os1.get_arc_action cfg ms = .ok (some (os2, a)) →
      ∃ top current pre e post,
        pyLast ms.node_stack = .ok top ∧
        os1.node_reverse_map.lookup top = some current ∧
        pendOf os1 current = pre ++ e :: post ∧
        (∀ e2 ∈ pre, producibleB os1 ms top e2 = false) ∧
        producibleB os1 ms top e = true ∧
        (∃ pos, a = .la pos e.2.1 ∨ a = .ra pos e.2.1)) :=
  claim_C3_order amrOrderC3 osC3w rfl "X"

theorem lookup_mem {β : Type} {m : List (String × β)} {k : String} {v : β}
    (h : m.lookup k = some v) : (k, v) ∈ m := by
  induction m with
  | nil => exact Option.noConfusion h
  | cons p rest ih =>
    rcases p with ⟨k2, v2⟩
    by_cases hk : k == k2
    · have hk' : k = k2 := by simpa using hk
      subst hk'
      simp only [List.lookup, beq_self_eq_true] at h
      injection h with h
      subst h
      exact List.mem_cons_self _ _
    · simp only [List.lookup, Bool.not_eq_true] at h
      rw [(by simpa using hk : (k == k2) = false)] at h
      exact List.mem_cons_of_mem _ (ih h)

theorem pendAllEmpty_pendOf {os : AMROracle} (h : pendAllEmpty os = true)
    (n : String) : pendOf os n = [] := by
  unfold pendOf
  rcases hl : os.pend_edges_by_node.lookup n with _ | v
  · rfl
  · have hm := lookup_mem hl
    have := (List.all_eq_true.1 h) _ hm
    simpa using this

theorem fix_alignments_preserves {gold g : AMR} {u : List String}
    (h : fix_alignments gold = .ok (g, u)) :
    g.tokens = gold.tokens ∧ g.nodes = gold.nodes ∧
    g.edges = gold.edges ∧ g.root = gold.root := by
  unfold fix_alignments at h
  dsimp only [Bind.bind, Except.bind, pure, Except.pure] at h
  split at h
  · injection h with h
    obtain ⟨h1, _⟩ := Prod.mk.injEq .. ▸ h
    subst h1
    exact ⟨rfl, rfl, rfl, rfl⟩
  · split at h
    · injection h with h
      obtain ⟨h1, _⟩ := Prod.mk.injEq .. ▸ h
      subst h1
      exact ⟨rfl, rfl, rfl, rfl⟩
    · obtain ⟨al, _, h⟩ := bind_ok h
      injection h with h
      obtain ⟨h1, _⟩ := Prod.mk.injEq .. ▸ h
      subst h1
      exact ⟨rfl, rfl, rfl, rfl⟩

theorem reset_fields {gold : AMR} {os₀ : AMROracle}
    (h : AMROracle.reset gold = .ok os₀) :
    os₀.node_map = [] ∧ os₀.node_reverse_map = [] ∧
    ∃ u, fix_alignments gold = .ok (os₀.gold, u) := by
  unfold AMROracle.reset at h
  obtain ⟨⟨g, unal⟩, hfix, h⟩ := bind_ok h
  obtain ⟨abt, habt, h⟩ := bind_ok h
  obtain ⟨pend, hpend, h⟩ := bind_ok h
  simp only [pure, Except.pure] at h
  injection h with h
  subst h
  exact ⟨rfl, rfl, unal, hfix⟩

theorem reset_pend_perm {gold : AMR} {os₀ : AMROracle}
    (h : AMROracle.reset gold = .ok os₀) (nid : String) :
    (pendOf os₀ nid).Perm (touchingEdges os₀.gold.edges nid) := by
  have hf := reset_pend_forall₂ gold os₀ h
  have hlk := @forall₂_lookup _ _
    (fun k v v' => sortPendList os₀.node_id_2_node_number k v = .ok v')
    _ _ hf nid
  unfold pendOf
  rcases hinit : (initPend os₀.gold.edges).lookup nid with _ | v
  · rw [hlk.1 hinit]
    have htch : touchingEdges os₀.gold.edges nid = [] := by
      rw [← initPend_getD os₀.gold.edges nid, hinit]
      rfl
    rw [htch]
    exact List.Perm.refl _
  · obtain ⟨v', hv', hsort⟩ := hlk.2 v hinit
    rw [hv']
    have htch : touchingEdges os₀.gold.edges nid = v := by
      rw [← initPend_getD os₀.gold.edges nid, hinit]
      rfl
    rw [htch]
    obtain ⟨hperm, _⟩ :=
      sortPendList_spec os₀.node_id_2_node_number nid v v' hsort
    simpa using hperm

theorem update_node_label (cfg : MachineConfig) {st st' : AMRStateMachine}
    {lbl : String} (h : st.update cfg (.node lbl) = .ok st') :
    st'.nodes = dinsert st.action_history.length lbl st.nodes := by
  unfold AMRStateMachine.update at h
  by_cases hc : st.is_closed
  · simp [hc, throw, throwThe, MonadExceptOf.throw, Bind.bind, Except.bind] at h
  · simp only [hc, Bool.false_eq_true, if_false] at h
    simp only [Bind.bind, Except.bind, pure, Except.pure] at h
    cases h
    rfl

theorem update_copy_label (cfg : MachineConfig) {st st' : AMRStateMachine}
    (h : st.update cfg .copy = .ok st') :
    ∃ tok, st.tokens[st.tok_cursor]? = some tok ∧
      st'.nodes = dinsert st.action_history.length (normalize tok) st.nodes := by
  unfold AMRStateMachine.update at h
  by_cases hc : st.is_closed
  · simp [hc, throw, throwThe, MonadExceptOf.throw, Bind.bind, Except.bind] at h
  · simp only [hc, Bool.false_eq_true, if_false] at h
    simp only [Bind.bind, Except.bind, pure, Except.pure, throw, throwThe,
      MonadExceptOf.throw] at h
    rcases ht : st.tokens[st.tok_cursor]? with _ | tok <;> rw [ht] at h <;>
      dsimp only at h
    · exact Except.noConfusion h
    · cases h
      exact ⟨tok, rfl, rfl⟩

theorem update_la_inv (cfg : MachineConfig) {st st' : AMRStateMachine}
    {pos : Nat} {label : String}
    (h : st.update cfg (.la pos label) = .ok st') :
    ∃ src tgt, pyLast st.node_stack = .ok src ∧
      ((cfg.absolute_stack_pos = true ∧ tgt = pos) ∨
       (cfg.absolute_stack_pos = false ∧
        pyIdx st.node_stack
          ((st.node_stack.length : Int) - (pos : Int) - 2) = some tgt)) ∧
      st'.edges = st.edges ++ [(src, label, tgt)] := by
  unfold AMRStateMachine.update at h
  by_cases hc : st.is_closed
  · simp [hc, throw, throwThe, MonadExceptOf.throw, Bind.bind, Except.bind] at h
  · simp only [hc, Bool.false_eq_true, if_false] at h
    simp only [Bind.bind, Except.bind, pure, Except.pure, throw, throwThe,
      MonadExceptOf.throw] at h
    by_cases habs : cfg.absolute_stack_pos = true
    · rw [if_pos habs] at h
      try dsimp only at h
      rcases hl : pyLast st.node_stack with _ | src <;> rw [hl] at h <;>
        (try dsimp only at h)
      · exact Except.noConfusion h
      · cases h
        exact ⟨src, pos, rfl, Or.inl ⟨habs, rfl⟩, rfl⟩
    · rw [if_neg habs] at h
      rcases hidx : pyIdx st.node_stack
          ((st.node_stack.length : Int) - (pos : Int) - 2) with _ | tgt <;>
        rw [hidx] at h <;> (try dsimp only at h)
      · exact Except.noConfusion h
      · rcases hl : pyLast st.node_stack with _ | src <;> rw [hl] at h <;>
          (try dsimp only at h)
        · exact Except.noConfusion h
        · cases h
          exact ⟨src, tgt, rfl,
            Or.inr ⟨Bool.not_eq_true _ ▸ habs, rfl⟩, rfl⟩

theorem update_ra_inv (cfg : MachineConfig) {st st' : AMRStateMachine}
    {pos : Nat} {label : String}
    (h : st.update cfg (.ra pos label) = .ok st') :
    ∃ src tgt, pyLast st.node_stack = .ok tgt ∧
      ((cfg.absolute_stack_pos = true ∧ src = pos) ∨
       (cfg.absolute_stack_pos = false ∧
        pyIdx st.node_stack
          ((st.node_stack.length : Int) - (pos : Int) - 2) = some src)) ∧
      st'.edges = st.edges ++ [(src, label, tgt)] := by
  unfold AMRStateMachine.update at h
  by_cases hc : st.is_closed
  · simp [hc, throw, throwThe, MonadExceptOf.throw, Bind.bind, Except.bind] at h
  · simp only [hc, Bool.false_eq_true, if_false] at h
    simp only [Bind.bind, Except.bind, pure, Except.pure, throw, throwThe,
      MonadExceptOf.throw] at h
    by_cases habs : cfg.absolute_stack_pos = true
    · rw [if_pos habs] at h
      try dsimp only at h
      rcases hl : pyLast st.node_stack with _ | tgt <;> rw [hl] at h <;>
        (try dsimp only at h)
      · exact Except.noConfusion h
      · cases h
        exact ⟨pos, tgt, rfl, Or.inl ⟨habs, rfl⟩, rfl⟩
    · rw [if_neg habs] at h
      rcases hidx : pyIdx st.node_stack
          ((st.node_stack.length : Int) - (pos : Int) - 2) with _ | src <;>
        rw [hidx] at h <;> (try dsimp only at h)
      · exact Except.noConfusion h
      · rcases hl : pyLast st.node_stack with _ | tgt <;> rw [hl] at h <;>
          (try dsimp only at h)
        · exact Except.noConfusion h
        · cases h
          exact ⟨src, tgt, rfl,
            Or.inr ⟨Bool.not_eq_true _ ▸ habs, rfl⟩, rfl⟩

theorem pairwise_lt_last_not_dropLast {l : List Nat}
    (hp : l.Pairwise (· < ·)) {t : Nat} (hl : l.getLast? = some t) :
    t ∉ l.dropLast := by
  intro hmem
  have hsplit := List.dropLast_append_getLast? t hl
  rw [← hsplit] at hp
  have := (List.pairwise_append.1 hp).2.2 t hmem t (List.mem_singleton_self t)
  exact Nat.lt_irrefl t this

theorem mem_dropLast_pyIdx {l : List Nat} {d : Nat} (hd : d ∈ l.dropLast) :
    l.indexOf d < l.length - 1 ∧ 2 ≤ l.length ∧
    pyIdx l ((l.length : Int) -
      ((l.length - l.indexOf d - 2 : Nat) : Int) - 2) = some d := by
  have hne : l ≠ [] := by
    intro he
    rw [he] at hd
    exact absurd hd (List.not_mem_nil d)
  rcases hlast : l.getLast? with _ | t
  · exact absurd (List.getLast?_eq_none_iff.1 hlast) hne
  have hsplit := List.dropLast_append_getLast? t hlast
  have hidx : l.indexOf d = l.dropLast.indexOf d := by
    conv_lhs => rw [← hsplit]
    exact List.indexOf_append_of_mem hd
  have hlt : l.dropLast.indexOf d < l.dropLast.length :=
    List.indexOf_lt_length.2 hd
  have hlen : l.dropLast.length = l.length - 1 := List.length_dropLast l
  have h1 : l.indexOf d < l.length - 1 := by rw [hidx, ← hlen]; exact hlt
  have h2 : 2 ≤ l.length := by
    have h0 : 0 < l.dropLast.length := by omega
    omega
  refine ⟨h1, h2, ?_⟩
  have harith : ((l.length : Int) -
      ((l.length - l.indexOf d - 2 : Nat) : Int) - 2) = (l.indexOf d : Int) := by
    omega
  rw [harith]
  unfold pyIdx
  rw [if_pos (by positivity)]
  have hlt2 : l.indexOf d < l.length := by omega
  rw [Int.toNat_natCast]
  rw [List.getElem?_eq_getElem hlt2]
  rw [List.getElem_indexOf hlt2]

theorem nodeScan_some (os : AMROracle) (cfg : MachineConfig)
    (ms : AMRStateMachine) :
    ∀ (l : List String) (oact : OAction),
    nodeScan os cfg ms l = .ok (some oact) →
    ∃ a gid lbl, oact = .tagged a gid ∧ gid ∈ l ∧
      os.node_map.lookup gid = none ∧
      os.gold.nodes.lookup gid = some lbl ∧
      ((∃ tok, a = .copy ∧ ms.tokens[ms.tok_cursor]? = some tok ∧
          normalize tok = normalize lbl) ∨ a = .node (normalize lbl)) := by
  intro l
  induction l with
  | nil => intro oact h; simp [nodeScan] at h
  | cons nid rest ih =>
    intro oact h
    unfold nodeScan at h
    by_cases hm : (os.node_map.lookup nid).isSome = true
    · rw [if_pos hm] at h
      obtain ⟨a, gid, lbl, h1, h2, h3, h4, h5⟩ := ih oact h
      exact ⟨a, gid, lbl, h1, List.mem_cons_of_mem _ h2, h3, h4, h5⟩
    · rw [if_neg hm] at h
      have hnone : os.node_map.lookup nid = none :=
        Option.not_isSome_iff_eq_none.1 hm
      dsimp only [Bind.bind, Except.bind, pure, Except.pure, throw,
        throwThe, MonadExceptOf.throw] at h
      obtain ⟨lbl, hlbl, h⟩ := bind_ok h
      try dsimp only at h
      by_cases hcopy : cfg.use_copy = true
      · rw [if_pos hcopy] at h
        rcases ht : ms.tokens[ms.tok_cursor]? with _ | tok <;> rw [ht] at h <;>
          dsimp only at h
        · exact Except.noConfusion h
        · by_cases hbeq : (normalize tok == normalize lbl) = true
          · rw [if_pos hbeq] at h
            injection h with h
            injection h with h
            exact ⟨.copy, nid, lbl, h.symm, List.mem_cons_self _ _, hnone,
              dlookupE_ok hlbl,
              Or.inl ⟨tok, rfl, rfl, by simpa using hbeq⟩⟩
          · rw [if_neg hbeq] at h
            injection h with h
            injection h with h
            exact ⟨.node (normalize lbl), nid, lbl, h.symm,
              List.mem_cons_self _ _, hnone, dlookupE_ok hlbl, Or.inr rfl⟩
      · rw [if_neg hcopy] at h
        injection h with h
        injection h with h
        exact ⟨.node (normalize lbl), nid, lbl, h.symm,
          List.mem_cons_self _ _, hnone, dlookupE_ok hlbl, Or.inr rfl⟩

theorem nodeScan_none (os : AMROracle) (cfg : MachineConfig)
    (ms : AMRStateMachine) :
    ∀ (l : List String), nodeScan os cfg ms l = .ok none →
    ∀ gid ∈ l, (os.node_map.lookup gid).isSome = true := by
  intro l
  induction l with
  | nil => intro _ gid hg; exact absurd hg (List.not_mem_nil gid)
  | cons nid rest ih =>
    intro h gid hg
    unfold nodeScan at h
    by_cases hm : (os.node_map.lookup nid).isSome = true
    · rw [if_pos hm] at h
      rcases List.mem_cons.1 hg with hh | hh
      · subst hh; exact hm
      · exact ih h gid hh
    · rw [if_neg hm] at h
      dsimp only [Bind.bind, Except.bind, pure, Except.pure, throw,
        throwThe, MonadExceptOf.throw] at h
      rcases hlbl : dlookupE os.gold.nodes nid with _ | lbl <;>
        rw [hlbl] at h <;> dsimp only at h
      · exact Except.noConfusion h
      · by_cases hcopy : cfg.use_copy = true
        · rw [if_pos hcopy] at h
          rcases ht : ms.tokens[ms.tok_cursor]? with _ | tok <;> rw [ht] at h <;>
            dsimp only at h
          · exact Except.noConfusion h
          · by_cases hbeq : (normalize tok == normalize lbl) = true
            · rw [if_pos hbeq] at h
              injection h with h
              exact Option.noConfusion h
            · rw [if_neg hbeq] at h
              injection h with h
              exact Option.noConfusion h
        · rw [if_neg hcopy] at h
          injection h with h
          exact Option.noConfusion h

theorem arcTail_inv2 {os0 os2 : AMROracle} {k1 k2 : String}
    {e : String × String × String} {act a : Action}
    (h : (do
        let os1 ← pendRemove os0 k1 e
        let osB ← pendRemove os1 k2 e
        match e.2.1.data.head? with
        | none => throw PyErr.indexError
        | some c =>
          if c = ':' then pure (some (osB, act)) else throw PyErr.assertError
        : Except PyErr (Option (AMROracle × Action))) = .ok (some (os2, a))) :
    a = act ∧ ∃ os1, pendRemove os0 k1 e = .ok os1 ∧
      pendRemove os1 k2 e = .ok os2 := by
  obtain ⟨os1, hr1, h⟩ := bind_ok h
  obtain ⟨osB, hr2, h⟩ := bind_ok h
  cases hh : e.2.1.data.head? <;> rw [hh] at h <;> dsimp only at h
  · exact Except.noConfusion h
  case some c =>
    by_cases hc : c = ':'
    · rw [if_pos hc] at h
      injection h with h
      injection h with h
      obtain ⟨hos, ha⟩ := Prod.mk.injEq .. ▸ h
      subst hos
      exact ⟨ha.symm, os1, hr1, hr2⟩
    · rw [if_neg hc] at h; exact Except.noConfusion h

theorem arcScan_inv (cfg : MachineConfig) (ms : AMRStateMachine)
    (top : Nat) (current : String) :
    ∀ (l : List (String × String × String)) (os os2 : AMROracle) (a : Action),
    arcScan cfg ms os top current l = .ok (some (os2, a)) →
    ∃ e, e ∈ l ∧ ∃ dsrc dtgt os1,
      os.node_map.lookup e.1 = some dsrc ∧
      os.node_map.lookup e.2.2 = some dtgt ∧
      pendRemove os1 current e = .ok os2 ∧
      ((dsrc = top ∧ dtgt ∈ ms.node_stack.dropLast ∧
          a = .la (arcIndex cfg ms dtgt) e.2.1 ∧
          pendRemove os e.2.2 e = .ok os1) ∨
       (dtgt = top ∧ dsrc ∈ ms.node_stack.dropLast ∧
          a = .ra (arcIndex cfg ms dsrc) e.2.1 ∧
          pendRemove os e.1 e = .ok os1)) := by
  intro l
  induction l with
  | nil => intro os os2 a h; simp [arcScan] at h
  | cons e rest ih =>
    intro os os2 a h
    unfold arcScan at h
    cases h1 : os.node_map.lookup e.1 <;> rw [h1] at h
    case none =>
      obtain ⟨e', he', rest'⟩ := ih os os2 a h
      exact ⟨e', List.mem_cons_of_mem _ he', rest'⟩
    case some dsrc =>
    cases h2 : os.node_map.lookup e.2.2 <;> rw [h2] at h
    case none =>
      obtain ⟨e', he', rest'⟩ := ih os os2 a h
      exact ⟨e', List.mem_cons_of_mem _ he', rest'⟩
    case some dtgt =>
    dsimp only at h
    by_cases hla : (dsrc == top && decide (dtgt ∈ ms.node_stack.dropLast)) = true
    · rw [if_pos hla] at h
      obtain ⟨hstop, hsmem⟩ := Bool.and_eq_true .. ▸ hla
      dsimp only [Bind.bind, Except.bind, pure, Except.pure] at h
      split at h
      · rename_i habs
        obtain ⟨ha, os1, hra, hrb⟩ := arcTail_inv2 h
        refine ⟨e, List.mem_cons_self _ _, dsrc, dtgt, os1, h1, h2, hrb,
          Or.inl ⟨by simpa using hstop, by simpa using hsmem, ?_, hra⟩⟩
        rw [ha]
        unfold arcIndex
        rw [if_pos habs]
      · rename_i habs
        obtain ⟨ha, os1, hra, hrb⟩ := arcTail_inv2 h
        refine ⟨e, List.mem_cons_self _ _, dsrc, dtgt, os1, h1, h2, hrb,
          Or.inl ⟨by simpa using hstop, by simpa using hsmem, ?_, hra⟩⟩
        rw [ha]
        unfold arcIndex
        rw [if_neg habs]
    · rw [if_neg hla] at h
      by_cases hra : (dtgt == top && decide (dsrc ∈ ms.node_stack.dropLast)) = true
      · rw [if_pos hra] at h
        obtain ⟨httop, htmem⟩ := Bool.and_eq_true .. ▸ hra
        dsimp only [Bind.bind, Except.bind, pure, Except.pure] at h
        split at h
        · rename_i habs
          obtain ⟨ha, os1, hrA, hrB⟩ := arcTail_inv2 h
          refine ⟨e, List.mem_cons_self _ _, dsrc, dtgt, os1, h1, h2, hrB,
            Or.inr ⟨by simpa using httop, by simpa using htmem, ?_, hrA⟩⟩
          rw [ha]
          unfold arcIndex
          rw [if_pos habs]
        · rename_i habs
          obtain ⟨ha, os1, hrA, hrB⟩ := arcTail_inv2 h
          refine ⟨e, List.mem_cons_self _ _, dsrc, dtgt, os1, h1, h2, hrB,
            Or.inr ⟨by simpa using httop, by simpa using htmem, ?_, hrA⟩⟩
          rw [ha]
          unfold arcIndex
          rw [if_neg habs]
      · rw [if_neg hra] at h
        obtain ⟨e', he', rest'⟩ := ih os os2 a h
        exact ⟨e', List.mem_cons_of_mem _ he', rest'⟩

theorem gaTail_cases {cfg : MachineConfig} {ms : AMRStateMachine}
    {os os' : AMROracle} {oact : OAction}
    (hred : cfg.reduce_nodes = none)
    (h : gaTail cfg os ms = .ok (os', oact)) :
    (∃ a, ms.node_stack.length > 1 ∧
       os.get_arc_action cfg ms = .ok (some (os', a)) ∧ oact = .plain a) ∨
    (os' = os ∧
       nodeScan os cfg ms (bucketOf os ms.tok_cursor) = .ok (some oact)) ∨
    (os' = os ∧ oact = .plain .shift ∧
       nodeScan os cfg ms (bucketOf os ms.tok_cursor) = .ok none ∧
       ms.tok_cursor < ms.tokens.length) ∨
    (os' = os ∧ oact = .plain .close ∧
       nodeScan os cfg ms (bucketOf os ms.tok_cursor) = .ok none ∧
       ¬ms.tok_cursor < ms.tokens.length) := by
  unfold gaTail at h
  have hne : ¬(cfg.reduce_nodes = some "all") := by
    rw [hred]
    simp
  dsimp only [Bind.bind, Except.bind, pure, Except.pure] at h
  rw [if_neg hne] at h
  by_cases hlen : ms.node_stack.length > 1
  · rw [if_pos hlen] at h
    rcases harc : os.get_arc_action cfg ms with e | v <;> rw [harc] at h <;>
      dsimp only at h
    · exact Except.noConfusion h
    · rcases v with _ | ⟨os2, a⟩ <;> dsimp only at h
      · rcases hns : nodeScan os cfg ms (bucketOf os ms.tok_cursor) with e | nv <;>
          rw [hns] at h <;> dsimp only at h
        · exact Except.noConfusion h
        · rcases nv with _ | oact2 <;> dsimp only at h
          · by_cases hcur : ms.tok_cursor < ms.tokens.length
            · rw [if_pos hcur] at h
              injection h with h
              obtain ⟨h1, h2⟩ := Prod.mk.injEq .. ▸ h
              exact Or.inr (Or.inr (Or.inl ⟨h1.symm, h2.symm, rfl, hcur⟩))
            · rw [if_neg hcur] at h
              injection h with h
              obtain ⟨h1, h2⟩ := Prod.mk.injEq .. ▸ h
              exact Or.inr (Or.inr (Or.inr ⟨h1.symm, h2.symm, rfl, hcur⟩))
          · injection h with h
            obtain ⟨h1, h2⟩ := Prod.mk.injEq .. ▸ h
            exact Or.inr (Or.inl ⟨h1.symm, by rw [h2]⟩)
      · injection h with h
        obtain ⟨h1, h2⟩ := Prod.mk.injEq .. ▸ h
        exact Or.inl ⟨a, hlen, by rw [h1], h2.symm⟩
  · rw [if_neg hlen] at h
    try dsimp only at h
    rcases hns : nodeScan os cfg ms (bucketOf os ms.tok_cursor) with e | nv <;>
      rw [hns] at h <;> dsimp only at h
    · exact Except.noConfusion h
    · rcases nv with _ | oact2 <;> dsimp only at h
      · by_cases hcur : ms.tok_cursor < ms.tokens.length
        · rw [if_pos hcur] at h
          injection h with h
          obtain ⟨h1, h2⟩ := Prod.mk.injEq .. ▸ h
          exact Or.inr (Or.inr (Or.inl ⟨h1.symm, h2.symm, rfl, hcur⟩))
        · rw [if_neg hcur] at h
          injection h with h
          obtain ⟨h1, h2⟩ := Prod.mk.injEq .. ▸ h
          exact Or.inr (Or.inr (Or.inr ⟨h1.symm, h2.symm, rfl, hcur⟩))
      · injection h with h
        obtain ⟨h1, h2⟩ := Prod.mk.injEq .. ▸ h
        exact Or.inr (Or.inl ⟨h1.symm, by rw [h2]⟩)

theorem get_actions_cases {cfg : MachineConfig} {ms : AMRStateMachine}
    {os os' : AMROracle} {oact : OAction}
    (hred : cfg.reduce_nodes = none)
    (h : os.get_actions cfg ms = .ok (os', oact)) :
    (os' = os ∧ oact = .plain .root ∧ ms.root = none ∧
       ∃ top, ms.node_stack.getLast? = some top ∧
         os.node_reverse_map.lookup top = some os.gold.root) ∨
    (¬(ms.root = none ∧ ∃ top, ms.node_stack.getLast? = some top ∧
         os.node_reverse_map.lookup top = some os.gold.root) ∧
     ((∃ a, ms.node_stack.length > 1 ∧
         os.get_arc_action cfg ms = .ok (some (os', a)) ∧ oact = .plain a) ∨
      (os' = os ∧
         nodeScan os cfg ms (bucketOf os ms.tok_cursor) = .ok (some oact)) ∨
      (os' = os ∧ oact = .plain .shift ∧
         nodeScan os cfg ms (bucketOf os ms.tok_cursor) = .ok none ∧
         ms.tok_cursor < ms.tokens.length) ∨
      (os' = os ∧ oact = .plain .close ∧
         nodeScan os cfg ms (bucketOf os ms.tok_cursor) = .ok none ∧
         ¬ms.tok_cursor < ms.tokens.length))) := by
  unfold AMROracle.get_actions at h
  dsimp only [Bind.bind, Except.bind, pure, Except.pure] at h
  by_cases hroot : ms.root = none
  · rw [if_pos hroot] at h
    rcases hlast : ms.node_stack.getLast? with _ | top <;> rw [hlast] at h <;>
      dsimp only at h
    · refine Or.inr ⟨?_, gaTail_cases hred h⟩
      rintro ⟨_, top2, hl2, _⟩
      exact Option.noConfusion hl2
    · rcases hdl : dlookupE os.node_reverse_map top with e | gid <;>
        rw [hdl] at h <;> dsimp only at h
      · exact Except.noConfusion h
      · by_cases hbeq : (gid == os.gold.root) = true
        · rw [if_pos hbeq] at h
          injection h with h
          obtain ⟨h1, h2⟩ := Prod.mk.injEq .. ▸ h
          have hg : gid = os.gold.root := by simpa using hbeq
          exact Or.inl ⟨h1.symm, h2.symm, hroot, top, rfl, hg ▸ dlookupE_ok hdl⟩
        · rw [if_neg hbeq] at h
          refine Or.inr ⟨?_, gaTail_cases hred h⟩
          rintro ⟨_, top2, hl2, hlk2⟩
          injection hl2 with hl2
          subst hl2
          have hlk := dlookupE_ok hdl
          rw [hlk] at hlk2
          injection hlk2 with hlk2
          rw [hlk2] at hbeq
          simp at hbeq
  · rw [if_neg hroot] at h
    refine Or.inr ⟨?_, gaTail_cases hred h⟩
    rintro ⟨hn, _⟩
    exact hroot hn

theorem driverStep_inv {cfg : MachineConfig} {ms ms' : AMRStateMachine}
    {os os' : AMROracle} {a : Action}
    (h : driverStep cfg ms os = .ok (ms', os', a)) :
    ∃ os1 oact, os.get_actions cfg ms = .ok (os1, oact) ∧
      ((oact = .plain a ∧ os' = os1) ∨
       (∃ gid, oact = .tagged a gid ∧
          os' = { os1 with
            node_map := dinsert gid ms.action_history.length os1.node_map
            node_reverse_map :=
              dinsert ms.action_history.length gid os1.node_reverse_map })) ∧
      ms.update cfg a = .ok ms' := by
  unfold driverStep at h
  obtain ⟨v0, hv0, h⟩ := bind_ok h
  dsimp only at h
  obtain ⟨⟨os1, oact⟩, hga, h⟩ := bind_ok h
  dsimp only at h
  rcases oact with a0 | ⟨a0, gid⟩
  · dsimp only at h
    obtain ⟨msv, hup, h⟩ := bind_ok h
    dsimp only [pure, Except.pure] at h
    injection h with h
    obtain ⟨hm, rest⟩ := Prod.mk.injEq .. ▸ h
    obtain ⟨ho, ha⟩ := Prod.mk.injEq .. ▸ rest
    subst hm
    subst ha
    subst ho
    exact ⟨os1, .plain a0, hga, Or.inl ⟨rfl, rfl⟩, hup⟩
  · dsimp only at h
    obtain ⟨msv, hup, h⟩ := bind_ok h
    dsimp only [pure, Except.pure] at h
    injection h with h
    obtain ⟨hm, rest⟩ := Prod.mk.injEq .. ▸ h
    obtain ⟨ho, ha⟩ := Prod.mk.injEq .. ▸ rest
    subst hm
    subst ha
    subst ho
    exact ⟨os1, .tagged a0 gid, hga, Or.inr ⟨gid, rfl, rfl⟩, hup⟩

theorem dinsert_lookup_gen {α β : Type} [BEq α] [LawfulBEq α]
    (k k' : α) (v : β) (m : List (α × β)) :
    (dinsert k v m).lookup k' = if k' == k then some v else m.lookup k' := by
  induction m with
  | nil =>
    by_cases hk : k' = k
    · simp [dinsert, List.lookup, hk]
    · simp [dinsert, List.lookup, (by simpa using hk : (k' == k) = false)]
  | cons p rest ih =>
    rcases p with ⟨k2, v2⟩
    by_cases hpk : k2 = k
    · subst hpk
      by_cases hk : k' = k2
      · simp [dinsert, List.lookup, hk]
      · simp [dinsert, List.lookup, (by simpa using hk : (k' == k2) = false)]
    · by_cases hk : k' = k2
      · subst hk
        have h1 : (k' == k) = false := by simpa using hpk
        simp [dinsert, List.lookup, h1]
      · simp only [dinsert, (by simpa using hpk : (k2 == k) = false),
          Bool.false_eq_true, if_false, List.lookup,
          (by simpa using hk : (k' == k2) = false)]
        exact ih

theorem mem_dinsert {α β : Type} [BEq α] {k : α} {v : β}
    {m : List (α × β)} {p : α × β} (h : p ∈ dinsert k v m) :
    p = (k, v) ∨ p ∈ m := by
  induction m with
  | nil =>
    rcases List.mem_singleton.1 h with h1
    exact Or.inl h1
  | cons q rest ih =>
    rcases q with ⟨k2, v2⟩
    unfold dinsert at h
    by_cases hk : (k2 == k) = true
    · rw [if_pos hk] at h
      rcases List.mem_cons.1 h with h1 | h1
      · exact Or.inl h1
      · exact Or.inr (List.mem_cons_of_mem _ h1)
    · rw [if_neg hk] at h
      rcases List.mem_cons.1 h with h1 | h1
      · exact Or.inr (h1 ▸ List.mem_cons_self _ _)
      · rcases ih h1 with h2 | h2
        · exact Or.inl h2
        · exact Or.inr (List.mem_cons_of_mem _ h2)

theorem erase_beq_irrel {α : Type} [DecidableEq α] [inst : BEq α]
    [LawfulBEq α] (l : List α) (x : α) :
    @List.erase α instBEqOfDecidableEq l x = @List.erase α inst l x := by
  induction l with
  | nil => rfl
  | cons b rest ih =>
    rw [@List.erase_cons α inst x b rest,
      @List.erase_cons α instBEqOfDecidableEq x b rest]
    by_cases h : b = x
    · have h1 : (@BEq.beq _ instBEqOfDecidableEq b x) = true := by
        simp [instBEqOfDecidableEq, h]
      have h2 : (b == x) = true := by simpa using h
      rw [h1, h2]
      rfl
    · have h1 : (@BEq.beq _ instBEqOfDecidableEq b x) = false := by
        simp [instBEqOfDecidableEq, h]
      have h2 : (b == x) = false := by simpa using h
      rw [h1, h2]
      simp only [Bool.false_eq_true, if_false]
      rw [ih]

theorem ofList_mem_erase {α : Type} [DecidableEq α] [BEq α] [LawfulBEq α]
    {l : List α} {e : α} (h : e ∈ l) :
    Multiset.ofList l = e ::ₘ Multiset.ofList (l.erase e) := by
  have h2 := List.perm_cons_erase h
  rw [erase_beq_irrel] at h2
  exact Multiset.coe_eq_coe.2 h2

theorem mapEdge_congr {os1 os : AMROracle}
    (h : os1.node_map = os.node_map) : mapEdge os1 = mapEdge os := by
  funext e
  unfold mapEdge
  rw [h]

theorem pairwise_append_singleton {l : List Nat} {n : Nat}
    (hp : l.Pairwise (· < ·)) (hn : ∀ d ∈ l, d < n) :
    (l ++ [n]).Pairwise (· < ·) := by
  rw [List.pairwise_append]
  exact ⟨hp, List.pairwise_singleton _ _, fun a ha b hb => by
    rw [List.mem_singleton.1 hb]; exact hn a ha⟩

theorem mem_lookup_nodup {β : Type} {m : List (String × β)}
    (hnd : (m.map Prod.fst).Nodup) {k : String} {v : β} (hmem : (k, v) ∈ m) :
    m.lookup k = some v := by
  induction m with
  | nil => exact absurd hmem (List.not_mem_nil _)
  | cons p rest ih =>
    rcases p with ⟨k2, v2⟩
    rcases List.mem_cons.1 hmem with h | h
    · injection h with h1 h2
      subst h1; subst h2
      simp [List.lookup]
    · have hk : k ≠ k2 := by
        intro he
        subst he
        have : k ∈ rest.map Prod.fst := List.mem_map.2 ⟨(k, v), h, rfl⟩
        exact (List.nodup_cons.1 hnd).1 this
      simp only [List.lookup, (by simpa using hk : (k == k2) = false)]
      exact ih (List.nodup_cons.1 hnd).2 h

theorem pendRemove_spec {os os' : AMROracle} {k : String}
    {e : String × String × String} (h : pendRemove os k e = .ok os') :
    e ∈ pendOf os k ∧ pendOf os' k = (pendOf os k).erase e ∧
    (∀ k', k' ≠ k → pendOf os' k' = pendOf os k') ∧
    os'.node_map = os.node_map ∧ os'.node_reverse_map = os.node_reverse_map ∧
    os'.gold = os.gold ∧ os'.align_by_token_pos = os.align_by_token_pos ∧
    os'.node_id_2_node_number = os.node_id_2_node_number := by
  unfold pendRemove at h
  by_cases hmem : e ∈ pendOf os k
  · rw [if_pos hmem] at h
    injection h with h
    subst h
    refine ⟨hmem, ?_, ?_, rfl, rfl, rfl, rfl, rfl⟩
    · unfold pendOf
      dsimp only
      rw [dinsert_lookup_gen]
      simp
    · intro k' hk'
      unfold pendOf
      dsimp only
      rw [dinsert_lookup_gen, if_neg (by simpa using hk')]
  · rw [if_neg hmem] at h
    exact Except.noConfusion h

theorem touchingEdges_append (L1 L2 : List (String × String × String))
    (n : String) :
    touchingEdges (L1 ++ L2) n = touchingEdges L1 n ++ touchingEdges L2 n := by
  unfold touchingEdges
  rw [List.flatMap_append]

theorem touchingEdges_single (e : String × String × String) (n : String) :
    touchingEdges [e] n =
      (if e.1 == n then [e] else []) ++ (if e.2.2 == n then [e] else []) := by
  unfold touchingEdges
  simp [List.flatMap]

theorem count_touching (L : List (String × String × String))
    (e : String × String × String) :
    (touchingEdges L e.1).count e =
      L.count e * (1 + (if e.2.2 = e.1 then 1 else 0)) := by
  induction L with
  | nil => simp [touchingEdges]
  | cons e2 rest ih =>
    rw [touchingEdges_cons, List.count_append, List.count_append, ih]
    by_cases he : e2 = e
    · subst he
      by_cases h2 : e2.2.2 = e2.1
      · have hb : (e2.2.2 == e2.1) = true := by simpa using h2
        simp only [if_pos h2, hb, if_true, beq_self_eq_true,
          List.count_cons_self, List.count_nil, List.count_append]
        omega
      · have hb : (e2.2.2 == e2.1) = false := by simpa using h2
        simp only [if_neg h2, hb, Bool.false_eq_true, if_false,
          beq_self_eq_true, if_true, List.count_cons_self,
          List.count_nil, List.count_append]
        omega
    · rw [List.count_cons_of_ne (fun hc => he hc.symm)]
      have h1 : (List.count e (if e2.1 == e.1 then [e2] else [])) = 0 := by
        split
        · simp only [List.count_singleton]
          simp [(by simpa using he : (e2 == e) = false)]
        · rfl
      have h2 : (List.count e (if e2.2.2 == e.1 then [e2] else [])) = 0 := by
        split
        · simp only [List.count_singleton]
          simp [(by simpa using he : (e2 == e) = false)]
        · rfl
      rw [h1, h2]
      omega

theorem count_beq_irrel (l : List (String × String × String))
    (a : String × String × String) :
    @List.count _ instBEqOfDecidableEq a l = List.count a l := by
  induction l with
  | nil => rfl
  | cons b rest ih =>
    simp only [List.count_cons, ih]
    congr 1
    by_cases h : b = a
    · subst h
      simp [instBEqOfDecidableEq]
    · have h1 : (@BEq.beq _ instBEqOfDecidableEq b a) = false := by
        simp [instBEqOfDecidableEq, h]
      have h2 : (b == a) = false := by simpa using h
      rw [h1, h2]

theorem perm_of_touching_eq {L1 L2 : List (String × String × String)}
    (h : ∀ n, Multiset.ofList (touchingEdges L1 n) =
      Multiset.ofList (touchingEdges L2 n)) :
    L1.Perm L2 := by
  rw [List.perm_iff_count]
  intro e
  rw [count_beq_irrel L1 e, count_beq_irrel L2 e]
  have hperm : (touchingEdges L1 e.1).Perm (touchingEdges L2 e.1) :=
    Multiset.coe_eq_coe.1 (h e.1)
  have hc2 := hperm.count_eq e
  rw [count_beq_irrel (touchingEdges L1 e.1) e,
    count_beq_irrel (touchingEdges L2 e.1) e] at hc2
  rw [count_touching L1 e, count_touching L2 e] at hc2
  have hk : 0 < (1 + (if e.2.2 = e.1 then 1 else 0)) := by
    split <;> omega
  exact Nat.eq_of_mul_eq_mul_right hk hc2

theorem inv_same_oracle {cfg : MachineConfig} {g : AMR} {os₀ : AMROracle}
    {ms ms' : AMRStateMachine} {os : AMROracle}
    {produced : List (String × String × String)} {a : Action}
    (inv : OracleInv cfg g os₀ ms os produced)
    (hup : ms.update cfg a = .ok ms')
    (hgen : isGenAction a = false) (hredA : isReduceAction a = false)
    (harc : isArcAction a = false) (hnc : a ≠ .close)
    (hcurF : ms'.tok_cursor ≤ g.tokens.length)
    (hbucketsF : ∀ pos, pos < ms'.tok_cursor → ∀ gid ∈ bucketOf os₀ pos,
        (os.node_map.lookup gid).isSome = true)
    (hrootF : (ms'.root = none ∧ (os.node_map.lookup g.root = none ∨
        (∃ top, ms'.node_stack.getLast? = some top ∧
          os.node_reverse_map.lookup top = some g.root))) ∨
      (∃ did, ms'.root = some did ∧ os.node_map.lookup g.root = some did)) :
    OracleInv cfg g os₀ ms' os produced := by
  obtain ⟨htoksu, hhistu, hcuru, hclosedu, hnodesu, hedgesu, hrootu, hstacku⟩ :=
    update_fields cfg a ms ms' hup
  have hnodeseq : ms'.nodes = ms.nodes := by
    rcases hnodesu with ⟨hg, _⟩ | ⟨_, hn⟩
    · rw [hgen] at hg
      exact Bool.noConfusion hg
    · exact hn
  have hstackeq : ms'.node_stack = ms.node_stack := hstacku ⟨hgen, hredA⟩
  have hlen : ms'.action_history.length = ms.action_history.length + 1 := by
    rw [hhistu, List.length_append]
    rfl
  refine ⟨inv.hgold, inv.habt, ?_, hcurF, ?_, inv.hbij, ?_, ?_, ?_, ?_, ?_,
    hbucketsF, ?_, inv.hprodmap, inv.hpendacc, hrootF⟩
  · rw [htoksu]
    exact inv.htoks
  · rw [hclosedu]
    simp [hnc]
  · intro gid did hm
    obtain ⟨lbl, h1, h2⟩ := inv.hlabels gid did hm
    exact ⟨lbl, h1, hnodeseq ▸ h2⟩
  · intro gid did hm
    have := inv.hmapbound gid did hm
    omega
  · intro p hp
    rw [hnodeseq] at hp
    have := inv.hnodesbound p hp
    omega
  · rw [hstackeq]
    exact inv.hstackinc
  · intro d hd
    rw [hstackeq] at hd
    have := inv.hstackbound d hd
    omega
  · rw [hedgesu harc]
    exact inv.hedges

theorem step_gen {cfg : MachineConfig} {g : AMR} {os₀ : AMROracle}
    {ms ms' : AMRStateMachine} {os : AMROracle}
    {produced : List (String × String × String)} {a : Action}
    {gid lbl : String}
    (inv : OracleInv cfg g os₀ ms os produced)
    (hup : ms.update cfg a = .ok ms')
    (hrg : ¬(ms.root = none ∧ ∃ top, ms.node_stack.getLast? = some top ∧
         os.node_reverse_map.lookup top = some os.gold.root))
    (hfresh : os.node_map.lookup gid = none)
    (hglbl : os.gold.nodes.lookup gid = some lbl)
    (hact : (∃ tok, a = .copy ∧ ms.tokens[ms.tok_cursor]? = some tok ∧
        normalize tok = normalize lbl) ∨ a = .node (normalize lbl)) :
    OracleInv cfg g os₀ ms'
      { os with
          node_map := dinsert gid ms.action_history.length os.node_map
          node_reverse_map :=
            dinsert ms.action_history.length gid os.node_reverse_map }
      produced := by
  obtain ⟨htoksu, hhistu, hcuru, hclosedu, hnodesu, hedgesu, hrootu, hstacku⟩ :=
    update_fields cfg a ms ms' hup
  have hgenA : isGenAction a = true := by
    rcases hact with ⟨tok, ha, _, _⟩ | ha <;> rw [ha] <;> rfl
  have hans : a ≠ .shift := by
    rcases hact with ⟨tok, ha, _, _⟩ | ha <;> rw [ha] <;> intro hh <;>
      exact Action.noConfusion hh
  have hanc : a ≠ .close := by
    rcases hact with ⟨tok, ha, _, _⟩ | ha <;> rw [ha] <;> intro hh <;>
      exact Action.noConfusion hh
  have hanr : a ≠ .root := by
    rcases hact with ⟨tok, ha, _, _⟩ | ha <;> rw [ha] <;> intro hh <;>
      exact Action.noConfusion hh
  have hanarc : isArcAction a = false := by
    rcases hact with ⟨tok, ha, _, _⟩ | ha <;> rw [ha] <;> rfl
  obtain ⟨hgen2, lblm, hnodesm, hstackm⟩ :
      isGenAction a = true ∧ ∃ lblm,
        ms'.nodes = dinsert ms.action_history.length lblm ms.nodes ∧
        ms'.node_stack = ms.node_stack ++ [ms.action_history.length] := by
    rcases hnodesu with ⟨h1, lblm, h2, h3⟩ | ⟨h1, _⟩
    · exact ⟨h1, lblm, h2, h3⟩
    · rw [hgenA] at h1
      exact Bool.noConfusion h1
  have hnodesval : ms'.nodes =
      dinsert ms.action_history.length (normalize lbl) ms.nodes := by
    rcases hact with ⟨tok, ha, htok, hnorm⟩ | ha
    · subst ha
      obtain ⟨tok2, htok2, hval⟩ := update_copy_label cfg hup
      rw [htok] at htok2
      injection htok2 with htok2
      rw [hval, ← htok2, hnorm]
    · subst ha
      exact update_node_label cfg hup
  have hrevn : os.node_reverse_map.lookup ms.action_history.length = none := by
    rcases hrv : os.node_reverse_map.lookup ms.action_history.length with _ | gid2
    · rfl
    · have := inv.hmapbound gid2 _ ((inv.hbij gid2 _).2 hrv)
      omega
  have hcurval : ms'.tok_cursor = ms.tok_cursor := by
    rw [hcuru, if_neg hans]
  have hlen : ms'.action_history.length = ms.action_history.length + 1 := by
    rw [hhistu, List.length_append]
    rfl
  refine ⟨inv.hgold, inv.habt, ?_, ?_, ?_, ?_, ?_, ?_, ?_, ?_, ?_, ?_, ?_,
    ?_, ?_, ?_⟩
  · rw [htoksu]
    exact inv.htoks
  · rw [hcurval]
    exact inv.hcur
  · rw [hclosedu]
    simp [hanc]
  · -- bijection
    intro gid' did'
    dsimp only
    rw [dinsert_lookup_gen, dinsert_lookup_gen]
    by_cases hg' : gid' = gid
    · subst hg'
      rw [if_pos (by simp)]
      by_cases hd' : did' = ms.action_history.length
      · subst hd'
        rw [if_pos (by simp)]
        constructor
        · intro _; rfl
        · intro _; rfl
      · rw [if_neg (by simpa using hd')]
        constructor
        · intro hh
          injection hh with hh
          exact absurd hh.symm hd'
        · intro hh
          have := (inv.hbij gid' did').2 hh
          rw [hfresh] at this
          exact Option.noConfusion this
    · rw [if_neg (by simpa using hg')]
      by_cases hd' : did' = ms.action_history.length
      · subst hd'
        rw [if_pos (by simp)]
        constructor
        · intro hh
          have := inv.hmapbound gid' _ hh
          omega
        · intro hh
          injection hh with hh
          exact absurd hh.symm hg'
      · rw [if_neg (by simpa using hd')]
        exact inv.hbij gid' did'
  · -- labels
    intro gid' did' hm'
    dsimp only at hm'
    rw [dinsert_lookup_gen] at hm'
    by_cases hg' : gid' = gid
    · subst hg'
      rw [if_pos (by simp)] at hm'
      injection hm' with hm'
      refine ⟨lbl, ?_, ?_⟩
      · rw [← inv.hgold]
        exact hglbl
      · rw [hnodesval, dinsert_lookup_gen, ← hm', if_pos (by simp)]
    · rw [if_neg (by simpa using hg')] at hm'
      obtain ⟨lbl2, h1, h2⟩ := inv.hlabels gid' did' hm'
      refine ⟨lbl2, h1, ?_⟩
      have hdb : did' < ms.action_history.length := inv.hmapbound gid' did' hm'
      rw [hnodesval, dinsert_lookup_gen,
        if_neg (by simpa using Nat.ne_of_lt hdb)]
      exact h2
  · -- map bound
    intro gid' did' hm'
    dsimp only at hm'
    rw [dinsert_lookup_gen] at hm'
    by_cases hg' : gid' = gid
    · subst hg'
      rw [if_pos (by simp)] at hm'
      injection hm' with hm'
      omega
    · rw [if_neg (by simpa using hg')] at hm'
      have := inv.hmapbound gid' did' hm'
      omega
  · -- nodes bound
    intro p hp
    rw [hnodesval] at hp
    rcases mem_dinsert hp with h1 | h1
    · rw [h1]
      omega
    · have := inv.hnodesbound p h1
      omega
  · -- stack increasing
    rw [hstackm]
    exact pairwise_append_singleton inv.hstackinc inv.hstackbound
  · -- stack bound
    intro d hd
    rw [hstackm] at hd
    rcases List.mem_append.1 hd with h1 | h1
    · have := inv.hstackbound d h1
      omega
    · rw [List.mem_singleton.1 h1]
      omega
  · -- buckets
    intro pos hpos gid2 hg2
    rw [hcurval] at hpos
    have := inv.hbuckets pos hpos gid2 hg2
    dsimp only
    rw [dinsert_lookup_gen]
    by_cases hg' : gid2 = gid
    · rw [if_pos (by simpa using hg')]
      rfl
    · rw [if_neg (by simpa using hg')]
      exact this
  · -- edges
    rw [hedgesu hanarc, inv.hedges]
    refine List.map_congr_left ?_
    intro e he
    obtain ⟨hs1, hs2⟩ := inv.hprodmap e he
    unfold mapEdge
    dsimp only
    rw [dinsert_lookup_gen, dinsert_lookup_gen]
    have hne1 : (e.1 == gid) = false := by
      by_cases hq : e.1 = gid
      · rw [hq, hfresh] at hs1
        exact Bool.noConfusion hs1
      · simpa using hq
    have hne2 : (e.2.2 == gid) = false := by
      by_cases hq : e.2.2 = gid
      · rw [hq, hfresh] at hs2
        exact Bool.noConfusion hs2
      · simpa using hq
    rw [hne1, hne2]
    simp
  · -- prodmap
    intro e he
    obtain ⟨hs1, hs2⟩ := inv.hprodmap e he
    dsimp only
    rw [dinsert_lookup_gen, dinsert_lookup_gen]
    constructor
    · by_cases hq : e.1 = gid
      · rw [if_pos (by simpa using hq)]
        rfl
      · rw [if_neg (by simpa using hq)]
        exact hs1
    · by_cases hq : e.2.2 = gid
      · rw [if_pos (by simpa using hq)]
        rfl
      · rw [if_neg (by simpa using hq)]
        exact hs2
  · -- pend accounting
    exact inv.hpendacc
  · -- root
    have hrootval : ms'.root = ms.root := by
      rw [hrootu, if_neg hanr]
    rcases inv.hroot with ⟨hnone, hsub⟩ | ⟨did, hrs, hrm⟩
    · rcases hsub with hmnone | ⟨top, hlast, hlk⟩
      · by_cases hgr : g.root = gid
        · refine Or.inl ⟨hrootval ▸ hnone, Or.inr
            ⟨ms.action_history.length, ?_, ?_⟩⟩
          · rw [hstackm]
            exact List.getLast?_concat _
          · dsimp only
            rw [dinsert_lookup_gen, if_pos (by simp), hgr]
        · refine Or.inl ⟨hrootval ▸ hnone, Or.inl ?_⟩
          dsimp only
          rw [dinsert_lookup_gen, if_neg (by simpa using hgr)]
          exact hmnone
      · exact absurd ⟨hnone, top, hlast, by rw [inv.hgold]; exact hlk⟩ hrg
    · refine Or.inr ⟨did, hrootval ▸ hrs, ?_⟩
      dsimp only
      rw [dinsert_lookup_gen]
      have hgr : (g.root == gid) = false := by
        by_cases hq : g.root = gid
        · rw [hq, hfresh] at hrm
          exact Option.noConfusion hrm
        · simpa using hq
      rw [hgr]
      exact hrm

theorem step_arc_core {cfg : MachineConfig} {g : AMR} {os₀ : AMROracle}
    {ms ms' : AMRStateMachine} {os os1 : AMROracle}
    {produced : List (String × String × String)}
    {e : String × String × String} {a : Action} {src tgt : Nat}
    (inv : OracleInv cfg g os₀ ms os produced)
    (hup : ms.update cfg a = .ok ms')
    (hrg : ¬(ms.root = none ∧ ∃ top, ms.node_stack.getLast? = some top ∧
         os.node_reverse_map.lookup top = some os.gold.root))
    (hg1 : os1.gold = os.gold) (hb1 : os1.align_by_token_pos = os.align_by_token_pos)
    (hm1 : os1.node_map = os.node_map)
    (hr1 : os1.node_reverse_map = os.node_reverse_map)
    (hne : e.1 ≠ e.2.2)
    (hpe1 : Multiset.ofList (pendOf os e.1) =
      Multiset.ofList (pendOf os1 e.1) + {e})
    (hpe2 : Multiset.ofList (pendOf os e.2.2) =
      Multiset.ofList (pendOf os1 e.2.2) + {e})
    (hpother : ∀ n, n ≠ e.1 → n ≠ e.2.2 → pendOf os1 n = pendOf os n)
    (hsrc : os.node_map.lookup e.1 = some src)
    (htgt : os.node_map.lookup e.2.2 = some tgt)
    (hedgv : ms'.edges = ms.edges ++ [(src, e.2.1, tgt)])
    (hgen : isGenAction a = false) (hredA : isReduceAction a = false)
    (hans : a ≠ .shift) (hanc : a ≠ .close) (hanr : a ≠ .root) :
    OracleInv cfg g os₀ ms' os1 (produced ++ [e]) := by
  obtain ⟨htoksu, hhistu, hcuru, hclosedu, hnodesu, hedgesu, hrootu, hstacku⟩ :=
    update_fields cfg a ms ms' hup
  have hnodeseq : ms'.nodes = ms.nodes := by
    rcases hnodesu with ⟨hg, _⟩ | ⟨_, hn⟩
    · rw [hgen] at hg
      exact Bool.noConfusion hg
    · exact hn
  have hstackeq : ms'.node_stack = ms.node_stack := hstacku ⟨hgen, hredA⟩
  have hlen : ms'.action_history.length = ms.action_history.length + 1 := by
    rw [hhistu, List.length_append]
    rfl
  have hcurval : ms'.tok_cursor = ms.tok_cursor := by
    rw [hcuru, if_neg hans]
  refine ⟨hg1.trans inv.hgold, hb1.trans inv.habt, ?_, ?_, ?_, ?_, ?_, ?_,
    ?_, ?_, ?_, ?_, ?_, ?_, ?_, ?_⟩
  · rw [htoksu]
    exact inv.htoks
  · rw [hcurval]
    exact inv.hcur
  · rw [hclosedu]
    simp [hanc]
  · intro gid did
    rw [hm1, hr1]
    exact inv.hbij gid did
  · intro gid did hm
    rw [hm1] at hm
    obtain ⟨lbl, h1, h2⟩ := inv.hlabels gid did hm
    exact ⟨lbl, h1, hnodeseq ▸ h2⟩
  · intro gid did hm
    rw [hm1] at hm
    have := inv.hmapbound gid did hm
    omega
  · intro p hp
    rw [hnodeseq] at hp
    have := inv.hnodesbound p hp
    omega
  · rw [hstackeq]
    exact inv.hstackinc
  · intro d hd
    rw [hstackeq] at hd
    have := inv.hstackbound d hd
    omega
  · intro pos hpos gid hg
    rw [hcurval] at hpos
    rw [hm1]
    exact inv.hbuckets pos hpos gid hg
  · rw [hedgv, inv.hedges, mapEdge_congr hm1, List.map_append]
    congr 1
    simp only [List.map_cons, List.map_nil]
    unfold mapEdge
    rw [hsrc, htgt]
    rfl
  · intro e2 he2
    rw [hm1]
    rcases List.mem_append.1 he2 with h1 | h1
    · exact inv.hprodmap e2 h1
    · rw [List.mem_singleton.1 h1]
      constructor
      · rw [hsrc]
        rfl
      · rw [htgt]
        rfl
  · intro n
    have hbase := inv.hpendacc n
    have hsplit : Multiset.ofList (touchingEdges (produced ++ [e]) n) =
        Multiset.ofList (touchingEdges produced n) +
        Multiset.ofList (touchingEdges [e] n) := by
      rw [touchingEdges_append]
      exact (Multiset.coe_add _ _).symm
    rw [hsplit]
    have hstep : Multiset.ofList (pendOf os n) =
        Multiset.ofList (pendOf os1 n) +
        Multiset.ofList (touchingEdges [e] n) := by
      by_cases h1 : n = e.1
      · subst h1
        rw [touchingEdges_single]
        rw [if_pos (by simp), if_neg (by simpa using (Ne.symm hne))]
        simpa using hpe1
      · by_cases h2 : n = e.2.2
        · subst h2
          rw [touchingEdges_single]
          rw [if_neg (by simpa using (fun hq => h1 hq.symm : ¬e.1 = e.2.2)),
            if_pos (by simp)]
          simpa using hpe2
        · rw [touchingEdges_single]
          rw [if_neg (by simpa using (fun hq => h1 hq.symm : ¬e.1 = n)),
            if_neg (by simpa using (fun hq => h2 hq.symm : ¬e.2.2 = n))]
          rw [hpother n h1 h2]
          simp
    rw [hbase, hstep, add_assoc,
      add_comm (Multiset.ofList (touchingEdges [e] n))
        (Multiset.ofList (touchingEdges produced n))]
  · have hrootval : ms'.root = ms.root := by
      rw [hrootu, if_neg hanr]
    rcases inv.hroot with ⟨hnone, hsub⟩ | ⟨did, hrs, hrm⟩
    · rcases hsub with hmnone | ⟨top, hlast, hlk⟩
      · refine Or.inl ⟨hrootval ▸ hnone, Or.inl ?_⟩
        rw [hm1]
        exact hmnone
      · exact absurd ⟨hnone, top, hlast, by rw [inv.hgold]; exact hlk⟩ hrg
    · refine Or.inr ⟨did, hrootval ▸ hrs, ?_⟩
      rw [hm1]
      exact hrm

theorem cons_eq_add_singleton {α : Type} (M : Multiset α) (x : α) :
    x ::ₘ M = M + {x} := by
  rw [← Multiset.singleton_add]
  exact add_comm _ _

theorem step_arc {cfg : MachineConfig} {g : AMR} {os₀ : AMROracle}
    {ms ms' : AMRStateMachine} {os os1 : AMROracle}
    {produced : List (String × String × String)} {a : Action}
    (inv : OracleInv cfg g os₀ ms os produced)
    (hup : ms.update cfg a = .ok ms')
    (hrg : ¬(ms.root = none ∧ ∃ top, ms.node_stack.getLast? = some top ∧
         os.node_reverse_map.lookup top = some os.gold.root))
    (harc : os.get_arc_action cfg ms = .ok (some (os1, a))) :
    ∃ e, OracleInv cfg g os₀ ms' os1 (produced ++ [e]) := by
  unfold AMROracle.get_arc_action at harc
  obtain ⟨top, hpl, harc⟩ := bind_ok harc
  try dsimp only at harc
  obtain ⟨current, hcur0, harc⟩ := bind_ok harc
  try dsimp only at harc
  obtain ⟨e, hel, dsrc, dtgt, osm, hls, hlt, hrem2, hdir⟩ :=
    arcScan_inv cfg ms top current _ os os1 a harc
  have htopl : ms.node_stack.getLast? = some top := pyLast_ok hpl
  have hcurlk : os.node_reverse_map.lookup top = some current :=
    dlookupE_ok hcur0
  have htopnm : top ∉ ms.node_stack.dropLast :=
    pairwise_lt_last_not_dropLast inv.hstackinc htopl
  obtain ⟨hmem2, herase2, hother2, hm2a, hr2a, hg2a, hb2a, hn2a⟩ :=
    pendRemove_spec hrem2
  refine ⟨e, ?_⟩
  rcases hdir with ⟨hds, hdt, haeq, hrem1⟩ | ⟨hdt2, hds2, haeq, hrem1⟩
  · -- LA direction: e.1 sits on top, e.2.2 deeper in the stack
    obtain ⟨hmem1, herase1, hother1, hm1a, hr1a, hg1a, hb1a, hn1a⟩ :=
      pendRemove_spec hrem1
    have hsrcmap : os.node_map.lookup e.1 = some top := by
      rw [hls, hds]
    have hbije1 : os.node_reverse_map.lookup top = some e.1 :=
      (inv.hbij e.1 top).1 hsrcmap
    have he1cur : e.1 = current := by
      rw [hcurlk] at hbije1
      injection hbije1 with hh
      exact hh.symm
    have hne : e.1 ≠ e.2.2 := by
      intro heq
      rw [← heq, hsrcmap] at hlt
      injection hlt with hlt
      rw [← hlt] at hdt
      exact htopnm hdt
    rw [haeq] at hup
    obtain ⟨src, tgt, hplu, hres, hedgv⟩ := update_la_inv cfg hup
    have hsrceq : src = top := by
      rw [hpl] at hplu
      injection hplu with hh
      exact hh.symm
    have htgteq : tgt = dtgt := by
      rcases hres with ⟨habs, htgtv⟩ | ⟨habs, hpyidx⟩
      · rw [htgtv]
        unfold arcIndex
        rw [if_pos habs]
      · obtain ⟨hilt, hl2, hpy⟩ := mem_dropLast_pyIdx hdt
        rw [show arcIndex cfg ms dtgt =
            ms.node_stack.length - ms.node_stack.indexOf dtgt - 2 from by
          unfold arcIndex
          rw [if_neg (by simp [habs])]] at hpyidx
        rw [hpy] at hpyidx
        injection hpyidx with hh
        exact hh.symm
    have hedgv2 : ms'.edges = ms.edges ++ [(top, e.2.1, dtgt)] := by
      rw [hedgv, hsrceq, htgteq]
    have hpe2 : Multiset.ofList (pendOf os e.2.2) =
        Multiset.ofList (pendOf os1 e.2.2) + {e} := by
      have hq : pendOf os1 e.2.2 = (pendOf os e.2.2).erase e := by
        rw [hother2 e.2.2 (by rw [← he1cur]; exact fun hq => hne hq.symm),
          herase1]
      rw [hq, ofList_mem_erase hmem1, cons_eq_add_singleton]
    have hosm : pendOf osm e.1 = pendOf os e.1 := hother1 e.1 hne
    have hpe1 : Multiset.ofList (pendOf os e.1) =
        Multiset.ofList (pendOf os1 e.1) + {e} := by
      have hq : pendOf os1 e.1 = (pendOf os e.1).erase e := by
        rw [← he1cur] at herase2
        rw [herase2, hosm]
      have hmemX : e ∈ pendOf os e.1 := by
        rw [← he1cur] at hmem2
        rw [hosm] at hmem2
        exact hmem2
      rw [hq, ofList_mem_erase hmemX, cons_eq_add_singleton]
    have hpother : ∀ n, n ≠ e.1 → n ≠ e.2.2 → pendOf os1 n = pendOf os n := by
      intro n h1 h2
      rw [hother2 n (by rw [← he1cur]; exact h1), hother1 n h2]
    exact step_arc_core inv hup hrg (hg2a.trans hg1a) (hb2a.trans hb1a)
      (hm2a.trans hm1a) (hr2a.trans hr1a) hne hpe1 hpe2 hpother hsrcmap hlt
      hedgv2 rfl rfl (fun hh => Action.noConfusion hh)
      (fun hh => Action.noConfusion hh) (fun hh => Action.noConfusion hh)
  · -- RA direction: e.2.2 sits on top, e.1 deeper in the stack
    obtain ⟨hmem1, herase1, hother1, hm1a, hr1a, hg1a, hb1a, hn1a⟩ :=
      pendRemove_spec hrem1
    have htgtmap : os.node_map.lookup e.2.2 = some top := by
      rw [hlt, hdt2]
    have hbije2 : os.node_reverse_map.lookup top = some e.2.2 :=
      (inv.hbij e.2.2 top).1 htgtmap
    have he2cur : e.2.2 = current := by
      rw [hcurlk] at hbije2
      injection hbije2 with hh
      exact hh.symm
    have hne : e.1 ≠ e.2.2 := by
      intro heq
      rw [heq, htgtmap] at hls
      injection hls with hls
      rw [← hls] at hds2
      exact htopnm hds2
    rw [haeq] at hup
    obtain ⟨src, tgt, hplu, hres, hedgv⟩ := update_ra_inv cfg hup
    have htgteq : tgt = top := by
      rw [hpl] at hplu
      injection hplu with hh
      exact hh.symm
    have hsrceq : src = dsrc := by
      rcases hres with ⟨habs, hsrcv⟩ | ⟨habs, hpyidx⟩
      · rw [hsrcv]
        unfold arcIndex
        rw [if_pos habs]
      · obtain ⟨hilt, hl2, hpy⟩ := mem_dropLast_pyIdx hds2
        rw [show arcIndex cfg ms dsrc =
            ms.node_stack.length - ms.node_stack.indexOf dsrc - 2 from by
          unfold arcIndex
          rw [if_neg (by simp [habs])]] at hpyidx
        rw [hpy] at hpyidx
        injection hpyidx with hh
        exact hh.symm
    have hedgv2 : ms'.edges = ms.edges ++ [(dsrc, e.2.1, top)] := by
      rw [hedgv, hsrceq, htgteq]
    have hosm : pendOf osm e.2.2 = pendOf os e.2.2 :=
      hother1 e.2.2 (fun hq => hne hq.symm)
    have hpe2 : Multiset.ofList (pendOf os e.2.2) =
        Multiset.ofList (pendOf os1 e.2.2) + {e} := by
      have hq : pendOf os1 e.2.2 = (pendOf os e.2.2).erase e := by
        rw [← he2cur] at herase2
        rw [herase2, hosm]
      have hmemX : e ∈ pendOf os e.2.2 := by
        rw [← he2cur] at hmem2
        rw [hosm] at hmem2
        exact hmem2
      rw [hq, ofList_mem_erase hmemX, cons_eq_add_singleton]
    have hpe1 : Multiset.ofList (pendOf os e.1) =
        Multiset.ofList (pendOf os1 e.1) + {e} := by
      have hq : pendOf os1 e.1 = (pendOf os e.1).erase e := by
        rw [hother2 e.1 (by rw [← he2cur]; exact hne), herase1]
      rw [hq, ofList_mem_erase hmem1, cons_eq_add_singleton]
    have hpother : ∀ n, n ≠ e.1 → n ≠ e.2.2 → pendOf os1 n = pendOf os n := by
      intro n h1 h2
      rw [hother2 n (by rw [← he2cur]; exact h2), hother1 n h1]
    exact step_arc_core inv hup hrg (hg2a.trans hg1a) (hb2a.trans hb1a)
      (hm2a.trans hm1a) (hr2a.trans hr1a) hne hpe1 hpe2 hpother hls htgtmap
      hedgv2 rfl rfl (fun hh => Action.noConfusion hh)
      (fun hh => Action.noConfusion hh) (fun hh => Action.noConfusion hh)

theorem step_inv {cfg : MachineConfig} {g : AMR} {os₀ : AMROracle}
    {ms ms' : AMRStateMachine} {os os' : AMROracle}
    {produced : List (String × String × String)} {a : Action}
    (hred : cfg.reduce_nodes = none)
    (inv : OracleInv cfg g os₀ ms os produced)
    (h : driverStep cfg ms os = .ok (ms', os', a)) :
    (∃ produced', OracleInv cfg g os₀ ms' os' produced') ∨
    (a = .close ∧ ClosedFacts g os₀ ms' os') := by
  obtain ⟨os1, oact, hga, hcase, hup⟩ := driverStep_inv h
  rcases get_actions_cases hred hga with
    ⟨hos1, hoact, hrootn, top, hlast, hlk⟩ | ⟨hrg0, hB⟩
  · -- ROOT step
    rcases hcase with ⟨hpo, hos'⟩ | ⟨gid, hpo, hos'⟩
    · rw [hoact] at hpo
      injection hpo with hpo
      subst hpo
      have hosfin : os' = os := hos'.trans hos1
      subst hosfin
      obtain ⟨htoksu, hhistu, hcuru, hclosedu, hnodesu, hedgesu, hrootu,
        hstacku⟩ := update_fields cfg _ ms ms' hup
      left
      refine ⟨produced, inv_same_oracle inv hup rfl rfl rfl
        (fun hh => Action.noConfusion hh) ?_ ?_ ?_⟩
      · rw [hcuru, if_neg (fun hh => Action.noConfusion hh)]
        exact inv.hcur
      · intro pos hpos gid hg
        rw [hcuru, if_neg (fun hh => Action.noConfusion hh)] at hpos
        exact inv.hbuckets pos hpos gid hg
      · refine Or.inr ⟨top, ?_, ?_⟩
        · rw [hrootu, if_pos rfl]
          exact hlast
        · refine (inv.hbij g.root top).2 ?_
          rw [inv.hgold] at hlk
          exact hlk
    · rw [hoact] at hpo
      exact OAction.noConfusion hpo
  · rcases hB with ⟨a0, hlen, harc, hoact⟩ | ⟨hos1, hns⟩ |
      ⟨hos1, hoact, hns, hcur⟩ | ⟨hos1, hoact, hns, hcur⟩
    · -- arc step
      rcases hcase with ⟨hpo, hos'⟩ | ⟨gid, hpo, hos'⟩
      · rw [hoact] at hpo
        injection hpo with hpo
        subst hpo
        subst hos'
        obtain ⟨e, hinv⟩ := step_arc inv hup hrg0 harc
        exact Or.inl ⟨produced ++ [e], hinv⟩
      · rw [hoact] at hpo
        exact OAction.noConfusion hpo
    · -- node generation step
      obtain ⟨a1, gid1, lbl, hoeq, hgmem, hfresh, hglbl, hact⟩ :=
        nodeScan_some os cfg ms _ oact hns
      rcases hcase with ⟨hpo, hos'⟩ | ⟨gid, hpo, hos'⟩
      · rw [hoeq] at hpo
        exact OAction.noConfusion hpo
      · rw [hoeq] at hpo
        injection hpo with hpo1 hpo2
        subst hpo1
        subst hpo2
        subst hos1
        subst hos'
        exact Or.inl ⟨produced, step_gen inv hup hrg0 hfresh hglbl hact⟩
    · -- SHIFT step
      rcases hcase with ⟨hpo, hos'⟩ | ⟨gid, hpo, hos'⟩
      · rw [hoact] at hpo
        injection hpo with hpo
        subst hpo
        have hosfin : os' = os := hos'.trans hos1
        rw [hosfin]
        obtain ⟨htoksu, hhistu, hcuru, hclosedu, hnodesu, hedgesu, hrootu,
          hstacku⟩ := update_fields cfg _ ms ms' hup
        have hcurv : ms'.tok_cursor = ms.tok_cursor + 1 := by
          rw [hcuru, if_pos rfl]
        left
        refine ⟨produced, inv_same_oracle inv hup rfl rfl rfl
          (fun hh => Action.noConfusion hh) ?_ ?_ ?_⟩
        · rw [hcurv]
          rw [inv.htoks] at hcur
          omega
        · intro pos hpos gid hg
          rw [hcurv] at hpos
          by_cases hpe : pos = ms.tok_cursor
          · subst hpe
            have hb : bucketOf os ms.tok_cursor = bucketOf os₀ ms.tok_cursor := by
              unfold bucketOf
              rw [inv.habt]
            rw [← hb] at hg
            exact nodeScan_none os cfg ms _ hns gid hg
          · exact inv.hbuckets pos (by omega) gid hg
        · have hrootval : ms'.root = ms.root := by
            rw [hrootu, if_neg (fun hh => Action.noConfusion hh)]
          rcases inv.hroot with ⟨hnone, hsub⟩ | ⟨did, hrs, hrm⟩
          · rcases hsub with hmnone | ⟨top, hlast, hlk⟩
            · exact Or.inl ⟨hrootval ▸ hnone, Or.inl hmnone⟩
            · exact absurd ⟨hnone, top, hlast, by rw [inv.hgold]; exact hlk⟩
                hrg0
          · exact Or.inr ⟨did, hrootval ▸ hrs, hrm⟩
      · rw [hoact] at hpo
        exact OAction.noConfusion hpo
    · -- CLOSE step
      rcases hcase with ⟨hpo, hos'⟩ | ⟨gid, hpo, hos'⟩
      · rw [hoact] at hpo
        injection hpo with hpo
        subst hpo
        have hosfin : os' = os := hos'.trans hos1
        subst hosfin
        obtain ⟨htoksu, hhistu, hcuru, hclosedu, hnodesu, hedgesu, hrootu,
          hstacku⟩ := update_fields cfg _ ms ms' hup
        have hnodeseq : ms'.nodes = ms.nodes := by
          rcases hnodesu with ⟨hg2, _⟩ | ⟨_, hn⟩
          · exact Bool.noConfusion hg2
          · exact hn
        have hcureq : ms.tok_cursor = g.tokens.length := by
          rw [inv.htoks] at hcur
          have := inv.hcur
          omega
        right
        refine ⟨rfl, inv.hgold, ?_, ?_, ?_, ?_, ?_⟩
        · rw [hclosedu]
          rfl
        · intro gid did hm
          obtain ⟨lbl, h1, h2⟩ := inv.hlabels gid did hm
          exact ⟨lbl, h1, hnodeseq ▸ h2⟩
        · refine ⟨produced, ?_, inv.hpendacc⟩
          rw [hedgesu rfl]
          exact inv.hedges
        · intro pos hpos gid hg
          rw [← hcureq] at hpos
          exact inv.hbuckets pos hpos gid hg
        · have hrootval : ms'.root = ms.root := by
            rw [hrootu, if_neg (fun hh => Action.noConfusion hh)]
          rcases inv.hroot with ⟨hnone, hsub⟩ | ⟨did, hrs, hrm⟩
          · rcases hsub with hmnone | ⟨top, hlast, hlk⟩
            · exact Or.inl ⟨hrootval ▸ hnone, hmnone⟩
            · exact absurd ⟨hnone, top, hlast, by rw [inv.hgold]; exact hlk⟩
                hrg0
          · exact Or.inr ⟨did, hrootval ▸ hrs, hrm⟩
      · rw [hoact] at hpo
        exact OAction.noConfusion hpo

theorem runLoop_closed {cfg : MachineConfig} :
    ∀ (fuel : Nat) (ms : AMRStateMachine) (os : AMROracle)
      (acc : List Action) (msF : AMRStateMachine) (osF : AMROracle)
      (A : List Action),
    ms.is_closed = true →
    runLoop cfg fuel ms os acc = .ok (some (msF, osF, A)) →
    msF = ms ∧ osF = os := by
  intro fuel ms os acc msF osF A hc h
  cases fuel with
  | zero =>
    unfold runLoop at h
    injection h with h
    exact Option.noConfusion h
  | succ n =>
    unfold runLoop at h
    rw [if_pos hc] at h
    injection h with h
    injection h with h
    obtain ⟨h1, h2⟩ := Prod.mk.injEq .. ▸ h
    obtain ⟨h3, _⟩ := Prod.mk.injEq .. ▸ h2
    exact ⟨h1.symm, h3.symm⟩

theorem runLoop_inv {cfg : MachineConfig} {g : AMR} {os₀ : AMROracle}
    (hred : cfg.reduce_nodes = none) :
    ∀ (fuel : Nat) (ms : AMRStateMachine) (os : AMROracle)
      (acc : List Action) (produced : List (String × String × String))
      (msF : AMRStateMachine) (osF : AMROracle) (A : List Action),
    OracleInv cfg g os₀ ms os produced →
    runLoop cfg fuel ms os acc = .ok (some (msF, osF, A)) →
    ClosedFacts g os₀ msF osF := by
  intro fuel
  induction fuel with
  | zero =>
    intro ms os acc produced msF osF A inv h
    unfold runLoop at h
    injection h with h
    exact Option.noConfusion h
  | succ n ih =>
    intro ms os acc produced msF osF A inv h
    unfold runLoop at h
    rw [if_neg (by rw [inv.hclosed]; exact fun hh => Bool.noConfusion hh)] at h
    obtain ⟨⟨ms1, os1, a⟩, hstep, h⟩ := bind_ok h
    dsimp only at h
    rcases step_inv hred inv hstep with ⟨produced2, inv2⟩ | ⟨hac, hcf⟩
    · exact ih ms1 os1 _ produced2 msF osF A inv2 h
    · obtain ⟨hms, hos⟩ := runLoop_closed n ms1 os1 _ msF osF A hcf.hclosed h
      rw [hms, hos]
      exact hcf

theorem runLoop_replay {cfg : MachineConfig} :
    ∀ (fuel : Nat) (ms : AMRStateMachine) (os : AMROracle)
      (acc : List Action) (msF : AMRStateMachine) (osF : AMROracle)
      (A : List Action),
    runLoop cfg fuel ms os acc = .ok (some (msF, osF, A)) →
    ∃ suff, A = acc.reverse ++ suff ∧ applyActions cfg ms suff = .ok msF := by
  intro fuel
  induction fuel with
  | zero =>
    intro ms os acc msF osF A h
    unfold runLoop at h
    injection h with h
    exact Option.noConfusion h
  | succ n ih =>
    intro ms os acc msF osF A h
    unfold runLoop at h
    by_cases hc : ms.is_closed = true
    · rw [if_pos hc] at h
      injection h with h
      injection h with h
      obtain ⟨h1, h2⟩ := Prod.mk.injEq .. ▸ h
      obtain ⟨h3, h4⟩ := Prod.mk.injEq .. ▸ h2
      refine ⟨[], by rw [← h4, List.append_nil], ?_⟩
      rw [← h1]
      rfl
    · rw [if_neg hc] at h
      obtain ⟨⟨ms1, os1, a⟩, hstep, h⟩ := bind_ok h
      dsimp only at h
      obtain ⟨suff, hA, happ⟩ := ih ms1 os1 (a :: acc) msF osF A h
      refine ⟨a :: suff, ?_, ?_⟩
      · rw [hA, List.reverse_cons, List.append_assoc]
        rfl
      · obtain ⟨os1b, oact, _, _, hup⟩ := driverStep_inv hstep
        unfold applyActions
        rw [hup]
        exact happ

theorem reset_init_inv {gold : AMR} {os₀ : AMROracle}
    (cfg : MachineConfig) (hres : AMROracle.reset gold = .ok os₀) :
    OracleInv cfg os₀.gold os₀ (AMRStateMachine.reset gold.tokens) os₀ [] := by
  obtain ⟨hmap0, hrev0, u, hfix⟩ := reset_fields hres
  obtain ⟨htk, hnd, hed, hrt⟩ := fix_alignments_preserves hfix
  refine ⟨rfl, rfl, ?_, ?_, rfl, ?_, ?_, ?_, ?_, ?_, ?_, ?_, rfl, ?_, ?_, ?_⟩
  · exact htk.symm
  · exact Nat.zero_le _
  · intro gid did
    rw [hmap0, hrev0]
    constructor
    · intro hh
      exact Option.noConfusion hh
    · intro hh
      exact Option.noConfusion hh
  · intro gid did hh
    rw [hmap0] at hh
    exact Option.noConfusion hh
  · intro gid did hh
    rw [hmap0] at hh
    exact Option.noConfusion hh
  · intro p hp
    exact absurd hp (List.not_mem_nil p)
  · exact List.Pairwise.nil
  · intro d hd
    exact absurd hd (List.not_mem_nil d)
  · intro pos hpos
    exact absurd hpos (Nat.not_lt_zero pos)
  · intro e he
    exact absurd he (List.not_mem_nil e)
  · intro n
    simp [touchingEdges]
  · refine Or.inl ⟨rfl, Or.inl ?_⟩
    rw [hmap0]
    rfl

/-- Claim C1: round-trip law.  For a well-formed gold graph (oracle reset
succeeds, distinct node ids, the root is a node, every node lands in an
alignment bucket of a real token position), a successful oracle run with
default-style configuration (`reduce_nodes = None`) and no coverage gap
(every pending edge materialized) yields an action sequence whose replay
on a fresh machine reproduces the oracle-side machine exactly, and the
decoded graph matches the gold graph under `node_map`: every gold node
label (normalized) appears at its decoded id, the decoded edge list is a
permutation of the gold edges mapped through `node_map`, and the decoded
root is the image of the gold root. -/
theorem claim_C1 (cfg : MachineConfig) (gold : AMR) (fuel : Nat)
    (msF : AMRStateMachine) (osF : AMROracle) (A : List Action)
    (hred : cfg.reduce_nodes = none)
    (hwf : wfGoldB gold = true)
    (hrun : runOracle cfg gold fuel = .ok (some (msF, osF, A)))
    (hpend : pendAllEmpty osF = true) :
    replay cfg gold.tokens A = .ok msF ∧
    (∀ gid lbl, (gid, lbl) ∈ gold.nodes →
       ∃ did, osF.node_map.lookup gid = some did ∧
         msF.nodes.lookup did = some (normalize lbl)) ∧
    msF.edges.Perm (gold.edges.map (mapEdge osF)) ∧
    (∃ did, osF.node_map.lookup gold.root = some did ∧
       msF.root = some did) := by
  unfold runOracle at hrun
  obtain ⟨os₀, hres, hrun⟩ := bind_ok hrun
  dsimp only at hrun
  unfold wfGoldB at hwf
  rw [hres] at hwf
  simp only [Bool.and_eq_true] at hwf
  obtain ⟨⟨hnodup0, hrootc⟩, hcov0⟩ := hwf
  have hnodup : (gold.nodes.map Prod.fst).Nodup := of_decide_eq_true hnodup0
  have hrootmem : gold.root ∈ gold.nodes.map Prod.fst := by
    simpa using hrootc
  obtain ⟨hmap0, hrev0, u, hfix⟩ := reset_fields hres
  obtain ⟨htk, hnd, hed, hrt⟩ := fix_alignments_preserves hfix
  have inv0 := reset_init_inv cfg hres
  have hcf := runLoop_inv hred fuel (AMRStateMachine.reset gold.tokens) os₀
    [] [] msF osF A inv0 hrun
  obtain ⟨suff, hA, happ⟩ := runLoop_replay fuel
    (AMRStateMachine.reset gold.tokens) os₀ [] msF osF A hrun
  simp only [List.reverse_nil, List.nil_append] at hA
  have hcovermap : ∀ gid ∈ gold.nodes.map Prod.fst,
      (osF.node_map.lookup gid).isSome = true := by
    intro gid hgid
    obtain ⟨⟨gid2, lbl2⟩, hpmem, hpeq⟩ := List.mem_map.1 hgid
    have h3 := (List.all_eq_true.1 hcov0) _ hpmem
    obtain ⟨pos, hposmem, hposhit⟩ := List.any_eq_true.1 h3
    have hposlt : pos < gold.tokens.length := List.mem_range.1 hposmem
    have hbmem : gid ∈ bucketOf os₀ pos := by
      rw [← hpeq]
      simpa using hposhit
    refine hcf.hcover pos ?_ gid hbmem
    rw [htk]
    exact hposlt
  refine ⟨?_, ?_, ?_, ?_⟩
  · unfold replay
    rw [← hA] at happ
    exact happ
  · intro gid lbl hmem
    have hl : gold.nodes.lookup gid = some lbl := mem_lookup_nodup hnodup hmem
    have hs := hcovermap gid (List.mem_map.2 ⟨(gid, lbl), hmem, rfl⟩)
    rcases hdid : osF.node_map.lookup gid with _ | did
    · rw [hdid] at hs
      exact Bool.noConfusion hs
    · obtain ⟨lbl2, hglook, hmnodes⟩ := hcf.hlabels gid did hdid
      rw [hnd, hl] at hglook
      injection hglook with hglook
      rw [hglook]
      exact ⟨did, rfl, hmnodes⟩
  · have hpend0 : ∀ n, pendOf osF n = [] := pendAllEmpty_pendOf hpend
    obtain ⟨P, hPedges, hPacc⟩ := hcf.hedges
    have hperm : P.Perm os₀.gold.edges := by
      refine perm_of_touching_eq ?_
      intro n
      have h1 := hPacc n
      rw [hpend0 n] at h1
      have h2 : Multiset.ofList (pendOf os₀ n) =
          Multiset.ofList (touchingEdges os₀.gold.edges n) :=
        Multiset.coe_eq_coe.2 (reset_pend_perm hres n)
      rw [h2] at h1
      have h3 : Multiset.ofList ([] :
          List (String × String × String)) = 0 := rfl
      rw [h3, zero_add] at h1
      exact h1.symm
    rw [hPedges, ← hed]
    exact hperm.map (mapEdge osF)
  · rcases hcf.hroot with ⟨hrnone, hmnone⟩ | ⟨did, hrs, hrm⟩
    · have hs := hcovermap gold.root hrootmem
      rw [← hrt, hmnone] at hs
      exact Bool.noConfusion hs
    · rw [hrt] at hrm
      exact ⟨did, hrm, hrs⟩

/-- Witness for C1 at the concrete graph `amrDogBites`. -/
theorem claim_C1_witness :
    wfGoldB amrDogBites = true ∧
    pendAllEmpty osC1w = true ∧
    (replay cfgDefault amrDogBites.tokens aC1w = .ok msC1w ∧
     (∀ gid lbl, (gid, lbl) ∈ amrDogBites.nodes →
        ∃ did, osC1w.node_map.lookup gid = some did ∧
          msC1w.nodes.lookup did = some (normalize lbl)) ∧
     msC1w.edges.Perm (amrDogBites.edges.map (mapEdge osC1w)) ∧
     (∃ did, osC1w.node_map.lookup amrDogBites.root = some did ∧
        msC1w.root = some did)) :=
  ⟨rfl, rfl, claim_C1 cfgDefault amrDogBites 20 msC1w osC1w aC1w rfl rfl rfl
    rfl⟩

end AmrMachine
